import Mathlib

/-!
# ChessEngine: a verification development

Two engines live in the repository:

* `Replit_ChessEngine.cpp`, the array engine (namespace `Replit`): a board is
  an array of 64 one-byte pieces indexed by square `0..63`.
* `engine.cpp`, the string engine (namespace `Engine`): a board is a map from
  square names `"A1".."H8"` to piece names such as `"white_pawn"`.

Both are embedded shallowly: every C++ function becomes a Lean function of the
same name, `vector` outputs become lists in push order, loops over the fixed
direction tables become list traversals, and the `while (in_bounds ...)` ray
loops carry a fuel of 8 steps; the theorems `slide_moves_fuel`,
`ray_attacked_fuel`, `ray_moves_fuel` and `ray_attacked_fuel_colrow` show that
more fuel never changes a result, so the bound is not what stops a loop.

Definitions come first (both engines, then the vocabulary and the concrete
positions used in the statements), theorems after them.
-/

namespace Replit

/-! ## Data structures (Replit_ChessEngine.cpp, lines 25-75) -/

/-- The `enum Piece : uint8_t`. -/
inductive Piece where
  | EMPTY
  | W_PAWN | W_KNIGHT | W_BISHOP | W_ROOK | W_QUEEN | W_KING
  | B_PAWN | B_KNIGHT | B_BISHOP | B_ROOK | B_QUEEN | B_KING
deriving DecidableEq, Repr

open Piece

/-- The numeric value of each enumerator. -/
def Piece.code : Piece → Int
  | EMPTY => 0
  | W_PAWN => 1 | W_KNIGHT => 2 | W_BISHOP => 3 | W_ROOK => 4 | W_QUEEN => 5 | W_KING => 6
  | B_PAWN => 9 | B_KNIGHT => 10 | B_BISHOP => 11 | B_ROOK => 12 | B_QUEEN => 13 | B_KING => 14

/-- The `struct Board`: `squares[sq]` is `b sq`. Only the indices `0..63` exist in
the source; the engine reads no other index on moves whose squares are in range,
and the one store that can leave the array on such a move, the en-passant
removal of `apply_move`, is modelled there. -/
abbrev Board := Int → Piece

/-- The assignment `board[sq] = p`. -/
def Board.set (b : Board) (sq : Int) (p : Piece) : Board :=
  fun i => if i = sq then p else b i

/-- The default-constructed board (`memset(squares, 0, 64)`). -/
def Board.empty : Board := fun _ => EMPTY

/-- The `struct CastlingRights`: one `uint8_t`, bits 0=WK, 1=WQ, 2=BK, 3=BQ. -/
structure CastlingRights where
  rights : Nat
deriving DecidableEq, Repr

/-- The bit index computed by `get` and `set`. -/
def CastlingRights.bit (is_white kingside : Bool) : Nat :=
  (if is_white then 0 else 2) + (if kingside then 0 else 1)

/-- The method `CastlingRights::get`. -/
def CastlingRights.get (c : CastlingRights) (is_white kingside : Bool) : Bool :=
  ((c.rights >>> CastlingRights.bit is_white kingside) &&& 1) != 0

/-- The method `CastlingRights::set`; the result is stored back into the byte, so
the complement `~(1 << bit)` acts as the 8-bit mask `255 - 2^bit`. -/
def CastlingRights.set (c : CastlingRights) (is_white kingside value : Bool) : CastlingRights :=
  if value then ⟨(c.rights ||| (1 <<< CastlingRights.bit is_white kingside)) % 256⟩
  else ⟨c.rights &&& (255 - (1 <<< CastlingRights.bit is_white kingside))⟩

/-- The `struct Move` (`from`, `to`, both `uint8_t` holding a square `0..63`). -/
structure Move where
  from_ : Int
  to_ : Int
deriving DecidableEq, Repr

/-- The `struct GameState`; `en_passant` is an `int8_t`, `-1` or a square. The three
members are laid out one after the other: `board` at bytes 0..63,
`castling.rights` at byte 64, `en_passant` at byte 65. -/
structure GameState where
  board : Board
  castling : CastlingRights
  en_passant : Int

/-! ## Coordinates and piece helpers (lines 81-112) -/

def square_to_file (sq : Int) : Int := Int.land sq 7
def square_to_rank (sq : Int) : Int := sq >>> 3
def make_square (file rank : Int) : Int := Int.lor (rank <<< 3) file

def is_white (p : Piece) : Bool := decide (W_PAWN.code ≤ p.code) && decide (p.code ≤ W_KING.code)
def is_black (p : Piece) : Bool := decide (B_PAWN.code ≤ p.code) && decide (p.code ≤ B_QUEEN.code)
def is_empty (p : Piece) : Bool := decide (p = EMPTY)
def is_color (p : Piece) (white : Bool) : Bool := if white then is_white p else is_black p

def piece_type (p : Piece) : Int :=
  if p = EMPTY then 0
  else if is_white p then p.code - W_PAWN.code + 1 else p.code - B_PAWN.code + 1

/-! ## Move generation (lines 134-345) -/

def KNIGHT_OFFSETS : List (Int × Int) :=
  [(2,1), (1,2), (-1,2), (-2,1), (-2,-1), (-1,-2), (1,-2), (2,-1)]

def KING_OFFSETS : List (Int × Int) :=
  [(0,1), (0,-1), (1,0), (-1,0), (1,1), (1,-1), (-1,1), (-1,-1)]

def ROOK_DIRS : List (Int × Int) := [(0,1), (0,-1), (-1,0), (1,0)]
def BISHOP_DIRS : List (Int × Int) := [(1,1), (-1,1), (-1,-1), (1,-1)]

def in_bounds (file rank : Int) : Bool :=
  decide (0 ≤ file) && decide (file ≤ 7) && decide (0 ≤ rank) && decide (rank ≤ 7)

/-- The `while (in_bounds(f, r))` loop of `generate_sliding_moves` for one direction,
started at `(f, r)`; returns the moves pushed, in order. -/
def slide_moves (board : Board) (from_ : Int) (white : Bool) (df dr : Int) :
    Nat → Int → Int → List Move
  | 0, _, _ => []
  | fuel + 1, f, r =>
    if in_bounds f r then
      if is_empty (board (make_square f r)) then
        Move.mk from_ (make_square f r) :: slide_moves board from_ white df dr fuel (f + df) (r + dr)
      else if is_color (board (make_square f r)) (!white) then
        [Move.mk from_ (make_square f r)]
      else []
    else []

def generate_sliding_moves (board : Board) (from_ : Int) (dirs : List (Int × Int))
    (white : Bool) : List Move :=
  dirs.flatMap fun d =>
    slide_moves board from_ white d.1 d.2 8
      (square_to_file from_ + d.1) (square_to_rank from_ + d.2)

def generate_knight_moves (board : Board) (from_ : Int) (white : Bool) : List Move :=
  KNIGHT_OFFSETS.flatMap fun o =>
    if in_bounds (square_to_file from_ + o.1) (square_to_rank from_ + o.2) then
      let to_ := make_square (square_to_file from_ + o.1) (square_to_rank from_ + o.2)
      if is_empty (board to_) || is_color (board to_) (!white) then [Move.mk from_ to_] else []
    else []

/-- The "Normal king moves" loop of `generate_king_moves`. -/
def king_step_moves (board : Board) (from_ : Int) (white : Bool) : List Move :=
  KING_OFFSETS.flatMap fun o =>
    if in_bounds (square_to_file from_ + o.1) (square_to_rank from_ + o.2) then
      let to_ := make_square (square_to_file from_ + o.1) (square_to_rank from_ + o.2)
      if is_empty (board to_) || is_color (board to_) (!white) then [Move.mk from_ to_] else []
    else []

/-- The "Castling" block of `generate_king_moves`; `none` is the null pointer. -/
def castling_moves (board : Board) (white : Bool) : Option CastlingRights → List Move
  | none => []
  | some castling =>
    if white then
      (if castling.get true true &&
          is_empty (board (make_square 5 0)) && is_empty (board (make_square 6 0))
        then [Move.mk (make_square 4 0) (make_square 6 0)] else []) ++
      (if castling.get true false &&
          is_empty (board (make_square 1 0)) && is_empty (board (make_square 2 0)) &&
          is_empty (board (make_square 3 0))
        then [Move.mk (make_square 4 0) (make_square 2 0)] else [])
    else
      (if castling.get false true &&
          is_empty (board (make_square 5 7)) && is_empty (board (make_square 6 7))
        then [Move.mk (make_square 4 7) (make_square 6 7)] else []) ++
      (if castling.get false false &&
          is_empty (board (make_square 1 7)) && is_empty (board (make_square 2 7)) &&
          is_empty (board (make_square 3 7))
        then [Move.mk (make_square 4 7) (make_square 2 7)] else [])

def generate_king_moves (board : Board) (from_ : Int) (white : Bool)
    (castling : Option CastlingRights) : List Move :=
  king_step_moves board from_ white ++ castling_moves board white castling

/-- The "Forward move" block of `generate_pawn_moves`. -/
def pawn_forward_moves (board : Board) (from_ : Int) (white : Bool) : List Move :=
  let from_file := square_to_file from_
  let from_rank := square_to_rank from_
  let direction : Int := if white then 1 else -1
  let start_rank : Int := if white then 1 else 6
  let forward_rank := from_rank + direction
  if in_bounds from_file forward_rank then
    let forward_sq := make_square from_file forward_rank
    if is_empty (board forward_sq) then
      Move.mk from_ forward_sq ::
        (if from_rank = start_rank then
          let double_sq := make_square from_file (from_rank + 2 * direction)
          if is_empty (board double_sq) then [Move.mk from_ double_sq] else []
        else [])
    else []
  else []

/-- One iteration of the "Captures" loop of `generate_pawn_moves`, for file offset `df`. -/
def pawn_capture_moves (board : Board) (from_ : Int) (white : Bool) (en_passant : Int)
    (df : Int) : List Move :=
  let from_file := square_to_file from_
  let from_rank := square_to_rank from_
  let direction : Int := if white then 1 else -1
  let cap_file := from_file + df
  let cap_rank := from_rank + direction
  if in_bounds cap_file cap_rank then
    let cap_sq := make_square cap_file cap_rank
    let target := board cap_sq
    (if !is_empty target && is_color target (!white) then [Move.mk from_ cap_sq] else []) ++
    (if decide (0 ≤ en_passant) && decide (cap_sq = en_passant) then
      let victim := board (make_square cap_file from_rank)
      let expected := if white then B_PAWN else W_PAWN
      if victim = expected then [Move.mk from_ cap_sq] else []
    else [])
  else []

def generate_pawn_moves (board : Board) (from_ : Int) (white : Bool) (en_passant : Int) :
    List Move :=
  pawn_forward_moves board from_ white ++
    ([-1, 1] : List Int).flatMap (pawn_capture_moves board from_ white en_passant)

/-- The body of the square loop of `generate_pseudo_legal_moves`: the moves pushed
for square `sq`. -/
def moves_from_square (state : GameState) (white : Bool) (sq : Int) : List Move :=
  let piece := state.board sq
  if !is_color piece white then []
  else if piece_type piece = 1 then generate_pawn_moves state.board sq white state.en_passant
  else if piece_type piece = 2 then generate_knight_moves state.board sq white
  else if piece_type piece = 3 then generate_sliding_moves state.board sq BISHOP_DIRS white
  else if piece_type piece = 4 then generate_sliding_moves state.board sq ROOK_DIRS white
  else if piece_type piece = 5 then
    generate_sliding_moves state.board sq ROOK_DIRS white ++
      generate_sliding_moves state.board sq BISHOP_DIRS white
  else if piece_type piece = 6 then
    generate_king_moves state.board sq white (some state.castling)
  else []

def generate_pseudo_legal_moves (state : GameState) (white : Bool) : List Move :=
  (List.range 64).flatMap fun sq => moves_from_square state white (sq : Int)

/-! ## Move simulation and validation (lines 351-531) -/

/-- Returns the first square holding the king, or `-1`. -/
def find_king (board : Board) (white : Bool) : Int :=
  match (List.range 64).find? fun sq => board (sq : Int) = (if white then W_KING else B_KING) with
  | some sq => (sq : Int)
  | none => -1

/-- One ray of the sliding checks of `is_square_attacked`, started at `(f, r)`:
true when the first non-empty square holds `a` or `b`. -/
def ray_attacked (board : Board) (a b : Piece) (df dr : Int) : Nat → Int → Int → Bool
  | 0, _, _ => false
  | fuel + 1, f, r =>
    if in_bounds f r then
      if !is_empty (board (make_square f r)) then
        decide (board (make_square f r) = a) || decide (board (make_square f r) = b)
      else ray_attacked board a b df dr fuel (f + df) (r + dr)
    else false

/-- The offset loops of `is_square_attacked` (knight and king): some in-bounds offset
square holds `p`. -/
def offset_attacked (board : Board) (p : Piece) (offsets : List (Int × Int))
    (file rank : Int) : Bool :=
  offsets.any fun o =>
    in_bounds (file + o.1) (rank + o.2) && decide (board (make_square (file + o.1) (rank + o.2)) = p)

def is_square_attacked (board : Board) (square : Int) (by_white : Bool) : Bool :=
  let file := square_to_file square
  let rank := square_to_rank square
  let pawn_dir : Int := if by_white then 1 else -1
  let enemy_pawn := if by_white then W_PAWN else B_PAWN
  let enemy_knight := if by_white then W_KNIGHT else B_KNIGHT
  let enemy_rook := if by_white then W_ROOK else B_ROOK
  let enemy_bishop := if by_white then W_BISHOP else B_BISHOP
  let enemy_queen := if by_white then W_QUEEN else B_QUEEN
  let enemy_king := if by_white then W_KING else B_KING
  (([-1, 1] : List Int).any fun df =>
      in_bounds (file + df) (rank - pawn_dir) &&
        decide (board (make_square (file + df) (rank - pawn_dir)) = enemy_pawn)) ||
  offset_attacked board enemy_knight KNIGHT_OFFSETS file rank ||
  (ROOK_DIRS.any fun d =>
      ray_attacked board enemy_rook enemy_queen d.1 d.2 8 (file + d.1) (rank + d.2)) ||
  (BISHOP_DIRS.any fun d =>
      ray_attacked board enemy_bishop enemy_queen d.1 d.2 8 (file + d.1) (rank + d.2)) ||
  offset_attacked board enemy_king KING_OFFSETS file rank

def is_in_check (board : Board) (white : Bool) : Bool :=
  let king_sq := find_king board white
  if king_sq < 0 then false else is_square_attacked board king_sq (!white)

/-- The "Update castling rights" block of `apply_move` for a king move: the rook
relocation of the four castling moves. -/
def castle_rook_board (b : Board) (white : Bool) (move : Move) : Board :=
  if white && decide (move.from_ = 4) && decide (move.to_ = 6) then (b.set 7 EMPTY).set 5 W_ROOK
  else if white && decide (move.from_ = 4) && decide (move.to_ = 2) then (b.set 0 EMPTY).set 3 W_ROOK
  else if !white && decide (move.from_ = 60) && decide (move.to_ = 62) then
    (b.set 63 EMPTY).set 61 B_ROOK
  else if !white && decide (move.from_ = 60) && decide (move.to_ = 58) then
    (b.set 56 EMPTY).set 59 B_ROOK
  else b

/-- The rights after the king/rook-moved branch of `apply_move`. -/
def moved_rights (c : CastlingRights) (white : Bool) (ptype : Int) (move : Move) :
    CastlingRights :=
  if ptype = 6 then (c.set white true false).set white false false
  else if ptype = 4 then
    if white then
      if move.from_ = 0 then c.set true false false
      else if move.from_ = 7 then c.set true true false
      else c
    else
      if move.from_ = 56 then c.set false false false
      else if move.from_ = 63 then c.set false true false
      else c
  else c

/-- The "Rook captured" block of `apply_move`. -/
def captured_rights (c : CastlingRights) (captured : Piece) (move : Move) : CastlingRights :=
  if piece_type captured = 4 then
    if move.to_ = 0 then c.set true false false
    else if move.to_ = 7 then c.set true true false
    else if move.to_ = 56 then c.set false false false
    else if move.to_ = 63 then c.set false true false
    else c
  else c

/-- The function `apply_move`. The last store, `new_state.board[victim] = EMPTY` of
the "En passant capture" block, is made whenever a pawn lands on
`state.en_passant`, whatever the index `victim` is. `Board` is `Piece squares[64]`
at bytes 0..63 of the `GameState`, `castling.rights` is byte 64 and `en_passant`
byte 65: for `victim` in `0..63` the store clears a square, for `victim = 64` it
writes 0 into `castling.rights`, for `victim = 65` it writes 0 into `en_passant`;
the other indices a move between squares `0..63` can give (`-8..-1` and `66..71`)
lie outside the object and leave the returned state as it is. -/
def apply_move (state : GameState) (move : Move) : GameState :=
  let piece := state.board move.from_
  let b1 := (state.board.set move.to_ piece).set move.from_ EMPTY
  let white := is_white piece
  let ptype := piece_type piece
  let b2 := if ptype = 6 then castle_rook_board b1 white move else b1
  let c1 := moved_rights state.castling white ptype move
  let c2 := captured_rights c1 (state.board move.to_) move
  let from_rank := square_to_rank move.from_
  let to_rank := square_to_rank move.to_
  let ep : Int :=
    if ptype = 1 ∧ (to_rank - from_rank).natAbs = 2 then
      make_square (square_to_file move.from_) ((from_rank + to_rank).tdiv 2)
    else -1
  let victim := make_square (square_to_file move.to_) (if white then to_rank - 1 else to_rank + 1)
  let b3 :=
    if ptype = 1 ∧ move.to_ = state.en_passant then
      if 0 ≤ victim ∧ victim < 64 then b2.set victim EMPTY else b2
    else b2
  let c3 : CastlingRights :=
    if ptype = 1 ∧ move.to_ = state.en_passant ∧ victim = 64 then ⟨0⟩ else c2
  let ep3 : Int :=
    if ptype = 1 ∧ move.to_ = state.en_passant ∧ victim = 65 then 0 else ep
  { board := b3, castling := c3, en_passant := ep3 }

def generate_legal_moves (state : GameState) (white : Bool) : List Move :=
  (generate_pseudo_legal_moves state white).filter fun move =>
    !is_in_check (apply_move state move).board white

end Replit

namespace Replit
open Piece

/-! ## Vocabulary for stating the properties -/

/-- The king of a colour. -/
def king_of (white : Bool) : Piece := if white then W_KING else B_KING

/-- The rook of a colour. -/
def rook_of (white : Bool) : Piece := if white then W_ROOK else B_ROOK

/-- The pawn of a colour. -/
def pawn_of (white : Bool) : Piece := if white then W_PAWN else B_PAWN

/-- The king's home square: e1 = 4, e8 = 60. -/
def king_home (white : Bool) : Int := if white then 4 else 60

/-- The rook's home corner of a castling right: h1 = 7, a1 = 0, h8 = 63, a8 = 56. -/
def rook_home (white kingside : Bool) : Int :=
  if white then (if kingside then 7 else 0) else (if kingside then 63 else 56)

/-- The king's destination when castling: g1 = 6, c1 = 2, g8 = 62, c8 = 58. -/
def king_castle_target (white kingside : Bool) : Int :=
  if white then (if kingside then 6 else 2) else (if kingside then 62 else 58)

/-- The square the king crosses when castling, where the rook lands:
f1 = 5, d1 = 3, f8 = 61, d8 = 59. -/
def rook_castle_target (white kingside : Bool) : Int :=
  if white then (if kingside then 5 else 3) else (if kingside then 61 else 59)

/-- The castling-rights invariant of the data model: a right that is set has that
side's king and the matching rook on their home squares. -/
def rights_at_home (s : GameState) : Prop :=
  ∀ c ks : Bool, s.castling.get c ks = true →
    s.board (king_home c) = king_of c ∧ s.board (rook_home c ks) = rook_of c

end Replit

namespace Replit
open Piece

/-! ## Concrete positions used below -/

/-- White king e1, white rook h1, black bishop a6; only the white king-side right. -/
def castleThroughCheck : GameState :=
  { board := ((Board.empty.set 4 W_KING).set 7 W_ROOK).set 40 B_BISHOP,
    castling := ⟨1⟩, en_passant := -1 }

/-- The same position without the bishop. -/
def castleFree : GameState :=
  { board := (Board.empty.set 4 W_KING).set 7 W_ROOK,
    castling := ⟨1⟩, en_passant := -1 }

/-- White king e1 and black king e8, nothing else, no castling rights. -/
def twoKings : GameState :=
  { board := (Board.empty.set 4 W_KING).set 60 B_KING,
    castling := ⟨0⟩, en_passant := -1 }

/-- White pawn a7, white king e1, black king e8, no castling rights. -/
def pawnOnSeventh : GameState :=
  { board := ((Board.empty.set 4 W_KING).set 60 B_KING).set 48 W_PAWN,
    castling := ⟨0⟩, en_passant := -1 }

/-- White pawn e2, white king e1, black king e8, no castling rights. -/
def pawnOnSecond : GameState :=
  { board := ((Board.empty.set 4 W_KING).set 60 B_KING).set 12 W_PAWN,
    castling := ⟨0⟩, en_passant := -1 }

/-- White pawn e5, black pawn d5 that has just played d7-d5, en-passant target d6. -/
def enPassantReady : GameState :=
  { board := (((Board.empty.set 4 W_KING).set 60 B_KING).set 36 W_PAWN).set 35 B_PAWN,
    castling := ⟨0⟩, en_passant := 43 }

end Replit

namespace Engine

/-! ## Data of the string engine (engine.cpp)

Board values are the strings `"empty"` and `"<color>_<kind>"`; squares are the
strings `"A1".."H8"`; a move target is a square name, optionally followed by a
promotion letter. They are represented by the data they spell: the tests
`piece.rfind(color, 0) == 0` and `ends_with(piece, kind)` become tests on the
colour and kind of a piece, and `coords_to_square` / `square_to_coords` become
the pairing of column and row. A `map<string,string>` holding all 64 squares is
a function on squares, iterated in key order (`"A1" < "A2" < ... < "H8"`). -/

inductive Color where
  | white | black
deriving DecidableEq, Repr

inductive Kind where
  | pawn | knight | bishop | rook | queen | king
deriving DecidableEq, Repr

/-- A board value: `"empty"` or `"<color>_<kind>"`. -/
inductive Piece where
  | empty
  | mk (color : Color) (kind : Kind)
deriving DecidableEq, Repr

/-- A square name: column `0..7` for `A..H`, row `0..7` for `1..8`. -/
structure Square where
  col : Int
  row : Int
deriving DecidableEq, Repr

/-- A promotion letter, a key of `PROMO_MAP`. -/
inductive Promo where
  | Q | R | B | N
deriving DecidableEq, Repr

/-- A target string of a move list: the square name plus an optional promotion letter. -/
structure Target where
  sq : Square
  promo : Option Promo
deriving DecidableEq, Repr

/-- The `map<string, map<string,bool>>` of castling rights. -/
structure Rights where
  whiteK : Bool
  whiteQ : Bool
  blackK : Bool
  blackQ : Bool
deriving DecidableEq, Repr

abbrev BoardMap := Square → Piece

/-- The assignment `newb[sq] = p`. -/
def BoardMap.set (b : BoardMap) (sq : Square) (p : Piece) : BoardMap :=
  fun x => if x = sq then p else b x

/-- The test `piece.rfind(color, 0) == 0`: the name starts with the colour. -/
def starts_with (p : Piece) (c : Color) : Bool :=
  match p with
  | Piece.empty => false
  | Piece.mk c2 _ => decide (c2 = c)

/-- The lambda `ends_with(piece, kind)`. -/
def ends_with (p : Piece) (k : Kind) : Bool :=
  match p with
  | Piece.empty => false
  | Piece.mk _ k2 => decide (k2 = k)

/-- The expression `(color == "white") ? "black" : "white"`. -/
def opponent (c : Color) : Color :=
  if c = Color.white then Color.black else Color.white

def PROMO_MAP : Promo → Kind
  | Promo.Q => Kind.queen
  | Promo.R => Kind.rook
  | Promo.B => Kind.bishop
  | Promo.N => Kind.knight

def square_to_coords (square : Square) : Int × Int := (square.col, square.row)

def coords_to_square (col row : Int) : Square := ⟨col, row⟩

def in_bounds_colrow (col row : Int) : Bool :=
  decide (0 ≤ col) && decide (col ≤ 7) && decide (0 ≤ row) && decide (row ≤ 7)

/-- The keys of a full board in map order: `A1, A2, ..., A8, B1, ..., H8`. -/
def all_squares : List Square :=
  (List.range 8).flatMap fun c => (List.range 8).map fun r => coords_to_square (c : Int) (r : Int)

def A1 : Square := ⟨0, 0⟩
def B1 : Square := ⟨1, 0⟩
def C1 : Square := ⟨2, 0⟩
def D1 : Square := ⟨3, 0⟩
def E1 : Square := ⟨4, 0⟩
def F1 : Square := ⟨5, 0⟩
def G1 : Square := ⟨6, 0⟩
def H1 : Square := ⟨7, 0⟩
def A8 : Square := ⟨0, 7⟩
def B8 : Square := ⟨1, 7⟩
def C8 : Square := ⟨2, 7⟩
def D8 : Square := ⟨3, 7⟩
def E8 : Square := ⟨4, 7⟩
def F8 : Square := ⟨5, 7⟩
def G8 : Square := ⟨6, 7⟩
def H8 : Square := ⟨7, 7⟩

def Rights.get (r : Rights) (c : Color) (kingside : Bool) : Bool :=
  match c, kingside with
  | Color.white, true => r.whiteK
  | Color.white, false => r.whiteQ
  | Color.black, true => r.blackK
  | Color.black, false => r.blackQ

/-! ## Castling helpers (lines 61-82) -/

def infer_castling_rights_from_board (board : BoardMap) : Rights :=
  let wk := decide (board E1 = Piece.mk Color.white Kind.king)
  let bk := decide (board E8 = Piece.mk Color.black Kind.king)
  { whiteK := wk && decide (board H1 = Piece.mk Color.white Kind.rook),
    whiteQ := wk && decide (board A1 = Piece.mk Color.white Kind.rook),
    blackK := bk && decide (board H8 = Piece.mk Color.black Kind.rook),
    blackQ := bk && decide (board A8 = Piece.mk Color.black Kind.rook) }

/-! ## Simulation (lines 95-250) -/

/-- The board `newb` that `simulate_move` returns. -/
def simulate_board (board : BoardMap) (from_sq : Square) (to_sq : Target)
    (en_passant_target : Option Square) : BoardMap :=
  let piece := board from_sq
  let real_to := to_sq.sq
  let b0 := board.set from_sq Piece.empty
  -- handle promotion if any and piece is a pawn
  let b1 :=
    match to_sq.promo, piece with
    | some promo, Piece.mk color_label Kind.pawn => b0.set real_to (Piece.mk color_label (PROMO_MAP promo))
    | _, _ => b0.set real_to piece
  -- handle en-passant capture
  let b2 :=
    if ends_with piece Kind.pawn && decide (en_passant_target = some real_to) &&
        decide (board real_to = Piece.empty) then
      let tcol := (square_to_coords real_to).1
      let trow := (square_to_coords real_to).2
      if starts_with piece Color.white then
        if in_bounds_colrow tcol (trow - 1) &&
            decide (board (coords_to_square tcol (trow - 1)) = Piece.mk Color.black Kind.pawn) then
          b1.set (coords_to_square tcol (trow - 1)) Piece.empty
        else b1
      else
        if in_bounds_colrow tcol (trow + 1) &&
            decide (board (coords_to_square tcol (trow + 1)) = Piece.mk Color.white Kind.pawn) then
          b1.set (coords_to_square tcol (trow + 1)) Piece.empty
        else b1
    else b1
  -- handle castling rook relocation
  if piece = Piece.mk Color.white Kind.king then
    if from_sq = E1 ∧ real_to = G1 then (b2.set H1 Piece.empty).set F1 (Piece.mk Color.white Kind.rook)
    else if from_sq = E1 ∧ real_to = C1 then
      (b2.set A1 Piece.empty).set D1 (Piece.mk Color.white Kind.rook)
    else b2
  else if piece = Piece.mk Color.black Kind.king then
    if from_sq = E8 ∧ real_to = G8 then (b2.set H8 Piece.empty).set F8 (Piece.mk Color.black Kind.rook)
    else if from_sq = E8 ∧ real_to = C8 then
      (b2.set A8 Piece.empty).set D8 (Piece.mk Color.black Kind.rook)
    else b2
  else b2

/-- The rights `new_rights` that `simulate_move` returns. -/
def simulate_rights (board : BoardMap) (from_sq : Square) (to_sq : Target)
    (castling_rights : Option Rights) : Rights :=
  let piece := board from_sq
  let real_to := to_sq.sq
  let r0 := match castling_rights with
    | none => infer_castling_rights_from_board board
    | some r => r
  let r1 :=
    if piece = Piece.mk Color.white Kind.king then { r0 with whiteK := false, whiteQ := false }
    else if piece = Piece.mk Color.black Kind.king then { r0 with blackK := false, blackQ := false }
    else r0
  let r2 :=
    if piece = Piece.mk Color.white Kind.rook then
      if from_sq = H1 then { r1 with whiteK := false }
      else if from_sq = A1 then { r1 with whiteQ := false }
      else r1
    else if piece = Piece.mk Color.black Kind.rook then
      if from_sq = H8 then { r1 with blackK := false }
      else if from_sq = A8 then { r1 with blackQ := false }
      else r1
    else r1
  if board real_to = Piece.mk Color.white Kind.rook then
    if real_to = H1 then { r2 with whiteK := false }
    else if real_to = A1 then { r2 with whiteQ := false }
    else r2
  else if board real_to = Piece.mk Color.black Kind.rook then
    if real_to = H8 then { r2 with blackK := false }
    else if real_to = A8 then { r2 with blackQ := false }
    else r2
  else r2

/-- The target `new_en_passant` that `simulate_move` returns (`none` is `""`). -/
def simulate_en_passant (board : BoardMap) (from_sq : Square) (to_sq : Target) : Option Square :=
  let frow := (square_to_coords from_sq).2
  let tcol := (square_to_coords to_sq.sq).1
  let trow := (square_to_coords to_sq.sq).2
  if ends_with (board from_sq) Kind.pawn ∧ (trow - frow).natAbs = 2 then
    some (coords_to_square tcol ((frow + trow).tdiv 2))
  else none

def simulate_move (board : BoardMap) (from_sq : Square) (to_sq : Target)
    (castling_rights : Option Rights) (en_passant_target : Option Square) :
    BoardMap × Rights × Option Square :=
  (simulate_board board from_sq to_sq en_passant_target,
   simulate_rights board from_sq to_sq castling_rights,
   simulate_en_passant board from_sq to_sq)

end Engine

namespace Engine

/-! ## Pseudo-legal moves (lines 257-615) -/

/-- The `while (true)` loop of `rook_moves_from` / `bishop_moves_from` for one
direction, entered with the current `(c, r)`. -/
def ray_moves (board : BoardMap) (color : Color) (dc dr : Int) : Nat → Int → Int → List Square
  | 0, _, _ => []
  | fuel + 1, c, r =>
    if !in_bounds_colrow (c + dc) (r + dr) then []
    else
      let sq := coords_to_square (c + dc) (r + dr)
      if board sq = Piece.empty then sq :: ray_moves board color dc dr fuel (c + dc) (r + dr)
      else if starts_with (board sq) color then []
      else [sq]

def ROOK_DIRECTIONS : List (Int × Int) := [(0,1), (0,-1), (-1,0), (1,0)]
def BISHOP_DIRECTIONS : List (Int × Int) := [(1,1), (-1,1), (-1,-1), (1,-1)]
def KNIGHT_OFFSETS : List (Int × Int) :=
  [(2,1), (1,2), (-1,2), (-2,1), (-2,-1), (-1,-2), (1,-2), (2,-1)]
def KING_OFFSETS : List (Int × Int) :=
  [(0,1), (0,-1), (1,0), (-1,0), (1,1), (1,-1), (-1,1), (-1,-1)]

def rook_moves_from (square : Square) (board : BoardMap) (color : Color) : List Square :=
  ROOK_DIRECTIONS.flatMap fun d =>
    ray_moves board color d.1 d.2 8 (square_to_coords square).1 (square_to_coords square).2

def bishop_moves_from (square : Square) (board : BoardMap) (color : Color) : List Square :=
  BISHOP_DIRECTIONS.flatMap fun d =>
    ray_moves board color d.1 d.2 8 (square_to_coords square).1 (square_to_coords square).2

def queen_moves_from (square : Square) (board : BoardMap) (color : Color) : List Square :=
  rook_moves_from square board color ++ bishop_moves_from square board color

/-- The offset loop shared by `knight_moves_from` and `king_moves_from`: a square is
kept when it is `"empty"` or its name does not start with `color`. -/
def offset_moves (offsets : List (Int × Int)) (square : Square) (board : BoardMap)
    (color : Color) : List Square :=
  offsets.flatMap fun o =>
    let c := (square_to_coords square).1 + o.1
    let r := (square_to_coords square).2 + o.2
    if !in_bounds_colrow c r then []
    else if decide (board (coords_to_square c r) = Piece.empty) ||
        !starts_with (board (coords_to_square c r)) color then [coords_to_square c r]
    else []

def knight_moves_from (square : Square) (board : BoardMap) (color : Color) : List Square :=
  offset_moves KNIGHT_OFFSETS square board color

/-- The castling block of `king_moves_from`. -/
def castling_targets (board : BoardMap) (color : Color) : Option Rights → List Square
  | none => []
  | some castling_rights =>
    if color = Color.white then
      (if castling_rights.whiteK && decide (board F1 = Piece.empty) &&
          decide (board G1 = Piece.empty) then [G1] else []) ++
      (if castling_rights.whiteQ && decide (board B1 = Piece.empty) &&
          decide (board C1 = Piece.empty) && decide (board D1 = Piece.empty) then [C1] else [])
    else
      (if castling_rights.blackK && decide (board F8 = Piece.empty) &&
          decide (board G8 = Piece.empty) then [G8] else []) ++
      (if castling_rights.blackQ && decide (board B8 = Piece.empty) &&
          decide (board C8 = Piece.empty) && decide (board D8 = Piece.empty) then [C8] else [])

def king_moves_from (square : Square) (board : BoardMap) (color : Color)
    (castling_rights : Option Rights) : List Square :=
  offset_moves KING_OFFSETS square board color ++ castling_targets board color castling_rights

/-- The lambda `append_promotions` of `pawn_moves_from`. -/
def append_promotions (target_sq : Square) : List Target :=
  [Promo.Q, Promo.R, Promo.B, Promo.N].map fun p => ⟨target_sq, some p⟩

/-- The row step of a pawn: `+1` in the white branch of `pawn_moves_from`, `-1` in
the black branch. -/
def pawn_dir (color : Color) : Int := if color = Color.white then 1 else -1

/-- The promotion row tested by `pawn_moves_from`: 7 for white, 0 for black. -/
def pawn_last_row (color : Color) : Int := if color = Color.white then 7 else 0

/-- The double-step row tested by `pawn_moves_from`: 1 for white, 6 for black. -/
def pawn_start_row (color : Color) : Int := if color = Color.white then 1 else 6

/-- The forward block of `pawn_moves_from` (white branch or black branch). -/
def pawn_forward (square : Square) (board : BoardMap) (color : Color) : List Target :=
  let col := (square_to_coords square).1
  let row := (square_to_coords square).2
  if (if color = Color.white then decide (row < 7) else decide (row > 0)) then
    if board (coords_to_square col (row + pawn_dir color)) = Piece.empty then
      if row + pawn_dir color = pawn_last_row color then
        append_promotions (coords_to_square col (row + pawn_dir color))
      else
        ⟨coords_to_square col (row + pawn_dir color), none⟩ ::
          (if row = pawn_start_row color then
            if board (coords_to_square col (row + 2 * pawn_dir color)) = Piece.empty then
              [⟨coords_to_square col (row + 2 * pawn_dir color), none⟩]
            else []
          else [])
    else []
  else []

/-- The capture loop of `pawn_moves_from`. -/
def pawn_captures (square : Square) (board : BoardMap) (color : Color) : List Target :=
  ([-1, 1] : List Int).flatMap fun dc =>
    let c := (square_to_coords square).1 + dc
    let r := (square_to_coords square).2 + pawn_dir color
    if in_bounds_colrow c r then
      if decide (board (coords_to_square c r) ≠ Piece.empty) &&
          starts_with (board (coords_to_square c r)) (opponent color) then
        if r = pawn_last_row color then append_promotions (coords_to_square c r)
        else [⟨coords_to_square c r, none⟩]
      else []
    else []

/-- The en-passant loop of `pawn_moves_from`; `none` is a null or empty target. -/
def pawn_en_passant (square : Square) (board : BoardMap) (color : Color) :
    Option Square → List Target
  | none => []
  | some en_passant_target =>
    ([-1, 1] : List Int).flatMap fun dc =>
      let c := (square_to_coords square).1 + dc
      let r := (square_to_coords square).2 + pawn_dir color
      if in_bounds_colrow c r then
        if coords_to_square c r = en_passant_target then
          let tcol := (square_to_coords en_passant_target).1
          let captured_row := (square_to_coords en_passant_target).2 - pawn_dir color
          if in_bounds_colrow tcol captured_row then
            if board (coords_to_square tcol captured_row) = Piece.mk (opponent color) Kind.pawn then
              [⟨en_passant_target, none⟩]
            else []
          else []
        else []
      else []

def pawn_moves_from (square : Square) (board : BoardMap) (color : Color)
    (en_passant_target : Option Square) : List Target :=
  pawn_forward square board color ++ pawn_captures square board color ++
    pawn_en_passant square board color en_passant_target

def pawn_attacks_from (square : Square) (color : Color) : List Square :=
  ([-1, 1] : List Int).flatMap fun dc =>
    let c := (square_to_coords square).1 + dc
    let r := (square_to_coords square).2 + (if color = Color.white then 1 else -1)
    if in_bounds_colrow c r then [coords_to_square c r] else []

/-- A target string without promotion letter. -/
def Target.plain (sq : Square) : Target := ⟨sq, none⟩

/-- The body of the loop of `generate_pseudo_legal_moves`: the list `to_list` built
for board entry `sq` (empty when the entry is skipped). -/
def to_list_of (board : BoardMap) (color : Color) (castling_rights : Option Rights)
    (en_passant_target : Option Square) (sq : Square) : List Target :=
  let piece := board sq
  if decide (piece = Piece.empty) || !starts_with piece color then []
  else if ends_with piece Kind.rook then (rook_moves_from sq board color).map Target.plain
  else if ends_with piece Kind.knight then (knight_moves_from sq board color).map Target.plain
  else if ends_with piece Kind.bishop then (bishop_moves_from sq board color).map Target.plain
  else if ends_with piece Kind.queen then (queen_moves_from sq board color).map Target.plain
  else if ends_with piece Kind.king then
    (king_moves_from sq board color castling_rights).map Target.plain
  else if ends_with piece Kind.pawn then pawn_moves_from sq board color en_passant_target
  else []

/-- The map `moves`: the entries `(sq, to_list)` with a non-empty list, in key order. -/
def generate_pseudo_legal_moves (board : BoardMap) (color : Color)
    (castling_rights : Option Rights) (en_passant_target : Option Square) :
    List (Square × List Target) :=
  all_squares.filterMap fun sq =>
    let to_list := to_list_of board color castling_rights en_passant_target sq
    if to_list.isEmpty then none else some (sq, to_list)

/-! ## Attack and check detection (lines 621-733) -/

/-- One ray of the sliding checks of `is_square_attacked`, started at `(c, r)`. -/
def ray_attacked (board : BoardMap) (by_color : Color) (k1 k2 : Kind) (dc dr : Int) :
    Nat → Int → Int → Bool
  | 0, _, _ => false
  | fuel + 1, c, r =>
    if in_bounds_colrow c r then
      if board (coords_to_square c r) ≠ Piece.empty then
        starts_with (board (coords_to_square c r)) by_color &&
          (ends_with (board (coords_to_square c r)) k1 || ends_with (board (coords_to_square c r)) k2)
      else ray_attacked board by_color k1 k2 dc dr fuel (c + dc) (r + dr)
    else false

/-- One of the three attacker loops of `is_square_attacked`: some board entry of
`by_color` and kind `k` has `square` in its list `attacks a`. -/
def attacker_loop (board : BoardMap) (square : Square) (by_color : Color) (k : Kind)
    (attacks : Square → List Square) : Bool :=
  all_squares.any fun a =>
    !(decide (board a = Piece.empty) || !starts_with (board a) by_color) &&
      ends_with (board a) k && decide (square ∈ attacks a)

def ORTH_DIRS : List (Int × Int) := [(0,1), (0,-1), (-1,0), (1,0)]
def DIAG_DIRS : List (Int × Int) := [(1,1), (1,-1), (-1,1), (-1,-1)]

def is_square_attacked (board : BoardMap) (square : Square) (by_color : Color) : Bool :=
  attacker_loop board square by_color Kind.pawn (fun a => pawn_attacks_from a by_color) ||
  attacker_loop board square by_color Kind.knight (fun a => knight_moves_from a board by_color) ||
  attacker_loop board square by_color Kind.king
    (fun a => king_moves_from a board by_color none) ||
  (ORTH_DIRS.any fun d =>
    ray_attacked board by_color Kind.rook Kind.queen d.1 d.2 8
      ((square_to_coords square).1 + d.1) ((square_to_coords square).2 + d.2)) ||
  (DIAG_DIRS.any fun d =>
    ray_attacked board by_color Kind.bishop Kind.queen d.1 d.2 8
      ((square_to_coords square).1 + d.1) ((square_to_coords square).2 + d.2))

/-- Returns the first key holding `color + "_king"`; `none` is the empty string. -/
def find_king_square (board : BoardMap) (color : Color) : Option Square :=
  all_squares.find? fun sq => decide (board sq = Piece.mk color Kind.king)

def is_in_check (board : BoardMap) (color : Color) : Bool :=
  match find_king_square board color with
  | none => false
  | some king_sq => is_square_attacked board king_sq (opponent color)

/-! ## Legal moves (lines 739-806) -/

/-- The castling block inside the loop of `generate_legal_moves`: true when one of
its four `continue` statements is reached. -/
def castling_rejected (board : BoardMap) (castling_rights : Option Rights) (fr : Square)
    (to_ : Target) : Bool :=
  ends_with (board fr) Kind.king && castling_rights.isSome &&
  ((decide (fr = E1) && decide (to_ = Target.plain G1) &&
      (is_square_attacked board E1 Color.black || is_square_attacked board F1 Color.black ||
        is_square_attacked board G1 Color.black)) ||
   (decide (fr = E1) && decide (to_ = Target.plain C1) &&
      (is_square_attacked board E1 Color.black || is_square_attacked board D1 Color.black ||
        is_square_attacked board C1 Color.black)) ||
   (decide (fr = E8) && decide (to_ = Target.plain G8) &&
      (is_square_attacked board E8 Color.white || is_square_attacked board F8 Color.white ||
        is_square_attacked board G8 Color.white)) ||
   (decide (fr = E8) && decide (to_ = Target.plain C8) &&
      (is_square_attacked board E8 Color.white || is_square_attacked board D8 Color.white ||
        is_square_attacked board C8 Color.white)))

/-- The list `legal_targets` built for one entry `(fr, to_list)` of the pseudo-legal map. -/
def legal_targets (board : BoardMap) (color : Color) (castling_rights : Option Rights)
    (en_passant_target : Option Square) (fr : Square) (to_list : List Target) : List Target :=
  to_list.filter fun to_ =>
    !castling_rejected board castling_rights fr to_ &&
      !is_in_check (simulate_move board fr to_ castling_rights en_passant_target).1 color

def generate_legal_moves (board : BoardMap) (color : Color)
    (castling_rights : Option Rights) (en_passant_target : Option Square) :
    List (Square × List Target) :=
  (generate_pseudo_legal_moves board color castling_rights en_passant_target).filterMap fun e =>
    let lt := legal_targets board color castling_rights en_passant_target e.1 e.2
    if lt.isEmpty then none else some (e.1, lt)

end Engine

namespace Engine

/-! ## Vocabulary and concrete positions for the string engine -/

/-- The move map has an entry for `fr` whose target list contains `t`. -/
def emits (moves : List (Square × List Target)) (fr : Square) (t : Target) : Prop :=
  ∃ e ∈ moves, e.1 = fr ∧ t ∈ e.2

instance (moves : List (Square × List Target)) (fr : Square) (t : Target) :
    Decidable (emits moves fr t) := by
  unfold emits; infer_instance

/-- The king's home square: E1 or E8. -/
def king_home (c : Color) : Square := if c = Color.white then E1 else E8

/-- The rook's home corner of a right: H1, A1, H8, A8. -/
def rook_home (c : Color) (kingside : Bool) : Square :=
  if c = Color.white then (if kingside then H1 else A1) else (if kingside then H8 else A8)

/-- The king's castling destination: G1, C1, G8, C8. -/
def king_castle_target (c : Color) (kingside : Bool) : Square :=
  if c = Color.white then (if kingside then G1 else C1) else (if kingside then G8 else C8)

/-- The square the king crosses: F1, D1, F8, D8. -/
def king_transit (c : Color) (kingside : Bool) : Square :=
  if c = Color.white then (if kingside then F1 else D1) else (if kingside then F8 else D8)

/-- The squares between king and rook are empty (F,G king-side; B,C,D queen-side). -/
def between_empty (board : BoardMap) (c : Color) (kingside : Bool) : Prop :=
  if kingside then
    board ⟨5, (king_home c).row⟩ = Piece.empty ∧ board ⟨6, (king_home c).row⟩ = Piece.empty
  else
    board ⟨1, (king_home c).row⟩ = Piece.empty ∧ board ⟨2, (king_home c).row⟩ = Piece.empty ∧
      board ⟨3, (king_home c).row⟩ = Piece.empty

instance (board : BoardMap) (c : Color) (kingside : Bool) :
    Decidable (between_empty board c kingside) := by
  unfold between_empty; infer_instance

/-- Each right that is set has its king and matching rook on their home squares. -/
def rights_at_home (board : BoardMap) (rights : Rights) : Prop :=
  ∀ (c : Color) (ks : Bool), rights.get c ks = true →
    board (king_home c) = Piece.mk c Kind.king ∧ board (rook_home c ks) = Piece.mk c Kind.rook

/-- The board with every square empty. -/
def emptyBoard : BoardMap := fun _ => Piece.empty

/-- White king E1 and rook H1 with the king-side right, and a second white king on
A2 attacked by a black rook on A8. -/
def twoWhiteKings : BoardMap :=
  (((emptyBoard.set E1 (Piece.mk Color.white Kind.king)).set H1
    (Piece.mk Color.white Kind.rook)).set ⟨0, 1⟩ (Piece.mk Color.white Kind.king)).set A8
    (Piece.mk Color.black Kind.rook)

/-- White king E1 and rook H1, nothing else. -/
def castleReady : BoardMap :=
  (emptyBoard.set E1 (Piece.mk Color.white Kind.king)).set H1 (Piece.mk Color.white Kind.rook)

/-- White pawn E7, black pawn D7, nothing else. -/
def pawnsOnSeventh : BoardMap :=
  (emptyBoard.set ⟨4, 6⟩ (Piece.mk Color.white Kind.pawn)).set ⟨3, 6⟩
    (Piece.mk Color.black Kind.pawn)

end Engine

/-- A `double` score of the engines. The searches only produce sums of integer piece
values, the constants `0.0`, `±20000.0` and `±infinity`, and only compare such
values and take `max` and `min`; `⊤` is `+infinity`, `⊥` is `-infinity`. -/
abbrev Score := WithBot (WithTop Int)

namespace Replit
open Piece

/-! ## Evaluation and move ordering (Replit_ChessEngine.cpp, lines 118-128, 537-572) -/

def piece_value (p : Piece) : Int :=
  if piece_type p = 1 then 100
  else if piece_type p = 2 then 320
  else if piece_type p = 3 then 330
  else if piece_type p = 4 then 500
  else if piece_type p = 5 then 900
  else if piece_type p = 6 then 20000
  else 0

/-- The sum is a `double` in the source; its terms are integers. -/
def evaluate_position (board : Board) : Int :=
  (List.range 64).foldl (fun score sq =>
    if is_empty (board (sq : Int)) then score
    else score + (if is_white (board (sq : Int)) then piece_value (board (sq : Int))
      else -piece_value (board (sq : Int)))) 0

def move_score_for_ordering (board : Board) (move : Move) : Int :=
  if !is_empty (board move.to_) then
    10 * piece_value (board move.to_) - piece_value (board move.from_)
  else 0

/-- The call `sort(moves.begin(), moves.end(), cmp)` with `cmp(a, b)` the test
`score(a) > score(b)`: the result is a permutation of the input in which no move
is followed by one of greater score. `std::sort` leaves the order of moves of
equal score open; the model keeps them in input order, which is what the
insertion sort of libstdc++ does for lists of at most 16 moves. For longer lists
the compiled order of equal-score moves can differ from the model's; only
permutation and sortedness are stated for such lists. -/
def order_moves (board : Board) (moves : List Move) : List Move :=
  moves.insertionSort fun a b => move_score_for_ordering board a ≥ move_score_for_ordering board b

/-! ## Transposition table (lines 579-618) -/

/-- The `struct TranspositionEntry`; `hash` is a `uint64_t`. -/
structure TranspositionEntry where
  hash : Nat
  score : Score
  depth : Int

/-- The constructor `TranspositionEntry()`. -/
def TranspositionEntry.init : TranspositionEntry := { hash := 0, score := 0, depth := -1 }

def TABLE_SIZE : Nat := 1048576

/-- The `class TranspositionTable`: `table[index]` is `t.table index`; only the
indices below `TABLE_SIZE` exist in the source. -/
structure TranspositionTable where
  table : Nat → TranspositionEntry

/-- A freshly constructed table: every entry default-constructed. -/
def TranspositionTable.fresh : TranspositionTable := { table := fun _ => TranspositionEntry.init }

/-- The expression `hash % TABLE_SIZE` of `probe` and `store`. -/
def TranspositionTable.index (hash : Nat) : Nat := hash % TABLE_SIZE

/-- The method `probe`: returns the table after the call, the result, and the value
of the reference parameter `score` after the call (`score` is its value before). -/
def TranspositionTable.probe (t : TranspositionTable) (hash : Nat) (depth : Int) (score : Score) :
    TranspositionTable × Bool × Score :=
  if (t.table (TranspositionTable.index hash)).hash = hash ∧
      (t.table (TranspositionTable.index hash)).depth ≥ depth then
    (t, true, (t.table (TranspositionTable.index hash)).score)
  else (t, false, score)

/-- The method `store`: returns the table after the call. -/
def TranspositionTable.store (t : TranspositionTable) (hash : Nat) (depth : Int) (score : Score) :
    TranspositionTable :=
  if (t.table (TranspositionTable.index hash)).depth ≤ depth then
    { table := fun i =>
        if i = TranspositionTable.index hash then { hash := hash, score := score, depth := depth }
        else t.table i }
  else t

/-- The function `hash_board`, in `uint64_t` arithmetic. -/
def hash_board (board : Board) : Nat :=
  (List.range 64).foldl (fun h sq => (h * 31 + (board (sq : Int)).code.toNat) % 2 ^ 64) 0

/-! ## Minimax with alpha-beta pruning (lines 624-697)

The stop flag is a parameter `stop` that keeps its value during the call, and
`tt_table` is `none` for the null pointer; the table is passed through the
calls. The recursion is on `depth - 1` and stops at `depth == 0` only, so the
model carries a fuel: `none` means the fuel ran out. -/

/-- The two `for (const Move& move : legal_moves)` loops of `minimax`; `recur` is the
recursive call on the state after the move. The last component of the result
tells whether the loop was left by `return value` (stop flag) rather than by
reaching its end or by `break`. -/
def search_loop
    (recur : GameState → Score → Score → Option TranspositionTable →
      Option (Score × Option TranspositionTable))
    (state : GameState) (maximizing stop : Bool) :
    List Move → Score → Score → Score → Option TranspositionTable →
      Option (Score × Option TranspositionTable × Bool)
  | [], value, _, _, tt => some (value, tt, false)
  | move :: rest, value, alpha, beta, tt =>
    if stop then some (value, tt, true)
    else
      match recur (apply_move state move) alpha beta tt with
      | none => none
      | some (score, tt2) =>
        if maximizing then
          if max alpha (max value score) ≥ beta then some (max value score, tt2, false)
          else search_loop recur state maximizing stop rest (max value score)
            (max alpha (max value score)) beta tt2
        else
          if alpha ≥ min beta (min value score) then some (min value score, tt2, false)
          else search_loop recur state maximizing stop rest (min value score)
            alpha (min beta (min value score)) tt2

def minimax : Nat → GameState → Bool → Bool → Int → Score → Score → Bool →
    Option TranspositionTable → Option (Score × Option TranspositionTable)
  | 0, _, _, _, _, _, _, _, _ => none
  | fuel + 1, state, maximizing_player, current_player, depth, alpha, beta, stop, tt_table =>
    if stop then some (0, tt_table)
    else if depth = 0 then some (((evaluate_position state.board : Int) : Score), tt_table)
    else
      let hit : Option Score :=
        match tt_table with
        | none => none
        | some t =>
          if (t.probe (hash_board state.board) depth 0).2.1 then
            some (t.probe (hash_board state.board) depth 0).2.2
          else none
      match hit with
      | some tt_score => some (tt_score, tt_table)
      | none =>
        let legal_moves := generate_legal_moves state current_player
        if legal_moves.isEmpty then
          if is_in_check state.board current_player then
            some ((if current_player = maximizing_player then ((-20000 : Int) : Score)
              else ((20000 : Int) : Score)), tt_table)
          else some (0, tt_table)
        else
          match search_loop
              (fun st a b t => minimax fuel st maximizing_player (!current_player) (depth - 1) a b stop t)
              state (current_player = maximizing_player) stop
              (order_moves state.board legal_moves)
              (if current_player = maximizing_player then ⊥ else ⊤) alpha beta tt_table with
          | none => none
          | some (value, tt2, true) => some (value, tt2)
          | some (value, tt2, false) =>
            some (value, tt2.map fun t => t.store (hash_board state.board) depth value)

/-! ## The string interface (lines 790-840) -/

/-- The function `parse_square` on a square name: `file = sq[0] - 'A'`,
`rank = sq[1] - '1'`. -/
def parse_square (sq : Engine.Square) : Int := make_square sq.col sq.row

/-- The chain of string comparisons of `convert_from_string_board`. -/
def convert_piece : Engine.Piece → Piece
  | Engine.Piece.empty => EMPTY
  | Engine.Piece.mk Engine.Color.white Engine.Kind.pawn => W_PAWN
  | Engine.Piece.mk Engine.Color.white Engine.Kind.knight => W_KNIGHT
  | Engine.Piece.mk Engine.Color.white Engine.Kind.bishop => W_BISHOP
  | Engine.Piece.mk Engine.Color.white Engine.Kind.rook => W_ROOK
  | Engine.Piece.mk Engine.Color.white Engine.Kind.queen => W_QUEEN
  | Engine.Piece.mk Engine.Color.white Engine.Kind.king => W_KING
  | Engine.Piece.mk Engine.Color.black Engine.Kind.pawn => B_PAWN
  | Engine.Piece.mk Engine.Color.black Engine.Kind.knight => B_KNIGHT
  | Engine.Piece.mk Engine.Color.black Engine.Kind.bishop => B_BISHOP
  | Engine.Piece.mk Engine.Color.black Engine.Kind.rook => B_ROOK
  | Engine.Piece.mk Engine.Color.black Engine.Kind.queen => B_QUEEN
  | Engine.Piece.mk Engine.Color.black Engine.Kind.king => B_KING

def convert_from_string_board (old_board : Engine.BoardMap) : Board :=
  Engine.all_squares.foldl
    (fun board sq => board.set (parse_square sq) (convert_piece (old_board sq))) Board.empty

/-- The constructor `GameState()`: default board, default `CastlingRights()`
(`rights(0xF)`, all enabled), `en_passant(-1)`. -/
def GameState.init : GameState :=
  { board := Board.empty, castling := { rights := 0xF }, en_passant := -1 }

/-- The state that `engine_search_legacy` builds and passes to `engine_search`:
`GameState state; state.board = convert_from_string_board(board_map);`. -/
def legacy_state (board_map : Engine.BoardMap) : GameState :=
  { GameState.init with board := convert_from_string_board board_map }

end Replit

namespace Engine

/-! ## Evaluation (engine.cpp, lines 812-875) -/

def PIECE_VALUES : Kind → Int
  | Kind.pawn => 100
  | Kind.knight => 320
  | Kind.bishop => 330
  | Kind.rook => 500
  | Kind.queen => 900
  | Kind.king => 20000

/-- The loops `own_moves += v.size()` / `opp_moves += v.size()` of `evaluate_board`
over a move map. -/
def count_moves (moves : List (Square × List Target)) : Int :=
  moves.foldl (fun n kv => n + (kv.2.length : Int)) 0

/-- The function `evaluate_board`. The `int` score stays far inside the 32-bit range:
at most 64 pieces of value at most 20000 and a few hundred moves. -/
def evaluate_board (board : BoardMap) (perspective_color : Color) : Int :=
  let score := all_squares.foldl (fun score sq =>
    match board sq with
    | Piece.empty => score
    | Piece.mk color_label ptype =>
      if color_label = perspective_color then score + PIECE_VALUES ptype
      else score - PIECE_VALUES ptype) 0
  let own_moves := count_moves (generate_pseudo_legal_moves board perspective_color none none)
  let opp := opponent perspective_color
  let opp_moves := count_moves (generate_pseudo_legal_moves board opp none none)
  score + 2 * (own_moves - opp_moves)

/-! ## Minimax with alpha-beta (lines 881-968)

The stop flag is a parameter `stop` that keeps its value during the call. The
recursion is on `depth - 1` and stops at `depth == 0` only, so the model
carries a fuel: `none` means the fuel ran out. -/

/-- The nested loops `for (kv : legal_moves) for (to : tos)` run over the pairs
`(fr, to)` in this order. -/
def move_pairs (legal_moves : List (Square × List Target)) : List (Square × Target) :=
  legal_moves.flatMap fun kv => kv.2.map fun to_ => (kv.1, to_)

/-- The two move loops of `minimax`; `recur` is the recursive call on the simulated
position, with the window it receives. -/
def search_loop (recur : BoardMap × Rights × Option Square → Score → Score → Option Score)
    (board : BoardMap) (castling_rights : Option Rights) (en_passant_target : Option Square)
    (maximizing stop : Bool) : List (Square × Target) → Score → Score → Score → Option Score
  | [], value, _, _ => some value
  | (fr, to_) :: rest, value, alpha, beta =>
    if stop then some 0
    else
      match recur (simulate_move board fr to_ castling_rights en_passant_target) alpha beta with
      | none => none
      | some score =>
        if maximizing then
          if max alpha (max value score) ≥ beta then some (max value score)
          else search_loop recur board castling_rights en_passant_target maximizing stop rest
            (max value score) (max alpha (max value score)) beta
        else
          if alpha ≥ min beta (min value score) then some (min value score)
          else search_loop recur board castling_rights en_passant_target maximizing stop rest
            (min value score) alpha (min beta (min value score))

def minimax : Nat → BoardMap → Color → Color → Int → Score → Score → Bool →
    Option Rights → Option Square → Option Score
  | 0, _, _, _, _, _, _, _, _, _ => none
  | fuel + 1, board, maximizing_color, current_color, depth, alpha, beta, stop,
      castling_rights, en_passant_target =>
    if stop then some 0
    else if depth = 0 then some ((evaluate_board board maximizing_color : Int) : Score)
    else
      let legal_moves := generate_legal_moves board current_color castling_rights en_passant_target
      if legal_moves.isEmpty then
        if is_in_check board current_color then
          some (if current_color = maximizing_color then ⊥ else ⊤)
        else some 0
      else
        search_loop
          (fun sim a b => minimax fuel sim.1 maximizing_color (opponent current_color)
            (depth - 1) a b stop (some sim.2.1) sim.2.2)
          board castling_rights en_passant_target (current_color = maximizing_color) stop
          (move_pairs legal_moves) (if current_color = maximizing_color then ⊥ else ⊤) alpha beta

end Engine

namespace Engine

/-! ## Vocabulary and concrete positions for evaluation and search -/

/-- The function `infer_castling_rights_from_board` on a map that may lack keys:
`board.count(sq) && board.at(sq) == name` holds when the key is present with
that value. -/
def infer_castling_rights_from_map (board : Square → Option Piece) : Rights :=
  let wk := decide (board E1 = some (Piece.mk Color.white Kind.king))
  let bk := decide (board E8 = some (Piece.mk Color.black Kind.king))
  { whiteK := wk && decide (board H1 = some (Piece.mk Color.white Kind.rook)),
    whiteQ := wk && decide (board A1 = some (Piece.mk Color.white Kind.rook)),
    blackK := bk && decide (board H8 = some (Piece.mk Color.black Kind.rook)),
    blackQ := bk && decide (board A8 = some (Piece.mk Color.black Kind.rook)) }

/-- The material values of the specification. -/
def spec_value : Kind → Int
  | Kind.pawn => 100
  | Kind.knight => 320
  | Kind.bishop => 330
  | Kind.rook => 500
  | Kind.queen => 900
  | Kind.king => 20000

/-- The sum of the values of the pieces of colour `c` on the board. -/
def material (board : BoardMap) (c : Color) : Int :=
  (all_squares.map fun sq =>
    match board sq with
    | Piece.empty => 0
    | Piece.mk c2 k => if c2 = c then spec_value k else 0).sum

/-- The number of pseudo-legal moves of colour `c`: the total length of the target
lists of `generate_pseudo_legal_moves` on the board alone. -/
def mobility (board : BoardMap) (c : Color) : Int :=
  ((generate_pseudo_legal_moves board c none none).map fun kv => (kv.2.length : Int)).sum

/-- Black king A1, white king C2, white queen B3: black to move is stalemated. -/
def stalemateBoard : BoardMap :=
  ((emptyBoard.set A1 (Piece.mk Color.black Kind.king)).set ⟨2, 1⟩
    (Piece.mk Color.white Kind.king)).set ⟨1, 2⟩ (Piece.mk Color.white Kind.queen)

/-- White king E2 and black king E8, nothing else. -/
def kingOffHome : BoardMap :=
  (emptyBoard.set ⟨4, 1⟩ (Piece.mk Color.white Kind.king)).set E8 (Piece.mk Color.black Kind.king)

end Engine

namespace Replit
open Piece

/-- The knight of a colour. -/
def knight_of (white : Bool) : Piece := if white then W_KNIGHT else B_KNIGHT

/-- The bishop of a colour. -/
def bishop_of (white : Bool) : Piece := if white then W_BISHOP else B_BISHOP

/-- The queen of a colour. -/
def queen_of (white : Bool) : Piece := if white then W_QUEEN else B_QUEEN

/-- The number `z` lies strictly between `x` and `y`. -/
def strictly_between (x y z : Int) : Prop := (x < z ∧ z < y) ∨ (y < z ∧ z < x)

/-- Square `b` lies strictly between the squares `a` and `s` on their common rank, on
their common file, or on a diagonal through `a` (file = index mod 8, rank =
index div 8). -/
def square_between (a s b : Int) : Prop :=
  (a / 8 = s / 8 ∧ b / 8 = a / 8 ∧ strictly_between (a % 8) (s % 8) (b % 8)) ∨
  (a % 8 = s % 8 ∧ b % 8 = a % 8 ∧ strictly_between (a / 8) (s / 8) (b / 8)) ∨
  (strictly_between (a % 8) (s % 8) (b % 8) ∧ strictly_between (a / 8) (s / 8) (b / 8) ∧
    (b % 8 - a % 8).natAbs = (b / 8 - a / 8).natAbs)

/-- Every square of the board strictly between `a` and `s` is empty. -/
def path_clear (board : Board) (a s : Int) : Prop :=
  ∀ b : Int, 0 ≤ b → b < 64 → square_between a s b → board b = EMPTY

/-- The chess definition of "the piece on square `a` is a piece of colour `c` that
attacks square `s`": a pawn one rank behind `s` (seen in `c`'s direction) on an
adjacent file; a knight an L-shaped offset away; a king on an adjacent square; a
rook or queen on `s`'s rank or file, or a bishop or queen on a diagonal of `s`,
with every square strictly between empty. -/
def attacks (board : Board) (c : Bool) (a s : Int) : Prop :=
  (board a = pawn_of c ∧ s / 8 = a / 8 + (if c then 1 else -1) ∧
    (s % 8 - a % 8).natAbs = 1) ∨
  (board a = knight_of c ∧
    (((s % 8 - a % 8).natAbs = 1 ∧ (s / 8 - a / 8).natAbs = 2) ∨
     ((s % 8 - a % 8).natAbs = 2 ∧ (s / 8 - a / 8).natAbs = 1))) ∨
  (board a = king_of c ∧ a ≠ s ∧
    (s % 8 - a % 8).natAbs ≤ 1 ∧ (s / 8 - a / 8).natAbs ≤ 1) ∨
  ((board a = rook_of c ∨ board a = queen_of c) ∧ a ≠ s ∧
    (a / 8 = s / 8 ∨ a % 8 = s % 8) ∧ path_clear board a s) ∨
  ((board a = bishop_of c ∨ board a = queen_of c) ∧ a ≠ s ∧
    (s % 8 - a % 8).natAbs = (s / 8 - a / 8).natAbs ∧ path_clear board a s)

/-- White king e1, black pawn e2, black king e8. -/
def kingTakesPawn : Board :=
  ((Board.empty.set 4 W_KING).set 12 B_PAWN).set 60 B_KING

/-- A table holding the entry `(hash 5, score 7, depth 3)` in slot 5. -/
def tableWithEntry : TranspositionTable :=
  TranspositionTable.fresh.store 5 3 7

end Replit

namespace Engine

/-! ## Plain minimax without pruning (the reference the alpha-beta search is compared with)

These definitions follow the description of the search, not the code: the value
of a node is the maximum (side to move is the maximizing side) or the minimum of
the values of all its children, with the same leaves and terminal scores. -/

/-- The maximum (`maximizing`) or minimum of the children's values, starting from
`acc`; `none` when the value of a child is missing. -/
def best_of (maximizing : Bool) : List (Option Score) → Score → Option Score
  | [], acc => some acc
  | none :: _, _ => none
  | some v :: rest, acc =>
    best_of maximizing rest (if maximizing then max acc v else min acc v)

/-- Plain minimax: every legal move is searched, with no window. The fuel plays the
same part as in `minimax`. -/
def plain_minimax : Nat → BoardMap → Color → Color → Int →
    Option Rights → Option Square → Option Score
  | 0, _, _, _, _, _, _ => none
  | fuel + 1, board, maximizing_color, current_color, depth, castling_rights,
      en_passant_target =>
    if depth = 0 then some ((evaluate_board board maximizing_color : Int) : Score)
    else
      let legal_moves := generate_legal_moves board current_color castling_rights en_passant_target
      if legal_moves.isEmpty then
        if is_in_check board current_color then
          some (if current_color = maximizing_color then ⊥ else ⊤)
        else some 0
      else
        best_of (current_color = maximizing_color)
          ((move_pairs legal_moves).map fun mv =>
            plain_minimax fuel (simulate_move board mv.1 mv.2 castling_rights en_passant_target).1
              maximizing_color (opponent current_color) (depth - 1)
              (some (simulate_move board mv.1 mv.2 castling_rights en_passant_target).2.1)
              (simulate_move board mv.1 mv.2 castling_rights en_passant_target).2.2)
          (if current_color = maximizing_color then ⊥ else ⊤)

/-- What a fail-soft alpha-beta search with window `(a, b)` guarantees about its
result `w` when the true value is `v`: a result at or below `a` is an upper bound,
a result at or above `b` is a lower bound, a result inside the window is exact. -/
def window_bounds (a b v w : Score) : Prop :=
  (w ≤ a → v ≤ w) ∧ (b ≤ w → w ≤ v) ∧ (a < w → w < b → w = v)

end Engine

namespace Engine

/-! ## Root search (engine.cpp, `engine_search`, lines 1044-1280)

The model covers the runs in which no stop flag is ever set: no user move is
announced and there is no time limit, so every worker thread runs its `minimax`
call to the end and writes its score into `return_dict`. No exception is thrown
in the model (the `catch (...)` branches are not reached). -/

/-- The rank of a promotion suffix among the strings `""`, `"B"`, `"N"`, `"Q"`, `"R"`. -/
def promo_rank : Option Promo → Int
  | none => 0
  | some Promo.B => 1
  | some Promo.N => 2
  | some Promo.Q => 3
  | some Promo.R => 4

/-- The key `fr + to` of `return_dict` and `worker_events`, as the characters it
spells: column and row of both squares, then the promotion suffix. -/
def move_key (r : Square × Target) : List Int :=
  [r.1.col, r.1.row, r.2.sq.col, r.2.sq.row, promo_rank r.2.promo]

/-- Lexicographic comparison, the order of `std::string`. -/
def lex_lt : List Int → List Int → Bool
  | [], [] => false
  | [], _ :: _ => true
  | _ :: _, [] => false
  | x :: xs, y :: ys => if x < y then true else if y < x then false else lex_lt xs ys

/-- The order of the keys of a `map<string, ...>` keyed by moves. -/
def key_lt (a b : Square × Target) : Bool := lex_lt (move_key a) (move_key b)

/-- The assignment `return_dict[move_key] = score` on a `map<string,double>`, held as
the list of its entries in key order. -/
def dict_insert (d : List ((Square × Target) × Score)) (k : Square × Target) (v : Score) :
    List ((Square × Target) × Score) :=
  match d with
  | [] => [(k, v)]
  | e :: rest =>
    if e.1 = k then (k, v) :: rest
    else if key_lt k e.1 then (k, v) :: e :: rest
    else e :: dict_insert rest k v

/-- The loop "find max by value": `best_key` starts as the empty string (`none`) and
`best_score` as `-infinity`; an entry replaces them when its score is greater. -/
def find_max (d : List ((Square × Target) × Score)) : Option (Square × Target) × Score :=
  d.foldl (fun best kv => if kv.2 > best.2 then (some kv.1, kv.2) else best) (none, ⊥)

/-- The value returned by `engine_search`, with the number of worker threads it
launched. `best_move = none` stands for the pair of empty strings, `score = none`
for NaN. -/
structure SearchResult where
  best_move : Option (Square × Target)
  score : Option Score
  workers : Nat
deriving DecidableEq

/-- The score a worker thread computes for the root move `r`. -/
def root_score (fuel : Nat) (board : BoardMap) (color : Color) (depth : Int)
    (rights : Rights) (en_passant_target : Option Square) (r : Square × Target) :
    Option Score :=
  minimax fuel (simulate_move board r.1 r.2 (some rights) en_passant_target).1 color
    (opponent color) (depth - 1) ⊥ ⊤ false
    (some (simulate_move board r.1 r.2 (some rights) en_passant_target).2.1)
    (simulate_move board r.1 r.2 (some rights) en_passant_target).2.2

/-- The worker threads, one per root move: each writes its score into `return_dict`.
The final map does not depend on the order of the writes, since a key determines
its score. -/
def run_workers (fuel : Nat) (board : BoardMap) (color : Color) (depth : Int)
    (rights : Rights) (en_passant_target : Option Square) :
    List (Square × Target) → List ((Square × Target) × Score) →
      Option (List ((Square × Target) × Score))
  | [], d => some d
  | r :: rest, d =>
    match root_score fuel board color depth rights en_passant_target r with
    | none => none
    | some s => run_workers fuel board color depth rights en_passant_target rest (dict_insert d r s)

/-- The rights `engine_search` works with: the caller's, or the inferred ones. -/
def effective_rights (board : BoardMap) (castling_rights : Option Rights) : Rights :=
  match castling_rights with
  | some r => r
  | none => infer_castling_rights_from_board board

/-- The list `roots` of `engine_search`. -/
def root_moves (board : BoardMap) (color : Color) (castling_rights : Option Rights)
    (en_passant_target : Option Square) : List (Square × Target) :=
  move_pairs (generate_legal_moves board color
    (some (effective_rights board castling_rights)) en_passant_target)

/-- The function `engine_search` with `user_move_queue == nullptr` and no time limit.
The outer `Option` is `none` when the fuel of a `minimax` call runs out. -/
def engine_search (fuel : Nat) (board : BoardMap) (color : Color) (depth : Int)
    (castling_rights : Option Rights) (en_passant_target : Option Square) :
    Option SearchResult :=
  let rights := effective_rights board castling_rights
  let roots := root_moves board color castling_rights en_passant_target
  if roots.isEmpty then some ⟨none, none, 0⟩
  else
    match run_workers fuel board color depth rights en_passant_target roots [] with
    | none => none
    | some return_dict =>
      if return_dict.isEmpty then some ⟨none, none, roots.length⟩
      else some ⟨(find_max return_dict).1, some (find_max return_dict).2, roots.length⟩

/-! ## The user-move step of the monitor loop (lines 1182-1213)

Strings are lists of characters here. -/

/-- The function `::toupper` in the "C" locale. -/
def toupper (c : Char) : Char :=
  if 97 ≤ c.toNat ∧ c.toNat ≤ 122 then Char.ofNat (c.toNat - 32) else c

/-- Membership in the set `" \t\n\r"` passed to `find_first_not_of` and
`find_last_not_of`. -/
def is_blank (c : Char) : Bool :=
  c.toNat = 32 || c.toNat = 9 || c.toNat = 10 || c.toNat = 13

/-- The method `find_first_not_of(" \t\n\r")`; `none` is `npos`. -/
def find_first_not_of : List Char → Option Nat
  | [] => none
  | c :: cs => if is_blank c then (find_first_not_of cs).map (· + 1) else some 0

/-- The method `find_last_not_of(" \t\n\r")`; `none` is `npos`. -/
def find_last_not_of (s : List Char) : Option Nat :=
  (find_first_not_of s.reverse).map fun j => s.length - 1 - j

/-- The method `substr(pos, len)`. -/
def substr (s : List Char) (pos len : Nat) : List Char := (s.drop pos).take len

/-- The statements "remove leading/trailing spaces": the substring between the first
and the last character that is not blank, when both exist. -/
def remove_spaces (user_move_str : List Char) : List Char :=
  match find_first_not_of user_move_str, find_last_not_of user_move_str with
  | some first_non, some last_non => substr user_move_str first_non (last_non - first_non + 1)
  | _, _ => user_move_str

/-- The normalisation of the announced move: upper case, then the blanks at both
ends removed when the string has a character that is not blank. -/
def normalize_user_move (user_move : List Char) : List Char :=
  remove_spaces (user_move.map toupper)

/-- The flags the monitor writes: the worker-local stop flags, by key, and the
global stop flag. -/
structure MonitorFlags where
  worker_events : List (List Char × Bool)
  master_stop_event : Bool

/-- The block `if (got) { ... }` of the monitor loop for the popped string
`user_move`. -/
def monitor_user_move (flags : MonitorFlags) (user_move : List Char) : MonitorFlags :=
  if user_move.isEmpty then flags
  else
    let user_move_str := normalize_user_move user_move
    if flags.worker_events.any (fun kv => kv.1 = user_move_str) then
      { flags with
        worker_events := flags.worker_events.map fun kv =>
          if kv.1 ≠ user_move_str then (kv.1, true) else kv }
    else { flags with master_stop_event := true }

/-- The string a root key spells: the two square names and the promotion letter. -/
def square_name (sq : Square) : List Char :=
  [['A', 'B', 'C', 'D', 'E', 'F', 'G', 'H'].getD sq.col.toNat '?',
    ['1', '2', '3', '4', '5', '6', '7', '8'].getD sq.row.toNat '?']

def promo_name : Option Promo → List Char
  | none => []
  | some Promo.Q => ['Q']
  | some Promo.R => ['R']
  | some Promo.B => ['B']
  | some Promo.N => ['N']

def key_string (r : Square × Target) : List Char :=
  square_name r.1 ++ square_name r.2.sq ++ promo_name r.2.promo

/-! ## Reference definitions for the monitor step -/

/-- The blanks at both ends of a string removed. -/
def strip (s : List Char) : List Char :=
  ((s.dropWhile is_blank).reverse.dropWhile is_blank).reverse

/-- The announced move upper-cased, with leading and trailing blanks removed. -/
def normalized (u : List Char) : List Char := strip (u.map toupper)

/-! ## Positions -/

/-- The standard initial position. -/
def back_kinds : List Kind :=
  [Kind.rook, Kind.knight, Kind.bishop, Kind.queen, Kind.king, Kind.bishop, Kind.knight,
    Kind.rook]

def startBoard : BoardMap := fun sq =>
  if sq.col < 0 ∨ 7 < sq.col then Piece.empty
  else if sq.row = 0 then Piece.mk Color.white (back_kinds.getD sq.col.toNat Kind.pawn)
  else if sq.row = 1 then Piece.mk Color.white Kind.pawn
  else if sq.row = 6 then Piece.mk Color.black Kind.pawn
  else if sq.row = 7 then Piece.mk Color.black (back_kinds.getD sq.col.toNat Kind.pawn)
  else Piece.empty

def F2 : Square := ⟨5, 1⟩
def F3 : Square := ⟨5, 2⟩
def G2 : Square := ⟨6, 1⟩
def G4 : Square := ⟨6, 3⟩
def E7 : Square := ⟨4, 6⟩
def E5 : Square := ⟨4, 4⟩
def H4 : Square := ⟨7, 3⟩

/-- The position after 1.f3 e5 2.g4, black to move. -/
def foolsMate : BoardMap :=
  (((((startBoard.set F2 Piece.empty).set F3 (Piece.mk Color.white Kind.pawn)).set
    E7 Piece.empty).set E5 (Piece.mk Color.black Kind.pawn)).set G2 Piece.empty).set
    G4 (Piece.mk Color.white Kind.pawn)

/-- White king h8, black rook a7, black king g6: white's only move is Kg8, and
black answers Ra8 mate. -/
def allMated : BoardMap :=
  ((emptyBoard.set H8 (Piece.mk Color.white Kind.king)).set ⟨0, 6⟩
    (Piece.mk Color.black Kind.rook)).set ⟨6, 5⟩ (Piece.mk Color.black Kind.king)

end Engine

namespace Replit
open Piece

/-! ## The stop flag as explicit state (Replit_ChessEngine.cpp, lines 624-755)

`engine_search` shares one `atomic<bool> stop_flag` between its workers; the flag
is only ever set, never cleared. What one worker sees of it is therefore
described by the number of its loads that still read `false`. -/

/-- The stop flag as one worker sees it: `none` when the flag is never set during
the run, `some k` when the next `k` loads of this worker read `false` and every
later load reads `true`. -/
abbrev StopClock := Option Nat

/-- One `stop_flag.load()`: the value read and the clock afterwards. -/
def StopClock.load : StopClock → Bool × StopClock
  | none => (false, none)
  | some 0 => (true, some 0)
  | some (k + 1) => (false, some k)

/-- The two move loops of `minimax` with the stop flag read at the top of every
iteration. The last component tells whether the loop was left by `return value`. -/
def search_loop_clock
    (recur : GameState → Score → Score → StopClock → TranspositionTable →
      Option (Score × TranspositionTable × StopClock))
    (state : GameState) (maximizing : Bool) :
    List Move → Score → Score → Score → StopClock → TranspositionTable →
      Option (Score × TranspositionTable × StopClock × Bool)
  | [], value, _, _, clock, tt => some (value, tt, clock, false)
  | move :: rest, value, alpha, beta, clock, tt =>
    if clock.load.1 then some (value, tt, clock.load.2, true)
    else
      match recur (apply_move state move) alpha beta clock.load.2 tt with
      | none => none
      | some (score, tt2, clock2) =>
        if maximizing then
          if max alpha (max value score) ≥ beta then some (max value score, tt2, clock2, false)
          else search_loop_clock recur state maximizing rest (max value score)
            (max alpha (max value score)) beta clock2 tt2
        else
          if alpha ≥ min beta (min value score) then some (min value score, tt2, clock2, false)
          else search_loop_clock recur state maximizing rest (min value score)
            alpha (min beta (min value score)) clock2 tt2

/-- The function `minimax` as a worker of `engine_search` calls it: `stop_event` and
`tt_table` are not null, and every `stop_event->load()` is a read of the clock. -/
def minimax_clock : Nat → GameState → Bool → Bool → Int → Score → Score → StopClock →
    TranspositionTable → Option (Score × TranspositionTable × StopClock)
  | 0, _, _, _, _, _, _, _, _ => none
  | fuel + 1, state, maximizing_player, current_player, depth, alpha, beta, clock, tt =>
    if clock.load.1 then some (0, tt, clock.load.2)
    else if depth = 0 then
      some (((evaluate_position state.board : Int) : Score), tt, clock.load.2)
    else if (tt.probe (hash_board state.board) depth 0).2.1 then
      some ((tt.probe (hash_board state.board) depth 0).2.2, tt, clock.load.2)
    else
      let legal_moves := generate_legal_moves state current_player
      if legal_moves.isEmpty then
        if is_in_check state.board current_player then
          some ((if current_player = maximizing_player then ((-20000 : Int) : Score)
            else ((20000 : Int) : Score)), tt, clock.load.2)
        else some (0, tt, clock.load.2)
      else
        match search_loop_clock
            (fun st a b c t =>
              minimax_clock fuel st maximizing_player (!current_player) (depth - 1) a b c t)
            state (current_player = maximizing_player)
            (order_moves state.board legal_moves)
            (if current_player = maximizing_player then ⊥ else ⊤) alpha beta clock.load.2 tt with
        | none => none
        | some (value, tt2, clock2, true) => some (value, tt2, clock2)
        | some (value, tt2, clock2, false) =>
          some (value, tt2.store (hash_board state.board) depth value, clock2)

/-! ## Root search (lines 703-779)

`scores` is the vector of the same name, `none` standing for NaN. The time check
of a worker is the only statement that sets the stop flag; the model follows a
worker whose own time check does not fire (there is no time limit, or the limit
is not yet exceeded when this worker looks), while the flag may be set by
another worker, which the clock records. -/

/-- The `while (true)` loop of one worker. The list holds the values the worker
obtains from `next_move_idx.fetch_add(1)`, in order; `tt` is its own table. -/
def worker_loop (fuel : Nat) (state : GameState) (white : Bool) (depth : Int)
    (root_moves : List Move) :
    List Nat → StopClock → TranspositionTable → List (Option Score) →
      Option (List (Option Score) × StopClock)
  | [], clock, _, scores => some (scores, clock)
  | idx :: rest, clock, tt, scores =>
    if clock.load.1 then some (scores, clock.load.2)
    else
      match root_moves.get? idx with
      | none => some (scores, clock.load.2)
      | some move =>
        match minimax_clock fuel (apply_move state move) white (!white) (depth - 1) ⊥ ⊤
            clock.load.2 tt with
        | none => none
        | some (score, tt2, clock2) =>
          worker_loop fuel state white depth root_moves rest clock2 tt2
            (scores.set idx (some score))

/-- The loop "Find best move" over `scores`, from index `i` on. -/
def find_best : List (Option Score) → Nat → Int × Score → Int × Score
  | [], _, best => best
  | none :: rest, i, best => find_best rest (i + 1) best
  | some s :: rest, i, best =>
    find_best rest (i + 1) (if s > best.2 then ((i : Int), s) else best)

/-- The workers one after the other, each with a table of its own and a stop flag
that is never set; `assignment` lists, for each worker, the indices it fetches. -/
def run_workers (fuel : Nat) (state : GameState) (white : Bool) (depth : Int)
    (root_moves : List Move) : List (List Nat) → List (Option Score) →
      Option (List (Option Score))
  | [], scores => some scores
  | idxs :: rest, scores =>
    match worker_loop fuel state white depth root_moves idxs none TranspositionTable.fresh
        scores with
    | none => none
    | some (scores2, _) => run_workers fuel state white depth root_moves rest scores2

/-- The function `engine_search` with `time_limit <= 0`. Which worker fetches which
index depends on the scheduling of the threads; `assignment` records it. The
second component of the result is `none` for NaN. -/
def engine_search (fuel : Nat) (state : GameState) (white : Bool) (depth : Int)
    (assignment : List (List Nat)) : Option (Move × Option Score) :=
  let legal := generate_legal_moves state white
  if legal.isEmpty then some (Move.mk 0 0, none)
  else
    let root_moves := order_moves state.board legal
    match run_workers fuel state white depth root_moves assignment
        (List.replicate root_moves.length none) with
    | none => none
    | some scores =>
      let best := find_best scores 0 (-1, ⊥)
      if 0 ≤ best.1 then
        match root_moves.get? best.1.toNat with
        | some move => some (move, some best.2)
        | none => some (Move.mk 0 0, none)
      else some (Move.mk 0 0, none)

/-- The function `square_to_string`. -/
def square_to_string (sq : Int) : List Char :=
  [['A', 'B', 'C', 'D', 'E', 'F', 'G', 'H'].getD (square_to_file sq).toNat '?',
    ['1', '2', '3', '4', '5', '6', '7', '8'].getD (square_to_rank sq).toNat '?']

/-- The function `engine_search_legacy`; `white` is the test `color == "white"`. -/
def engine_search_legacy (fuel : Nat) (board_map : Engine.BoardMap) (white : Bool)
    (depth : Int) (assignment : List (List Nat)) :
    Option (List Char × List Char × Option Score) :=
  (engine_search fuel (legacy_state board_map) white depth assignment).map fun r =>
    (square_to_string r.1.from_, square_to_string r.1.to_, r.2)

/-! ## Perft

The number of move sequences of length `d` obtained by repeatedly taking
`generate_legal_moves` for the side to move and `apply_move`. -/

def perft : Nat → GameState → Bool → Nat
  | 0, _, _ => 1
  | d + 1, s, white =>
    ((generate_legal_moves s white).map fun m => perft d (apply_move s m) (!white)).sum

/-! ## Positions -/

def back_rank (white : Bool) : List Piece :=
  if white then [W_ROOK, W_KNIGHT, W_BISHOP, W_QUEEN, W_KING, W_BISHOP, W_KNIGHT, W_ROOK]
  else [B_ROOK, B_KNIGHT, B_BISHOP, B_QUEEN, B_KING, B_BISHOP, B_KNIGHT, B_ROOK]

/-- The standard initial position. -/
def startBoard : Board := fun i =>
  if 0 ≤ i ∧ i < 8 then (back_rank true).getD i.toNat EMPTY
  else if 8 ≤ i ∧ i < 16 then W_PAWN
  else if 48 ≤ i ∧ i < 56 then B_PAWN
  else if 56 ≤ i ∧ i < 64 then (back_rank false).getD (i - 56).toNat EMPTY
  else EMPTY

/-- The standard initial position with all four castling rights and no en-passant
target. -/
def startState : GameState := { board := startBoard, castling := ⟨15⟩, en_passant := -1 }

/-- The position after 1.e4 e5 2.Nf3, black to move. -/
def afterKnightF3 : GameState :=
  apply_move (apply_move (apply_move startState ⟨12, 28⟩) ⟨52, 36⟩) ⟨6, 21⟩

/-- White king h1, black bishop g2, black king f3, no castling rights: white is in
check and has the moves Kh2 and Kg1. -/
def bishopCheck : GameState :=
  { board := ((Board.empty.set 7 W_KING).set 14 B_BISHOP).set 21 B_KING,
    castling := ⟨0⟩, en_passant := -1 }

end Replit

namespace Engine

/-! ## Square names as strings (engine.cpp, lines 26-47) -/

def FILES : List Char := ['A', 'B', 'C', 'D', 'E', 'F', 'G', 'H']
def RANKS : List Char := ['1', '2', '3', '4', '5', '6', '7', '8']

/-- The function `square_to_coords` on the characters of a name: `FILES.find`
gives the index of the upper-cased letter (`npos`, read as `-1`, when it is not
in `FILES`), and the row is `(square[1] - '0') - 1`. -/
def square_to_coords_string (square : List Char) : Int × Int :=
  ((if toupper (square.getD 0 (Char.ofNat 0)) ∈ FILES then
      (FILES.indexOf (toupper (square.getD 0 (Char.ofNat 0))) : Int) else -1),
    ((square.getD 1 (Char.ofNat 0)).toNat : Int) - 48 - 1)

/-- The function `coords_to_square` as a string: `FILES[col]` and `'0' + (row + 1)`. -/
def coords_to_square_string (col row : Int) : List Char :=
  [FILES.getD col.toNat (Char.ofNat 0), Char.ofNat (48 + (row + 1)).toNat]

end Engine

namespace Replit
open Piece

/-! ## Square names as strings (Replit_ChessEngine.cpp, lines 86-101) -/

/-- The function `parse_square` on the characters of a name: `file = sq[0] - 'A'`,
`rank = sq[1] - '1'`. -/
def parse_square_string (sq : List Char) : Int :=
  make_square (((sq.getD 0 (Char.ofNat 0)).toNat : Int) - 65)
    (((sq.getD 1 (Char.ofNat 0)).toNat : Int) - 49)

/-! ## Vocabulary for the frame of `apply_move` -/

/-- The squares between which `apply_move` moves a rook when the king's move `m` is
one of the four castling moves. -/
def castling_rook_squares (white : Bool) (m : Move) : List Int :=
  if white && decide (m.from_ = 4) && decide (m.to_ = 6) then [7, 5]
  else if white && decide (m.from_ = 4) && decide (m.to_ = 2) then [0, 3]
  else if !white && decide (m.from_ = 60) && decide (m.to_ = 62) then [63, 61]
  else if !white && decide (m.from_ = 60) && decide (m.to_ = 58) then [56, 59]
  else []

/-- The square `apply_move` empties when a pawn lands on the en-passant target: on
the file of the destination, one rank behind it for the mover. -/
def en_passant_victim (white : Bool) (m : Move) : Int :=
  make_square (square_to_file m.to_)
    (if white then square_to_rank m.to_ - 1 else square_to_rank m.to_ + 1)

/-- The board of `apply_move` before the en-passant removal: the piece stored on the
destination, the origin cleared, and the rook relocated when a king makes one of
the four castling moves. -/
def moved_board (s : GameState) (m : Move) : Board :=
  if piece_type (s.board m.from_) = 6 then
    castle_rook_board ((s.board.set m.to_ (s.board m.from_)).set m.from_ EMPTY)
      (is_white (s.board m.from_)) m
  else (s.board.set m.to_ (s.board m.from_)).set m.from_ EMPTY

/-- The en-passant removal of `apply_move` for move `m` in state `s`, when it takes
place (a pawn lands on `s.en_passant`), clears a square of the board `0..63`. -/
def victim_on_board (s : GameState) (m : Move) : Prop :=
  piece_type (s.board m.from_) = 1 → m.to_ = s.en_passant →
    0 ≤ en_passant_victim (is_white (s.board m.from_)) m ∧
      en_passant_victim (is_white (s.board m.from_)) m < 64

/-! ## Positions -/

/-- White king d2, black knight e1, black king e8, with the default-constructed
castling rights (all four set). -/
def knightOnE1 : GameState :=
  { board := ((Board.empty.set 11 W_KING).set 4 B_KNIGHT).set 60 B_KING,
    castling := ⟨15⟩, en_passant := -1 }

/-- White king e1, black king e8, black pawn b7; no castling rights, and the
en-passant field names b8. -/
def pawnBelowTarget : GameState :=
  { board := ((Board.empty.set 4 W_KING).set 60 B_KING).set 49 B_PAWN,
    castling := ⟨0⟩, en_passant := 57 }

/-- White king e1, white rook h1, black king e8, black pawn a7; white may castle
king-side, and the en-passant field names a8. -/
def pawnBelowCorner : GameState :=
  { board := (((Board.empty.set 4 W_KING).set 7 W_ROOK).set 60 B_KING).set 48 B_PAWN,
    castling := ⟨1⟩, en_passant := 56 }

end Replit

namespace Replit
open Piece

/-! ## Vocabulary for material bounds -/

/-- The piece is a pawn, knight, bishop, rook or queen of the given colour. -/
def non_king_of (white : Bool) (p : Piece) : Bool :=
  if white then decide (p ∈ [W_PAWN, W_KNIGHT, W_BISHOP, W_ROOK, W_QUEEN])
  else decide (p ∈ [B_PAWN, B_KNIGHT, B_BISHOP, B_ROOK, B_QUEEN])

/-- The number of squares `0..63` whose piece satisfies `keep`. -/
def count_pieces (board : Board) (keep : Piece → Bool) : Nat :=
  ((List.range 64).filter fun sq : Nat => keep (board (sq : Int))).length

/-- The term `evaluate_position` adds to the score for a square holding `p`. -/
def signed_value (p : Piece) : Int :=
  if is_empty p then 0 else if is_white p then piece_value p else -piece_value p

end Replit

namespace Replit
open Piece

/-! ## Vocabulary and positions for the state invariants -/

/-- The en-passant field is `-1` or a square on rank 3 (index 2) or rank 6 (index 5). -/
def en_passant_on_rank (s : GameState) : Prop :=
  s.en_passant = -1 ∨
    (0 ≤ s.en_passant ∧ s.en_passant < 64 ∧
      (square_to_rank s.en_passant = 2 ∨ square_to_rank s.en_passant = 5))

/-- Black king e8, black rook h8, black pawn d8, white knight e7; black may castle
king-side, and the en-passant field names e7. -/
def pawnBesideKing : GameState :=
  { board := (((Board.empty.set 60 B_KING).set 63 B_ROOK).set 59 B_PAWN).set 52 W_KNIGHT,
    castling := ⟨4⟩, en_passant := 52 }

end Replit

namespace Replit
open Piece

/-! ## Positions for a search that repeats -/

/-- A position with a white king, a black knight and the black king on h1, no
castling rights and no en-passant target. -/
def kingAndKnight (wk bn : Int) : GameState :=
  { board := ((Board.empty.set wk W_KING).set bn B_KNIGHT).set 7 B_KING,
    castling := ⟨0⟩, en_passant := -1 }

/-- White king a8, black knight d7. -/
def cycle0 : GameState := kingAndKnight 56 51

/-- White king a8, black knight f8. -/
def cycle1 : GameState := kingAndKnight 56 61

/-- White king a7, black knight f8. -/
def cycle2 : GameState := kingAndKnight 48 61

/-- White king a7, black knight d7. -/
def cycle3 : GameState := kingAndKnight 48 51

end Replit

namespace Engine

/-! ## A position for the comparison of the attack tests -/

/-- White knight B1 and white pawn D2, nothing else. -/
def knightGuardsPawn : BoardMap :=
  (emptyBoard.set ⟨1, 0⟩ (Piece.mk Color.white Kind.knight)).set ⟨3, 1⟩
    (Piece.mk Color.white Kind.pawn)

end Engine

namespace Engine

/-! ## Vocabulary for slider moves -/

/-- Square `t` is a slider target from `sq` along one of the directions `dirs` for
colour `color`: it lies `k >= 1` steps from `sq` in a direction of `dirs`, on the
board, every square strictly between is empty, and `t` is empty or holds a
piece not of colour `color`. -/
def slider_target (board : BoardMap) (color : Color) (dirs : List (Int × Int))
    (sq t : Square) : Prop :=
  ∃ d ∈ dirs, ∃ k : Nat, 1 ≤ k ∧ t = ⟨sq.col + k * d.1, sq.row + k * d.2⟩ ∧
    in_bounds_colrow t.col t.row = true ∧
    (∀ j : Nat, 1 ≤ j → j < k → board ⟨sq.col + j * d.1, sq.row + j * d.2⟩ = Piece.empty) ∧
    (board t = Piece.empty ∨ starts_with (board t) color = false)

/-- White rook D4, white pawn D6, black pawn F4, nothing else. -/
def rookOnD4 : BoardMap :=
  ((emptyBoard.set ⟨3, 3⟩ (Piece.mk Color.white Kind.rook)).set ⟨3, 5⟩
    (Piece.mk Color.white Kind.pawn)).set ⟨5, 3⟩ (Piece.mk Color.black Kind.pawn)

end Engine

namespace Replit
open Piece

theorem square_to_file_eq (sq : Int) (h0 : 0 ≤ sq) (h1 : sq < 64) :
    square_to_file sq = sq % 8 := by
  interval_cases sq <;> rfl

theorem square_to_rank_eq (sq : Int) (h0 : 0 ≤ sq) (h1 : sq < 64) :
    square_to_rank sq = sq / 8 := by
  interval_cases sq <;> rfl

theorem make_square_eq (f r : Int) (hf0 : 0 ≤ f) (hf1 : f ≤ 7) (hr0 : 0 ≤ r) (hr1 : r ≤ 7) :
    make_square f r = r * 8 + f := by
  interval_cases f <;> interval_cases r <;> rfl

theorem in_bounds_iff (f r : Int) : in_bounds f r = true ↔ 0 ≤ f ∧ f ≤ 7 ∧ 0 ≤ r ∧ r ≤ 7 := by
  simp [in_bounds, and_assoc]

theorem get_set_false (c : CastlingRights) (w k w2 k2 : Bool) :
    (c.set w k false).get w2 k2 = (if w = w2 ∧ k = k2 then false else c.get w2 k2) := by
  have key : ∀ (r i : Nat), (((r >>> i) &&& 1) != 0) = r.testBit i := by
    intro r i
    simp [Nat.testBit, Nat.and_comm]
  simp only [CastlingRights.get, CastlingRights.set, key, Nat.testBit_and]
  cases w <;> cases k <;> cases w2 <;> cases k2 <;> simp [CastlingRights.bit] <;>
    first | decide | (intro _; decide)

end Replit

namespace Replit
open Piece

theorem piece_type_eq_one (p : Piece) : piece_type p = 1 ↔ (p = W_PAWN ∨ p = B_PAWN) := by
  cases p <;> decide

theorem square_to_file_range (sq : Int) (h0 : 0 ≤ sq) (h1 : sq < 64) :
    0 ≤ square_to_file sq ∧ square_to_file sq ≤ 7 := by
  rw [square_to_file_eq sq h0 h1]; omega

theorem square_to_rank_range (sq : Int) (h0 : 0 ≤ sq) (h1 : sq < 64) :
    0 ≤ square_to_rank sq ∧ square_to_rank sq ≤ 7 := by
  rw [square_to_rank_eq sq h0 h1]; omega

theorem make_square_range (f r : Int) (hf0 : 0 ≤ f) (hf1 : f ≤ 7) (hr0 : 0 ≤ r) (hr1 : r ≤ 7) :
    0 ≤ make_square f r ∧ make_square f r < 64 := by
  rw [make_square_eq f r hf0 hf1 hr0 hr1]; omega

theorem square_to_file_make (f r : Int) (hf0 : 0 ≤ f) (hf1 : f ≤ 7) (hr0 : 0 ≤ r) (hr1 : r ≤ 7) :
    square_to_file (make_square f r) = f := by
  have h := make_square_range f r hf0 hf1 hr0 hr1
  rw [square_to_file_eq _ h.1 h.2, make_square_eq f r hf0 hf1 hr0 hr1]; omega

theorem square_to_rank_make (f r : Int) (hf0 : 0 ≤ f) (hf1 : f ≤ 7) (hr0 : 0 ≤ r) (hr1 : r ≤ 7) :
    square_to_rank (make_square f r) = r := by
  have h := make_square_range f r hf0 hf1 hr0 hr1
  rw [square_to_rank_eq _ h.1 h.2, make_square_eq f r hf0 hf1 hr0 hr1]; omega

/-! ## The three members of the state after `apply_move` -/

theorem apply_move_board_raw (s : GameState) (m : Move) :
    (apply_move s m).board =
      if piece_type (s.board m.from_) = 1 ∧ m.to_ = s.en_passant then
        if 0 ≤ en_passant_victim (is_white (s.board m.from_)) m ∧
            en_passant_victim (is_white (s.board m.from_)) m < 64 then
          (moved_board s m).set (en_passant_victim (is_white (s.board m.from_)) m) EMPTY
        else moved_board s m
      else moved_board s m := rfl

theorem apply_move_castling_raw (s : GameState) (m : Move) :
    (apply_move s m).castling =
      if piece_type (s.board m.from_) = 1 ∧ m.to_ = s.en_passant ∧
          en_passant_victim (is_white (s.board m.from_)) m = 64 then ⟨0⟩
      else captured_rights
        (moved_rights s.castling (is_white (s.board m.from_)) (piece_type (s.board m.from_)) m)
        (s.board m.to_) m := rfl

theorem apply_move_en_passant_raw (s : GameState) (m : Move) :
    (apply_move s m).en_passant =
      if piece_type (s.board m.from_) = 1 ∧ m.to_ = s.en_passant ∧
          en_passant_victim (is_white (s.board m.from_)) m = 65 then 0
      else if piece_type (s.board m.from_) = 1 ∧
          (square_to_rank m.to_ - square_to_rank m.from_).natAbs = 2 then
        make_square (square_to_file m.from_)
          ((square_to_rank m.from_ + square_to_rank m.to_).tdiv 2)
      else -1 := rfl

/-- When the en-passant removal stays on the board, the board is the moved board
with the victim square cleared. -/
theorem apply_move_board_eq (s : GameState) (m : Move) (hv : victim_on_board s m) :
    (apply_move s m).board =
      if piece_type (s.board m.from_) = 1 ∧ m.to_ = s.en_passant then
        (moved_board s m).set (en_passant_victim (is_white (s.board m.from_)) m) EMPTY
      else moved_board s m := by
  rw [apply_move_board_raw]
  by_cases hc : piece_type (s.board m.from_) = 1 ∧ m.to_ = s.en_passant
  · rw [if_pos hc, if_pos hc, if_pos (hv hc.1 hc.2)]
  · rw [if_neg hc, if_neg hc]

/-- When the en-passant removal stays on the board, the rights are those the king,
rook and capture blocks computed. -/
theorem apply_move_castling_eq (s : GameState) (m : Move) (hv : victim_on_board s m) :
    (apply_move s m).castling =
      captured_rights
        (moved_rights s.castling (is_white (s.board m.from_)) (piece_type (s.board m.from_)) m)
        (s.board m.to_) m := by
  rw [apply_move_castling_raw, if_neg]
  rintro ⟨h1, h2, h3⟩
  have := hv h1 h2
  omega

/-- When the en-passant removal stays on the board, the en-passant field is the one
the double-push test computed. -/
theorem apply_move_en_passant_eq (s : GameState) (m : Move) (hv : victim_on_board s m) :
    (apply_move s m).en_passant =
      if piece_type (s.board m.from_) = 1 ∧
          (square_to_rank m.to_ - square_to_rank m.from_).natAbs = 2 then
        make_square (square_to_file m.from_)
          ((square_to_rank m.from_ + square_to_rank m.to_).tdiv 2)
      else -1 := by
  rw [apply_move_en_passant_raw, if_neg]
  rintro ⟨h1, h2, h3⟩
  have := hv h1 h2
  omega

/-- The en-passant removal stays on the board when the en-passant field is `-1` or on
rank index 2 or 5 and the destination is a square of the board. -/
theorem victim_on_board_of_rank (s : GameState) (m : Move)
    (hep : en_passant_on_rank s) (ht : 0 ≤ m.to_ ∧ m.to_ < 64) : victim_on_board s m := by
  intro _ hto
  unfold en_passant_on_rank at hep
  rw [← hto] at hep
  rcases hep with h | ⟨_, _, hr⟩
  · omega
  · have hF := square_to_file_range m.to_ ht.1 ht.2
    unfold en_passant_victim
    generalize is_white (s.board m.from_) = w
    have hr2 : 0 ≤ (if w then square_to_rank m.to_ - 1 else square_to_rank m.to_ + 1) ∧
        (if w then square_to_rank m.to_ - 1 else square_to_rank m.to_ + 1) ≤ 7 := by
      cases w <;> simp only [Bool.false_eq_true, if_false, if_true] <;> omega
    exact make_square_range _ _ hF.1 hF.2 hr2.1 hr2.2

/-- C7, as amended (en-passant target after a move, array engine): for every state
and every move between squares `0..63` whose en-passant removal, if it takes
place, clears a square of the board, if the moved piece is a pawn and the move
changes its rank by exactly two, the new `en_passant` is the square on the
origin's file whose rank lies strictly between origin and destination; in every
other case it is `-1`, whatever the old target was. -/
theorem en_passant_target_after_move (s : GameState) (m : Move)
    (hf : 0 ≤ m.from_ ∧ m.from_ < 64) (ht : 0 ≤ m.to_ ∧ m.to_ < 64)
    (hv : victim_on_board s m) :
    ((s.board m.from_ = W_PAWN ∨ s.board m.from_ = B_PAWN) ∧
        (square_to_rank m.to_ - square_to_rank m.from_).natAbs = 2 →
      0 ≤ (apply_move s m).en_passant ∧ (apply_move s m).en_passant < 64 ∧
      square_to_file (apply_move s m).en_passant = square_to_file m.from_ ∧
      ((square_to_rank m.from_ < square_to_rank (apply_move s m).en_passant ∧
          square_to_rank (apply_move s m).en_passant < square_to_rank m.to_) ∨
       (square_to_rank m.to_ < square_to_rank (apply_move s m).en_passant ∧
          square_to_rank (apply_move s m).en_passant < square_to_rank m.from_))) ∧
    (¬ ((s.board m.from_ = W_PAWN ∨ s.board m.from_ = B_PAWN) ∧
        (square_to_rank m.to_ - square_to_rank m.from_).natAbs = 2) →
      (apply_move s m).en_passant = -1) := by
  have hF := square_to_file_range m.from_ hf.1 hf.2
  have hRf := square_to_rank_range m.from_ hf.1 hf.2
  have hRt := square_to_rank_range m.to_ ht.1 ht.2
  rw [apply_move_en_passant_eq s m hv]
  simp only [piece_type_eq_one]
  constructor
  · intro h
    rw [if_pos h]
    have hmid : (square_to_rank m.from_ + square_to_rank m.to_).tdiv 2 =
        (square_to_rank m.from_ + square_to_rank m.to_) / 2 :=
      Int.tdiv_eq_ediv (by omega) (by norm_num)
    rw [hmid]
    have h2 := h.2
    have hm0 : 0 ≤ (square_to_rank m.from_ + square_to_rank m.to_) / 2 := by omega
    have hm1 : (square_to_rank m.from_ + square_to_rank m.to_) / 2 ≤ 7 := by omega
    have hr := make_square_range _ _ hF.1 hF.2 hm0 hm1
    rw [square_to_file_make _ _ hF.1 hF.2 hm0 hm1, square_to_rank_make _ _ hF.1 hF.2 hm0 hm1]
    refine ⟨hr.1, hr.2, rfl, ?_⟩
    omega
  · intro h
    rw [if_neg h]

/-- C7, as stated, fails when a pawn lands on the en-passant field on its own back
rank: with a black pawn on b7, the en-passant field naming b8 and the move
b7->b8, the rank changes by one, and the en-passant removal stores 0 at index
`make_square(1, 8) = 65`, the byte of `en_passant`: the field is 0 (the square
a1) afterwards, not `-1`. -/
theorem stray_store_sets_en_passant :
    pawnBelowTarget.board 49 = B_PAWN ∧
    (square_to_rank 57 - square_to_rank 49).natAbs = 1 ∧
    en_passant_victim (is_white (pawnBelowTarget.board 49)) ⟨49, 57⟩ = 65 ∧
    (apply_move pawnBelowTarget ⟨49, 57⟩).en_passant = 0 := by
  decide

end Replit

namespace Replit
open Piece

/-! ## The ray loops never run out of fuel -/

/-- A direction of the rook and bishop tables: one step along a row, a column or a
diagonal. -/
theorem dirs_unit (d : Int × Int) (hd : d ∈ ROOK_DIRS ∨ d ∈ BISHOP_DIRS) :
    (d.2 = 1 ∨ d.2 = -1 ∨ (d.2 = 0 ∧ (d.1 = 1 ∨ d.1 = -1))) := by
  simp only [ROOK_DIRS, BISHOP_DIRS, List.mem_cons, List.mem_singleton, List.not_mem_nil,
    or_false] at hd
  rcases hd with (rfl | rfl | rfl | rfl) | (rfl | rfl | rfl | rfl) <;> simp

/-- The number of squares left on the board from `(f, r)` on, along a direction. -/
theorem ray_measure (df dr : Int)
    (hd : dr = 1 ∨ dr = -1 ∨ (dr = 0 ∧ (df = 1 ∨ df = -1))) :
    ∃ μ : Int → Int → Nat, (∀ f r, μ f r ≤ 8) ∧ (∀ f r, μ f r = 0 → in_bounds f r = false) ∧
      (∀ f r, in_bounds f r = true → μ (f + df) (r + dr) + 1 ≤ μ f r) := by
  refine ⟨fun f r => if in_bounds f r = true then
      (if dr = 1 then (8 - r).toNat else if dr = -1 then (r + 1).toNat
        else if df = 1 then (8 - f).toNat else (f + 1).toNat) else 0, ?_, ?_, ?_⟩
  · intro f r
    by_cases hb : in_bounds f r = true
    · have := (in_bounds_iff f r).mp hb
      simp only [hb, if_true]
      split_ifs <;> omega
    · simp [hb]
  · intro f r h
    by_contra hb
    have hb2 : in_bounds f r = true := by simpa using hb
    have := (in_bounds_iff f r).mp hb2
    simp only [hb2, if_true] at h
    split_ifs at h <;> omega
  · intro f r hb
    have h1 := (in_bounds_iff f r).mp hb
    simp only [hb, if_true]
    by_cases hb2 : in_bounds (f + df) (r + dr) = true
    · have h2 := (in_bounds_iff _ _).mp hb2
      simp only [hb2, if_true]
      rcases hd with h | h | ⟨h, h3 | h3⟩ <;> subst h <;> try subst h3
      all_goals simp
      all_goals omega
    · simp only [hb2]
      rcases hd with h | h | ⟨h, h3 | h3⟩ <;> subst h <;> try subst h3
      all_goals simp
      all_goals omega

/-- The loop of `generate_sliding_moves`, run with more than 8 steps of fuel along a
direction of the tables, produces what it produces with 8: the bound is never
the reason the loop stops. -/
theorem slide_moves_fuel (board : Board) (from_ : Int) (white : Bool) (d : Int × Int)
    (hd : d ∈ ROOK_DIRS ∨ d ∈ BISHOP_DIRS) (n : Nat) (f r : Int) :
    slide_moves board from_ white d.1 d.2 (8 + n) f r =
      slide_moves board from_ white d.1 d.2 8 f r := by
  obtain ⟨μ, h8, h0, hstep⟩ := ray_measure d.1 d.2 (dirs_unit d hd)
  have key : ∀ (fuel : Nat) (f r : Int), μ f r ≤ fuel →
      slide_moves board from_ white d.1 d.2 (fuel + 1) f r =
        slide_moves board from_ white d.1 d.2 fuel f r := by
    intro fuel
    induction fuel with
    | zero =>
      intro f r h
      have := h0 f r (by omega)
      simp [slide_moves, this]
    | succ m ih =>
      intro f r h
      conv_lhs => unfold slide_moves
      conv_rhs => unfold slide_moves
      by_cases hb : in_bounds f r = true
      · rw [ih (f + d.1) (r + d.2) (by have := hstep f r hb; omega)]
      · simp [hb]
  induction n with
  | zero => rfl
  | succ k ih =>
    rw [← ih]
    exact key (8 + k) f r (by have := h8 f r; omega)

/-- The ray loops of `is_square_attacked` likewise never stop for lack of fuel. -/
theorem ray_attacked_fuel (board : Board) (a b : Piece) (d : Int × Int)
    (hd : d ∈ ROOK_DIRS ∨ d ∈ BISHOP_DIRS) (n : Nat) (f r : Int) :
    ray_attacked board a b d.1 d.2 (8 + n) f r = ray_attacked board a b d.1 d.2 8 f r := by
  obtain ⟨μ, h8, h0, hstep⟩ := ray_measure d.1 d.2 (dirs_unit d hd)
  have key : ∀ (fuel : Nat) (f r : Int), μ f r ≤ fuel →
      ray_attacked board a b d.1 d.2 (fuel + 1) f r =
        ray_attacked board a b d.1 d.2 fuel f r := by
    intro fuel
    induction fuel with
    | zero =>
      intro f r h
      have := h0 f r (by omega)
      simp [ray_attacked, this]
    | succ m ih =>
      intro f r h
      conv_lhs => unfold ray_attacked
      conv_rhs => unfold ray_attacked
      by_cases hb : in_bounds f r = true
      · rw [ih (f + d.1) (r + d.2) (by have := hstep f r hb; omega)]
      · simp [hb]
  induction n with
  | zero => rfl
  | succ k ih =>
    rw [← ih]
    exact key (8 + k) f r (by have := h8 f r; omega)

end Replit

namespace Replit
open Piece

theorem king_of_iff (p : Piece) (c : Bool) :
    p = king_of c ↔ (piece_type p = 6 ∧ is_white p = c) := by
  cases p <;> cases c <;> decide

theorem rook_of_iff (p : Piece) (c : Bool) :
    p = rook_of c ↔ (piece_type p = 4 ∧ is_white p = c) := by
  cases p <;> cases c <;> decide

theorem moved_rights_get (c : CastlingRights) (w : Bool) (pt : Int) (m : Move) (c2 ks : Bool) :
    (moved_rights c w pt m).get c2 ks = true ↔
      (c.get c2 ks = true ∧ ¬ (pt = 6 ∧ w = c2) ∧
        ¬ (pt = 4 ∧ w = c2 ∧ m.from_ = rook_home c2 ks)) := by
  unfold moved_rights
  by_cases h6 : pt = 6
  · have h4 : pt ≠ 4 := by omega
    simp only [h6, if_true, get_set_false]
    cases w <;> cases c2 <;> cases ks <;> simp
  · by_cases h4 : pt = 4
    · simp only [h4, if_true, show ¬ ((4 : Int) = 6) by decide, if_false]
      cases w <;> cases c2 <;> cases ks <;> simp [rook_home] <;>
        split_ifs <;> simp_all [get_set_false]
    · simp [h6, h4]

theorem captured_rights_get (c : CastlingRights) (cap : Piece) (m : Move) (c2 ks : Bool) :
    (captured_rights c cap m).get c2 ks = true ↔
      (c.get c2 ks = true ∧ ¬ (piece_type cap = 4 ∧ m.to_ = rook_home c2 ks)) := by
  unfold captured_rights
  by_cases h4 : piece_type cap = 4
  · simp only [h4, if_true]
    cases c2 <;> cases ks <;> simp [rook_home] <;>
      split_ifs <;> simp_all [get_set_false]
  · simp [h4]

/-- C9, as amended (castling-rights update, array engine): in a state satisfying the
castling-rights invariant, for every move between squares `0..63` whose
en-passant removal, if it takes place, clears a square of the board, each right
is set afterwards exactly when it was set before and the moved piece is not that
side's king, is not that side's rook leaving the right's home corner, and no
rook standing on that corner was captured (under the invariant that rook is the
side's own rook). In particular a right that was clear stays clear. -/
theorem castling_rights_after_move (s : GameState) (hinv : rights_at_home s) (m : Move)
    (_hf : 0 ≤ m.from_ ∧ m.from_ < 64) (_ht : 0 ≤ m.to_ ∧ m.to_ < 64)
    (hv : victim_on_board s m) (c ks : Bool) :
    ((apply_move s m).castling.get c ks = true ↔
      (s.castling.get c ks = true ∧ s.board m.from_ ≠ king_of c ∧
        ¬ (s.board m.from_ = rook_of c ∧ m.from_ = rook_home c ks) ∧
        ¬ (piece_type (s.board m.to_) = 4 ∧ m.to_ = rook_home c ks))) ∧
    ((apply_move s m).castling.get c ks = true ↔
      (s.castling.get c ks = true ∧ s.board m.from_ ≠ king_of c ∧
        ¬ (s.board m.from_ = rook_of c ∧ m.from_ = rook_home c ks) ∧
        ¬ (s.board m.to_ = rook_of c ∧ m.to_ = rook_home c ks))) ∧
    (s.castling.get c ks = false → (apply_move s m).castling.get c ks = false) := by
  have h1 : ((apply_move s m).castling.get c ks = true ↔
      (s.castling.get c ks = true ∧ s.board m.from_ ≠ king_of c ∧
        ¬ (s.board m.from_ = rook_of c ∧ m.from_ = rook_home c ks) ∧
        ¬ (piece_type (s.board m.to_) = 4 ∧ m.to_ = rook_home c ks))) := by
    rw [apply_move_castling_eq s m hv, captured_rights_get, moved_rights_get, Ne,
      king_of_iff (s.board m.from_) c, rook_of_iff (s.board m.from_) c]
    tauto
  refine ⟨h1, ?_, ?_⟩
  · rw [h1]
    constructor
    · rintro ⟨hr, hk, hrk, hcap⟩
      refine ⟨hr, hk, hrk, fun hx => hcap ⟨?_, hx.2⟩⟩
      exact ((rook_of_iff _ _).mp hx.1).1
    · rintro ⟨hr, hk, hrk, hcap⟩
      refine ⟨hr, hk, hrk, fun hx => hcap ⟨?_, hx.2⟩⟩
      have := (hinv c ks hr).2
      rw [hx.2]; exact this
  · intro hf
    cases hb : (apply_move s m).castling.get c ks
    · rfl
    · rw [h1.mp hb |>.1] at hf
      exact absurd hf (by decide)

end Replit

namespace Replit
open Piece

theorem apply_move_board_king (s : GameState) (m : Move) (c : Bool)
    (hk : s.board m.from_ = king_of c) :
    (apply_move s m).board =
      castle_rook_board ((s.board.set m.to_ (king_of c)).set m.from_ EMPTY) c m := by
  have hp : piece_type (king_of c) = 6 := by cases c <;> decide
  have hw : is_white (king_of c) = c := by cases c <;> decide
  have h1 : ¬ (piece_type (s.board m.from_) = 1 ∧ m.to_ = s.en_passant) := by
    rw [hk, hp]; omega
  rw [apply_move_board_raw, if_neg h1]
  unfold moved_board
  rw [hk, hp, hw, if_pos rfl]

/-- C10 (castling application, array engine): with a king on its home square and
the matching rook on its corner, applying the two-square king move that
`generate_king_moves` produced puts the king on g/c, the rook on the square the
king crossed, empties the king's home square and the rook's corner, and changes
no other square. -/
theorem castling_move_applied (s : GameState) (c ks : Bool)
    (hk : s.board (king_home c) = king_of c)
    (hr : s.board (rook_home c ks) = rook_of c)
    (hm : Move.mk (king_home c) (king_castle_target c ks) ∈
      generate_king_moves s.board (king_home c) c (some s.castling)) :
    (apply_move s ⟨king_home c, king_castle_target c ks⟩).board (king_castle_target c ks)
      = king_of c ∧
    (apply_move s ⟨king_home c, king_castle_target c ks⟩).board (rook_castle_target c ks)
      = rook_of c ∧
    (apply_move s ⟨king_home c, king_castle_target c ks⟩).board (king_home c) = EMPTY ∧
    (apply_move s ⟨king_home c, king_castle_target c ks⟩).board (rook_home c ks) = EMPTY ∧
    ∀ i : Int, i ≠ king_home c → i ≠ king_castle_target c ks → i ≠ rook_home c ks →
      i ≠ rook_castle_target c ks →
      (apply_move s ⟨king_home c, king_castle_target c ks⟩).board i = s.board i := by
  rw [apply_move_board_king s ⟨king_home c, king_castle_target c ks⟩ c hk]
  cases c <;> cases ks <;>
    simp [castle_rook_board, Board.set, king_home, king_castle_target, rook_home,
      rook_castle_target, king_of, rook_of] <;>
    intro i h1 h2 h3 h4 <;> simp [h1, h2, h3, h4]

end Replit

namespace Replit
open Piece

theorem mem_pseudo_legal_moves (s : GameState) (w : Bool) (m : Move) :
    m ∈ generate_pseudo_legal_moves s w ↔
      ∃ sq : Nat, sq < 64 ∧ m ∈ moves_from_square s w (sq : Int) := by
  simp [generate_pseudo_legal_moves, List.mem_flatMap]

theorem slide_moves_from (board : Board) (from_ : Int) (white : Bool) (df dr : Int)
    (fuel : Nat) (f r : Int) (m : Move)
    (hm : m ∈ slide_moves board from_ white df dr fuel f r) : m.from_ = from_ := by
  induction fuel generalizing f r with
  | zero => simp [slide_moves] at hm
  | succ n ih =>
    unfold slide_moves at hm
    split_ifs at hm
    · rcases List.mem_cons.mp hm with h | h
      · rw [h]
      · exact ih _ _ h
    · simp at hm; rw [hm]
    · simp at hm
    · simp at hm

theorem generate_sliding_moves_from (board : Board) (from_ : Int) (dirs : List (Int × Int))
    (white : Bool) (m : Move) (hm : m ∈ generate_sliding_moves board from_ dirs white) :
    m.from_ = from_ := by
  unfold generate_sliding_moves at hm
  obtain ⟨d, _, hd⟩ := List.mem_flatMap.mp hm
  exact slide_moves_from _ _ _ _ _ _ _ _ _ hd

theorem generate_knight_moves_from (board : Board) (from_ : Int) (white : Bool) (m : Move)
    (hm : m ∈ generate_knight_moves board from_ white) : m.from_ = from_ := by
  unfold generate_knight_moves at hm
  obtain ⟨o, _, ho⟩ := List.mem_flatMap.mp hm
  split_ifs at ho <;> simp at ho
  rw [ho.2]

theorem king_step_moves_from (board : Board) (from_ : Int) (white : Bool) (m : Move)
    (hm : m ∈ king_step_moves board from_ white) : m.from_ = from_ := by
  unfold king_step_moves at hm
  obtain ⟨o, _, ho⟩ := List.mem_flatMap.mp hm
  split_ifs at ho <;> simp at ho
  rw [ho.2]

theorem pawn_forward_moves_spec (board : Board) (from_ : Int) (white : Bool) (m : Move)
    (h0 : 0 ≤ from_) (h1 : from_ < 64)
    (hm : m ∈ pawn_forward_moves board from_ white) :
    m.from_ = from_ ∧ square_to_file m.to_ = square_to_file from_ := by
  have hF := square_to_file_range from_ h0 h1
  have hR := square_to_rank_range from_ h0 h1
  unfold pawn_forward_moves at hm
  cases white
  all_goals simp only [Bool.false_eq_true, if_true, if_false] at hm
  all_goals split_ifs at hm with hb he hs hd
  all_goals simp only [List.mem_cons, List.mem_singleton, List.not_mem_nil, or_false] at hm
  all_goals have hb2 := (in_bounds_iff _ _).mp hb
  all_goals first
    | (rw [hm]
       exact ⟨rfl, square_to_file_make _ _ hF.1 hF.2 hb2.2.2.1 hb2.2.2.2⟩)
    | (rcases hm with h | h
       · rw [h]
         exact ⟨rfl, square_to_file_make _ _ hF.1 hF.2 hb2.2.2.1 hb2.2.2.2⟩
       · rw [h]
         exact ⟨rfl, square_to_file_make _ _ hF.1 hF.2 (by omega) (by omega)⟩)

theorem pawn_capture_moves_spec (board : Board) (from_ : Int) (white : Bool) (ep df : Int)
    (m : Move) (hm : m ∈ pawn_capture_moves board from_ white ep df) :
    in_bounds (square_to_file from_ + df)
        (square_to_rank from_ + (if white then 1 else -1)) = true ∧
    m = ⟨from_, make_square (square_to_file from_ + df)
        (square_to_rank from_ + (if white then 1 else -1))⟩ ∧
    ((is_empty (board m.to_) = false ∧ is_color (board m.to_) (!white) = true) ∨
     (0 ≤ ep ∧ m.to_ = ep ∧
      board (make_square (square_to_file from_ + df) (square_to_rank from_))
        = pawn_of (!white))) := by
  have hx : (if white then B_PAWN else W_PAWN) = pawn_of (!white) := by cases white <;> rfl
  unfold pawn_capture_moves at hm
  simp only [hx] at hm
  generalize (if white then (1 : Int) else -1) = dir at hm ⊢
  generalize pawn_of (!white) = expected at hm ⊢
  by_cases hb : in_bounds (square_to_file from_ + df) (square_to_rank from_ + dir) = true
  · rw [if_pos hb] at hm
    refine ⟨hb, ?_⟩
    rcases List.mem_append.mp hm with h | h
    · by_cases hc : (!is_empty (board (make_square (square_to_file from_ + df)
          (square_to_rank from_ + dir))) &&
          is_color (board (make_square (square_to_file from_ + df)
          (square_to_rank from_ + dir))) (!white)) = true
      · rw [if_pos hc] at h
        simp only [List.mem_singleton] at h
        refine ⟨h, Or.inl ?_⟩
        rw [h]
        simpa using hc
      · rw [if_neg hc] at h
        simp at h
    · by_cases hc : (decide (0 ≤ ep) && decide (make_square (square_to_file from_ + df)
          (square_to_rank from_ + dir) = ep)) = true
      · rw [if_pos hc] at h
        by_cases hv : board (make_square (square_to_file from_ + df) (square_to_rank from_))
            = expected
        · rw [if_pos hv] at h
          simp only [List.mem_singleton] at h
          refine ⟨h, Or.inr ?_⟩
          rw [h]
          simp only [Bool.and_eq_true, decide_eq_true_eq] at hc
          exact ⟨hc.1, hc.2, hv⟩
        · rw [if_neg hv] at h
          simp at h
      · rw [if_neg hc] at h
        simp at h
  · rw [if_neg hb] at hm
    simp at hm

theorem castling_moves_rank (board : Board) (white : Bool) (c : Option CastlingRights)
    (m : Move) (hm : m ∈ castling_moves board white c) :
    square_to_rank m.to_ = square_to_rank m.from_ := by
  cases c with
  | none => simp [castling_moves] at hm
  | some r =>
    unfold castling_moves at hm
    simp only at hm
    split_ifs at hm <;> simp at hm <;> first | (subst hm; rfl) | (rcases hm with h | h <;> subst h <;> rfl)

end Replit

namespace Replit
open Piece

theorem pawn_of_iff (p : Piece) (w : Bool) :
    (is_color p w = true ∧ piece_type p = 1) ↔ p = pawn_of w := by
  cases p <;> cases w <;> decide

/-- A generated move that changes rank starts on the square whose piece produced it. -/
theorem moves_from_square_from (s : GameState) (w : Bool) (sq : Int) (m : Move)
    (h0 : 0 ≤ sq) (h1 : sq < 64)
    (hm : m ∈ moves_from_square s w sq)
    (hr : square_to_rank m.to_ ≠ square_to_rank m.from_) : m.from_ = sq := by
  unfold moves_from_square at hm
  simp only at hm
  split_ifs at hm
  · simp at hm
  · rcases List.mem_append.mp hm with h | h
    · exact (pawn_forward_moves_spec _ _ _ _ h0 h1 h).1
    · obtain ⟨df, _, hdf⟩ := List.mem_flatMap.mp h
      have := (pawn_capture_moves_spec _ _ _ _ _ _ hdf).2.1
      rw [this]
  · exact generate_knight_moves_from _ _ _ _ hm
  · exact generate_sliding_moves_from _ _ _ _ _ hm
  · exact generate_sliding_moves_from _ _ _ _ _ hm
  · rcases List.mem_append.mp hm with h | h <;> exact generate_sliding_moves_from _ _ _ _ _ h
  · rcases List.mem_append.mp hm with h | h
    · exact king_step_moves_from _ _ _ _ h
    · exact absurd (castling_moves_rank _ _ _ _ h) hr
  · simp at hm

/-- C8 (en-passant capture application, array engine): if the en-passant target `e`
is set and empty, and `m` is a generated move for side `w` by a pawn that lands on
`e` changing both file and rank, then the moved pawn is `w`'s, the square `v` on
`e`'s file and the pawn's origin rank (one rank behind `e` for the mover) holds
an enemy pawn, and after `apply_move` the pawn stands on `e`, the origin and `v`
are empty, and no other square changed. -/
theorem en_passant_capture_applied (s : GameState) (w : Bool) (m : Move)
    (_hset : 0 ≤ s.en_passant) (hempty : s.board s.en_passant = EMPTY)
    (hm : m ∈ generate_pseudo_legal_moves s w)
    (hp : piece_type (s.board m.from_) = 1)
    (hto : m.to_ = s.en_passant)
    (hfile : square_to_file m.to_ ≠ square_to_file m.from_)
    (hrank : square_to_rank m.to_ ≠ square_to_rank m.from_) :
    s.board m.from_ = pawn_of w ∧
    square_to_rank m.to_ = square_to_rank m.from_ + (if w then 1 else -1) ∧
    s.board (make_square (square_to_file m.to_) (square_to_rank m.from_)) = pawn_of (!w) ∧
    (apply_move s m).board m.to_ = pawn_of w ∧
    (apply_move s m).board m.from_ = EMPTY ∧
    (apply_move s m).board (make_square (square_to_file m.to_) (square_to_rank m.from_))
      = EMPTY ∧
    ∀ i : Int, i ≠ m.to_ → i ≠ m.from_ →
      i ≠ make_square (square_to_file m.to_) (square_to_rank m.from_) →
      (apply_move s m).board i = s.board i := by
  obtain ⟨sq, hsq, hmsq⟩ := (mem_pseudo_legal_moves s w m).mp hm
  have hsq0 : (0 : Int) ≤ (sq : Int) := by omega
  have hsq1 : (sq : Int) < 64 := by omega
  have hfrom : m.from_ = (sq : Int) := moves_from_square_from s w _ m hsq0 hsq1 hmsq hrank
  rw [← hfrom] at hmsq hsq0 hsq1
  have hF := square_to_file_range m.from_ hsq0 hsq1
  have hR := square_to_rank_range m.from_ hsq0 hsq1
  -- the piece on the origin is a pawn of the mover
  have hcol : is_color (s.board m.from_) w = true := by
    by_contra hc
    unfold moves_from_square at hmsq
    simp [hc] at hmsq
  have hpawn : s.board m.from_ = pawn_of w := (pawn_of_iff _ _).mp ⟨hcol, hp⟩
  have hgen : m ∈ generate_pawn_moves s.board m.from_ w s.en_passant := by
    unfold moves_from_square at hmsq
    simpa [hcol, hp] using hmsq
  -- the move comes from the capture loop, through the en-passant branch
  have hcap : ∃ df : Int, df ∈ ([-1, 1] : List Int) ∧
      m ∈ pawn_capture_moves s.board m.from_ w s.en_passant df := by
    rcases List.mem_append.mp hgen with h | h
    · exact absurd (pawn_forward_moves_spec _ _ _ _ hsq0 hsq1 h).2 hfile
    · obtain ⟨df, hdf, hx⟩ := List.mem_flatMap.mp h
      exact ⟨df, hdf, hx⟩
  obtain ⟨df, _, hdf⟩ := hcap
  obtain ⟨hb, hmeq, hbranch⟩ := pawn_capture_moves_spec _ _ _ _ _ _ hdf
  have hb2 := (in_bounds_iff _ _).mp hb
  have hto2 : m.to_ = make_square (square_to_file m.from_ + df)
      (square_to_rank m.from_ + (if w then 1 else -1)) := by
    conv_lhs => rw [hmeq]
  have hfto : square_to_file m.to_ = square_to_file m.from_ + df := by
    rw [hto2]; exact square_to_file_make _ _ hb2.1 hb2.2.1 hb2.2.2.1 hb2.2.2.2
  have hrto : square_to_rank m.to_ = square_to_rank m.from_ + (if w then 1 else -1) := by
    rw [hto2]; exact square_to_rank_make _ _ hb2.1 hb2.2.1 hb2.2.2.1 hb2.2.2.2
  have hvictim : s.board (make_square (square_to_file m.to_) (square_to_rank m.from_))
      = pawn_of (!w) := by
    rcases hbranch with h | h
    · rw [hto, hempty] at h
      exact absurd h.1 (by decide)
    · rw [hfto]; exact h.2.2
  -- the three squares are distinct
  have hfv : square_to_file (make_square (square_to_file m.to_) (square_to_rank m.from_))
      = square_to_file m.to_ := by
    rw [hfto]; exact square_to_file_make _ _ hb2.1 hb2.2.1 hR.1 hR.2
  have hrv : square_to_rank (make_square (square_to_file m.to_) (square_to_rank m.from_))
      = square_to_rank m.from_ := by
    rw [hfto]; exact square_to_rank_make _ _ hb2.1 hb2.2.1 hR.1 hR.2
  have hne1 : m.to_ ≠ m.from_ := fun h => hfile (by rw [h])
  have hne2 : make_square (square_to_file m.to_) (square_to_rank m.from_) ≠ m.from_ :=
    fun h => hfile (by rw [← hfv, h])
  have hne3 : m.to_ ≠ make_square (square_to_file m.to_) (square_to_rank m.from_) :=
    fun h => hrank (by rw [← hrv, ← h])
  -- the board after the move
  have hpt : piece_type (pawn_of w) = 1 := by cases w <;> decide
  have hiw : is_white (pawn_of w) = w := by cases w <;> decide
  have hvr : (if w then square_to_rank m.to_ - 1 else square_to_rank m.to_ + 1)
      = square_to_rank m.from_ := by
    rw [hrto]; cases w <;> simp
  have hboard : (apply_move s m).board =
      ((s.board.set m.to_ (pawn_of w)).set m.from_ EMPTY).set
        (make_square (square_to_file m.to_) (square_to_rank m.from_)) EMPTY := by
    have h6 : ¬ ((1 : Int) = 6) := by decide
    have hvr2 : en_passant_victim (is_white (s.board m.from_)) m =
        make_square (square_to_file m.to_) (square_to_rank m.from_) := by
      unfold en_passant_victim
      rw [hpawn, hiw, hvr]
    have hvin := make_square_range (square_to_file m.to_) (square_to_rank m.from_)
      (by rw [hfto]; exact hb2.1) (by rw [hfto]; exact hb2.2.1) hR.1 hR.2
    have hvb : victim_on_board s m := fun _ _ => by rw [hvr2]; exact hvin
    rw [apply_move_board_eq s m hvb, if_pos ⟨hp, hto⟩, hvr2]
    unfold moved_board
    rw [hpawn, hpt, if_neg h6]
  refine ⟨hpawn, hrto, hvictim, ?_, ?_, ?_, ?_⟩
  · rw [hboard]; simp [Board.set, hne1, hne3]
  · rw [hboard]; simp [Board.set, hne2.symm]
  · rw [hboard]; simp [Board.set]
  · intro i h1 h2 h3
    rw [hboard]; simp [Board.set, h1, h2, h3]

end Replit

namespace Replit
open Piece

/-- C1 (legality closure, array engine): every move that `generate_legal_moves`
returns for side `w` leaves `is_in_check` false for `w` on the board after
`apply_move`; so whenever a king of `w` is found there, its square is not
attacked by the opponent. -/
theorem legal_move_leaves_king_safe (s : GameState) (w : Bool) (m : Move)
    (hm : m ∈ generate_legal_moves s w) :
    is_in_check (apply_move s m).board w = false ∧
    (0 ≤ find_king (apply_move s m).board w →
      is_square_attacked (apply_move s m).board (find_king (apply_move s m).board w) (!w)
        = false) := by
  have h : is_in_check (apply_move s m).board w = false := by
    have := (List.mem_filter.mp hm).2
    simpa using this
  refine ⟨h, fun hk => ?_⟩
  have h2 := h
  unfold is_in_check at h2
  simp only [not_lt.mpr hk, if_false] at h2
  exact h2

theorem legal_move_leaves_king_safe_witness :
    Move.mk 4 6 ∈ generate_legal_moves castleFree true ∧
    is_in_check (apply_move castleFree (Move.mk 4 6)).board true = false :=
  ⟨by decide, (legal_move_leaves_king_safe castleFree true (Move.mk 4 6) (by decide)).1⟩

/-- C3 (castling legality, array engine), evaluated at the spec's position: with a
black bishop on a6 attacking f1 the array engine still lists the castling move
e1->g1 as legal (and it lists it without the bishop too). -/
theorem castling_through_check_is_generated :
    is_square_attacked castleThroughCheck.board 5 false = true ∧
    Move.mk 4 6 ∈ generate_legal_moves castleThroughCheck true ∧
    Move.mk 4 6 ∈ generate_legal_moves castleFree true := by
  decide

/-- C4 (king moves for both colours, array engine), evaluated at a position with
the black king on e8: `is_black` rejects `B_KING`, so no move at all is generated
for black, while the white king on e1 gets its five moves. -/
theorem black_king_moves_missing :
    is_black B_KING = false ∧
    generate_pseudo_legal_moves twoKings false = [] ∧
    generate_pseudo_legal_moves twoKings true =
      [⟨4, 12⟩, ⟨4, 5⟩, ⟨4, 3⟩, ⟨4, 13⟩, ⟨4, 11⟩] := by
  decide

/-- C6 (promotion, array engine), evaluated at a position with a white pawn on a7:
the only pawn move generated is the plain move a7->a8, and applying it leaves a
white pawn on a8. -/
theorem pawn_reaches_last_rank_unpromoted :
    (generate_pseudo_legal_moves pawnOnSeventh true).filter (fun m => m.from_ = 48) = [⟨48, 56⟩] ∧
    (apply_move pawnOnSeventh ⟨48, 56⟩).board 56 = W_PAWN := by
  decide

end Replit

namespace Replit
open Piece

theorem en_passant_target_after_move_witness :
    (apply_move pawnOnSecond ⟨12, 28⟩).en_passant = 20 ∧
    square_to_file (apply_move pawnOnSecond ⟨12, 28⟩).en_passant = square_to_file 12 :=
  ⟨by decide,
    ((en_passant_target_after_move pawnOnSecond ⟨12, 28⟩ (by decide) (by decide)
      (by unfold victim_on_board; decide)).1 (by decide)).2.2.1⟩

theorem castling_rights_after_move_witness :
    rights_at_home castleFree ∧
    (apply_move castleFree ⟨7, 15⟩).castling.get true true = false ∧
    (apply_move castleFree ⟨7, 15⟩).castling.get true false = false :=
  ⟨by unfold rights_at_home; decide, by decide,
    (castling_rights_after_move castleFree (by unfold rights_at_home; decide) ⟨7, 15⟩
      (by decide) (by decide) (by unfold victim_on_board; decide) true false).2.2 (by decide)⟩

/-- C9, as stated, fails when a pawn lands on the en-passant field in a back-rank
corner: with the white king on e1, a white rook on h1, the white king-side right
set, a black pawn on a7, the en-passant field naming a8 and the move a7->a8, no
king or rook moves and nothing is captured, and the en-passant removal stores 0
at index `make_square(0, 8) = 64`, the byte of `castling.rights`: the right is
clear afterwards. -/
theorem stray_store_clears_castling_right :
    rights_at_home pawnBelowCorner ∧
    pawnBelowCorner.castling.get true true = true ∧
    pawnBelowCorner.board 48 = B_PAWN ∧ pawnBelowCorner.board 56 = EMPTY ∧
    en_passant_victim (is_white (pawnBelowCorner.board 48)) ⟨48, 56⟩ = 64 ∧
    (apply_move pawnBelowCorner ⟨48, 56⟩).castling.get true true = false := by
  refine ⟨by unfold rights_at_home; decide, by decide, by decide, by decide, by decide,
    by decide⟩

theorem castling_move_applied_witness :
    castleFree.board (king_home true) = king_of true ∧
    castleFree.board (rook_home true true) = rook_of true ∧
    (apply_move castleFree ⟨4, 6⟩).board 5 = W_ROOK :=
  ⟨by decide, by decide,
    (castling_move_applied castleFree true true (by decide) (by decide) (by decide)).2.1⟩

theorem en_passant_capture_applied_witness :
    Move.mk 36 43 ∈ generate_pseudo_legal_moves enPassantReady true ∧
    enPassantReady.board 35 = B_PAWN ∧
    (apply_move enPassantReady ⟨36, 43⟩).board 35 = EMPTY :=
  ⟨by decide, by decide,
    (en_passant_capture_applied enPassantReady true ⟨36, 43⟩ (by decide) (by decide)
      (by decide) (by decide) (by decide) (by decide) (by decide)).2.2.2.2.2.1⟩

end Replit

namespace Engine

/-! ## The string engine: the ray loops never run out of fuel -/

theorem in_bounds_colrow_eq (c r : Int) : in_bounds_colrow c r = Replit.in_bounds c r := rfl

theorem directions_unit (d : Int × Int)
    (hd : d ∈ ROOK_DIRECTIONS ∨ d ∈ BISHOP_DIRECTIONS ∨ d ∈ ORTH_DIRS ∨ d ∈ DIAG_DIRS) :
    (d.2 = 1 ∨ d.2 = -1 ∨ (d.2 = 0 ∧ (d.1 = 1 ∨ d.1 = -1))) := by
  simp only [ROOK_DIRECTIONS, BISHOP_DIRECTIONS, ORTH_DIRS, DIAG_DIRS, List.mem_cons,
    List.mem_singleton, List.not_mem_nil, or_false] at hd
  rcases hd with (rfl | rfl | rfl | rfl) | (rfl | rfl | rfl | rfl) | (rfl | rfl | rfl | rfl) |
    (rfl | rfl | rfl | rfl) <;> simp

/-- The loop of `rook_moves_from` / `bishop_moves_from`, run with more than 8 steps of
fuel, produces what it produces with 8. -/
theorem ray_moves_fuel (board : BoardMap) (color : Color) (d : Int × Int)
    (hd : d ∈ ROOK_DIRECTIONS ∨ d ∈ BISHOP_DIRECTIONS ∨ d ∈ ORTH_DIRS ∨ d ∈ DIAG_DIRS)
    (n : Nat) (c r : Int) :
    ray_moves board color d.1 d.2 (8 + n) c r = ray_moves board color d.1 d.2 8 c r := by
  obtain ⟨μ, h8, h0, hstep⟩ := Replit.ray_measure d.1 d.2 (directions_unit d hd)
  have key : ∀ (fuel : Nat) (c r : Int), μ (c + d.1) (r + d.2) ≤ fuel →
      ray_moves board color d.1 d.2 (fuel + 1) c r = ray_moves board color d.1 d.2 fuel c r := by
    intro fuel
    induction fuel with
    | zero =>
      intro c r h
      have := h0 (c + d.1) (r + d.2) (by omega)
      simp [ray_moves, in_bounds_colrow_eq, this]
    | succ m ih =>
      intro c r h
      conv_lhs => unfold ray_moves
      conv_rhs => unfold ray_moves
      by_cases hb : in_bounds_colrow (c + d.1) (r + d.2) = true
      · rw [ih (c + d.1) (r + d.2) (by
          have := hstep _ _ (by rw [← in_bounds_colrow_eq]; exact hb); omega)]
      · simp [hb]
  induction n with
  | zero => rfl
  | succ k ih =>
    rw [← ih]
    exact key (8 + k) c r (by have := h8 (c + d.1) (r + d.2); omega)

/-- The ray loops of `is_square_attacked` likewise never stop for lack of fuel. -/
theorem ray_attacked_fuel_colrow (board : BoardMap) (by_color : Color) (k1 k2 : Kind)
    (d : Int × Int)
    (hd : d ∈ ROOK_DIRECTIONS ∨ d ∈ BISHOP_DIRECTIONS ∨ d ∈ ORTH_DIRS ∨ d ∈ DIAG_DIRS)
    (n : Nat) (c r : Int) :
    ray_attacked board by_color k1 k2 d.1 d.2 (8 + n) c r =
      ray_attacked board by_color k1 k2 d.1 d.2 8 c r := by
  obtain ⟨μ, h8, h0, hstep⟩ := Replit.ray_measure d.1 d.2 (directions_unit d hd)
  have key : ∀ (fuel : Nat) (c r : Int), μ c r ≤ fuel →
      ray_attacked board by_color k1 k2 d.1 d.2 (fuel + 1) c r =
        ray_attacked board by_color k1 k2 d.1 d.2 fuel c r := by
    intro fuel
    induction fuel with
    | zero =>
      intro c r h
      have := h0 c r (by omega)
      simp [ray_attacked, in_bounds_colrow_eq, this]
    | succ m ih =>
      intro c r h
      conv_lhs => unfold ray_attacked
      conv_rhs => unfold ray_attacked
      by_cases hb : in_bounds_colrow c r = true
      · rw [ih (c + d.1) (r + d.2) (by
          have := hstep c r (by rw [← in_bounds_colrow_eq]; exact hb); omega)]
      · simp [hb]
  induction n with
  | zero => rfl
  | succ k ih =>
    rw [← ih]
    exact key (8 + k) c r (by have := h8 c r; omega)

end Engine

namespace Engine

/-! ## The string engine: structure of the move maps -/

theorem mem_all_squares (sq : Square) :
    sq ∈ all_squares ↔ (0 ≤ sq.col ∧ sq.col ≤ 7 ∧ 0 ≤ sq.row ∧ sq.row ≤ 7) := by
  constructor
  · intro h
    have hall : ∀ s ∈ all_squares, 0 ≤ s.col ∧ s.col ≤ 7 ∧ 0 ≤ s.row ∧ s.row ≤ 7 := by decide
    exact hall sq h
  · obtain ⟨c, r⟩ := sq
    rintro ⟨h1, h2, h3, h4⟩
    simp only at h1 h2 h3 h4
    interval_cases c <;> interval_cases r <;> decide

theorem mem_pseudo_legal_map (board : BoardMap) (color : Color)
    (cr : Option Rights) (ep : Option Square) (e : Square × List Target) :
    e ∈ generate_pseudo_legal_moves board color cr ep ↔
      (e.1 ∈ all_squares ∧ e.2 = to_list_of board color cr ep e.1 ∧ e.2 ≠ []) := by
  obtain ⟨sq, l⟩ := e
  simp only [generate_pseudo_legal_moves, List.mem_filterMap]
  constructor
  · rintro ⟨a, ha, h⟩
    split_ifs at h with hemp
    simp only [Option.some.injEq, Prod.mk.injEq] at h
    obtain ⟨rfl, rfl⟩ := h
    refine ⟨ha, rfl, ?_⟩
    simpa [List.isEmpty_iff] using hemp
  · rintro ⟨ha, hl, hne⟩
    refine ⟨sq, ha, ?_⟩
    subst hl
    have : (to_list_of board color cr ep sq).isEmpty = false := by
      simpa [List.isEmpty_iff] using hne
    simp [this]

theorem mem_legal_map (board : BoardMap) (color : Color)
    (cr : Option Rights) (ep : Option Square) (e : Square × List Target) :
    e ∈ generate_legal_moves board color cr ep ↔
      (e.1 ∈ all_squares ∧
        e.2 = legal_targets board color cr ep e.1 (to_list_of board color cr ep e.1) ∧
        e.2 ≠ []) := by
  obtain ⟨sq, l⟩ := e
  simp only [generate_legal_moves, List.mem_filterMap]
  constructor
  · rintro ⟨p, hp, h⟩
    obtain ⟨h1, h2, _⟩ := (mem_pseudo_legal_map _ _ _ _ p).mp hp
    split_ifs at h with hemp
    simp only [Option.some.injEq, Prod.mk.injEq] at h
    obtain ⟨rfl, rfl⟩ := h
    refine ⟨h1, by rw [← h2], ?_⟩
    simpa [List.isEmpty_iff] using hemp
  · rintro ⟨ha, hl, hne⟩
    have hne2 : to_list_of board color cr ep sq ≠ [] := by
      intro h0
      rw [h0] at hl
      exact hne (by rw [hl]; rfl)
    refine ⟨(sq, to_list_of board color cr ep sq),
      (mem_pseudo_legal_map _ _ _ _ _).mpr ⟨ha, rfl, hne2⟩, ?_⟩
    simp only
    rw [← hl]
    have : l.isEmpty = false := by simpa [List.isEmpty_iff] using hne
    simp [this]

theorem emits_legal_iff (board : BoardMap) (color : Color)
    (cr : Option Rights) (ep : Option Square) (fr : Square) (t : Target) :
    emits (generate_legal_moves board color cr ep) fr t ↔
      (fr ∈ all_squares ∧
        t ∈ legal_targets board color cr ep fr (to_list_of board color cr ep fr)) := by
  unfold emits
  constructor
  · rintro ⟨e, he, rfl, ht⟩
    obtain ⟨h1, h2, _⟩ := (mem_legal_map _ _ _ _ e).mp he
    exact ⟨h1, by rw [← h2]; exact ht⟩
  · rintro ⟨h1, h2⟩
    exact ⟨(fr, legal_targets board color cr ep fr (to_list_of board color cr ep fr)),
      (mem_legal_map _ _ _ _ _).mpr ⟨h1, rfl, List.ne_nil_of_mem h2⟩, rfl, h2⟩

end Engine

namespace Engine

/-! ## The string engine: castling -/

theorem mem_offset_moves (offs : List (Int × Int)) (a : Square) (b : BoardMap) (col : Color)
    (t : Square) :
    t ∈ offset_moves offs a b col ↔
      ∃ o ∈ offs, in_bounds_colrow (a.col + o.1) (a.row + o.2) = true ∧
        t = ⟨a.col + o.1, a.row + o.2⟩ ∧ (b t = Piece.empty ∨ starts_with (b t) col = false) := by
  unfold offset_moves
  simp only [List.mem_flatMap, square_to_coords, coords_to_square]
  constructor
  · rintro ⟨o, ho, h⟩
    refine ⟨o, ho, ?_⟩
    split_ifs at h with h1 h2
    · simp at h
    · simp only [List.mem_singleton] at h
      subst h
      refine ⟨by simpa using h1, rfl, ?_⟩
      simpa using h2
    · simp at h
  · rintro ⟨o, ho, h1, rfl, h2⟩
    refine ⟨o, ho, ?_⟩
    have h3 : (decide (b ⟨a.col + o.1, a.row + o.2⟩ = Piece.empty) ||
        !starts_with (b ⟨a.col + o.1, a.row + o.2⟩) col) = true := by
      simpa using h2
    simp [h1, h3]

theorem castle_target_not_adjacent (b : BoardMap) (c col : Color) (ks : Bool) :
    king_castle_target c ks ∉ offset_moves KING_OFFSETS (king_home c) b col := by
  intro h
  obtain ⟨o, ho, _, heq, _⟩ := (mem_offset_moves _ _ _ _ _).mp h
  have hcol := congrArg Square.col heq
  simp only [KING_OFFSETS, List.mem_cons, List.mem_singleton, List.not_mem_nil, or_false] at ho
  cases c <;> cases ks <;>
    simp [king_castle_target, king_home, E1, E8, G1, G8, C1, C8] at hcol <;>
    rcases ho with rfl | rfl | rfl | rfl | rfl | rfl | rfl | rfl <;> simp at hcol

theorem mem_castling_targets (b : BoardMap) (c : Color) (ks : Bool) (r : Rights) :
    king_castle_target c ks ∈ castling_targets b c (some r) ↔
      (r.get c ks = true ∧ between_empty b c ks) := by
  cases c <;> cases ks <;>
    simp [castling_targets, king_castle_target, between_empty, king_home, Rights.get,
      E1, E8, G1, G8, C1, C8, F1, F8, B1, B8, D1, D8, and_assoc]

theorem to_list_of_king (b : BoardMap) (c : Color) (cr : Option Rights) (ep : Option Square)
    (sq : Square) (hk : b sq = Piece.mk c Kind.king) :
    to_list_of b c cr ep sq = (king_moves_from sq b c cr).map Target.plain := by
  simp [to_list_of, hk, starts_with, ends_with]

theorem mem_map_plain (t : Square) (l : List Square) :
    Target.plain t ∈ l.map Target.plain ↔ t ∈ l := by
  simp [Target.plain]

theorem castling_rejected_castle (b : BoardMap) (c : Color) (ks : Bool) (r : Rights)
    (hk : b (king_home c) = Piece.mk c Kind.king) :
    castling_rejected b (some r) (king_home c) (Target.plain (king_castle_target c ks)) =
      (is_square_attacked b (king_home c) (opponent c) ||
        is_square_attacked b (king_transit c ks) (opponent c) ||
        is_square_attacked b (king_castle_target c ks) (opponent c)) := by
  unfold castling_rejected
  rw [hk]
  cases c <;> cases ks <;>
    simp [ends_with, king_home, king_castle_target, king_transit, opponent, Target.plain,
      E1, E8, G1, G8, C1, C8, F1, F8, D1, D8]

/-- What the emission of a castling move amounts to, before the check on the
board after the move is resolved. -/
theorem castle_emitted_iff_raw (b : BoardMap) (c : Color) (r : Rights) (ep : Option Square)
    (ks : Bool) (hk : b (king_home c) = Piece.mk c Kind.king) :
    emits (generate_legal_moves b c (some r) ep) (king_home c)
        (Target.plain (king_castle_target c ks)) ↔
      (r.get c ks = true ∧ between_empty b c ks ∧
        is_square_attacked b (king_home c) (opponent c) = false ∧
        is_square_attacked b (king_transit c ks) (opponent c) = false ∧
        is_square_attacked b (king_castle_target c ks) (opponent c) = false ∧
        is_in_check (simulate_move b (king_home c) (Target.plain (king_castle_target c ks))
          (some r) ep).1 c = false) := by
  have hhome : king_home c ∈ all_squares := by cases c <;> decide
  rw [emits_legal_iff, to_list_of_king b c _ ep _ hk]
  unfold legal_targets
  rw [List.mem_filter, mem_map_plain, castling_rejected_castle b c ks r hk]
  unfold king_moves_from
  rw [List.mem_append, mem_castling_targets]
  have hna := castle_target_not_adjacent b c c ks
  simp only [hhome, hna, false_or, true_and, Bool.and_eq_true, Bool.not_eq_true',
    Bool.or_eq_false_iff, and_assoc]

end Engine

namespace Engine

theorem find_eq_some_of_unique {α : Type} (p : α → Bool) (l : List α) (x : α)
    (hx : x ∈ l) (hp : p x = true) (hu : ∀ y ∈ l, p y = true → y = x) :
    l.find? p = some x := by
  induction l with
  | nil => simp at hx
  | cons a t ih =>
    by_cases ha : p a = true
    · have : a = x := hu a (List.mem_cons_self _ _) ha
      subst this
      simp [List.find?, ha]
    · have hax : x ∈ t := by
        rcases List.mem_cons.mp hx with h | h
        · exact absurd (h ▸ hp) ha
        · exact h
      simp only [List.find?, Bool.not_eq_true] at ha ⊢
      rw [ha]
      exact ih hax (fun y hy => hu y (List.mem_cons_of_mem _ hy))

theorem ray_attacked_congr_rows (b b2 : BoardMap) (col : Color) (k1 k2 : Kind) (dc dr : Int)
    (P : Int → Prop) (hP : ∀ r, P r → P (r + dr))
    (hb : ∀ c r, P r → b2 ⟨c, r⟩ = b ⟨c, r⟩) :
    ∀ (fuel : Nat) (c r : Int), P r →
      ray_attacked b2 col k1 k2 dc dr fuel c r = ray_attacked b col k1 k2 dc dr fuel c r := by
  intro fuel
  induction fuel with
  | zero => intro c r _; rfl
  | succ n ih =>
    intro c r hr
    unfold ray_attacked
    simp only [coords_to_square, hb c r hr]
    rw [ih (c + dc) (r + dr) (hP r hr)]

theorem attacker_loop_congr (b b2 : BoardMap) (square : Square) (col : Color) (k : Kind)
    (att att2 : Square → List Square)
    (hpiece : ∀ a, starts_with (b2 a) col = starts_with (b a) col ∧
      (starts_with (b a) col = true → b2 a = b a))
    (hatt : ∀ a, square ∈ att2 a ↔ square ∈ att a) :
    attacker_loop b2 square col k att2 = attacker_loop b square col k att := by
  unfold attacker_loop
  congr 1
  funext a
  have h1 := hpiece a
  have h2 : decide (square ∈ att2 a) = decide (square ∈ att a) := by
    simp only [hatt a]
  rw [h2]
  by_cases hs : starts_with (b a) col = true
  · rw [h1.2 hs]
  · have hs2 : starts_with (b2 a) col = false := by rw [h1.1]; simpa using hs
    have hs3 : starts_with (b a) col = false := by simpa using hs
    simp [hs2, hs3]

theorem starts_with_opponent (c : Color) (k : Kind) :
    starts_with (Piece.mk c k) (opponent c) = false := by
  cases c <;> simp [starts_with, opponent]

/-- After castling the king's destination is attacked no more than before: the board
`nb` is `b` with the king moved from home to its destination and the rook from
its corner to the transit square. -/
theorem castled_target_not_attacked (b nb : BoardMap) (c : Color) (ks : Bool)
    (hbetween : between_empty b c ks)
    (hk : b (king_home c) = Piece.mk c Kind.king)
    (hr : b (rook_home c ks) = Piece.mk c Kind.rook)
    (hn_home : nb (king_home c) = Piece.empty)
    (hn_target : nb (king_castle_target c ks) = Piece.mk c Kind.king)
    (hn_corner : nb (rook_home c ks) = Piece.empty)
    (hn_transit : nb (king_transit c ks) = Piece.mk c Kind.rook)
    (hn_else : ∀ sq, sq ≠ king_home c → sq ≠ king_castle_target c ks → sq ≠ rook_home c ks →
      sq ≠ king_transit c ks → nb sq = b sq)
    (hatt : is_square_attacked b (king_castle_target c ks) (opponent c) = false) :
    is_square_attacked nb (king_castle_target c ks) (opponent c) = false := by
  -- the squares that changed hold no piece of the opponent, before or after
  have hb_target : b (king_castle_target c ks) = Piece.empty := by
    cases c <;> cases ks <;>
      simp [between_empty, king_home, E1, E8] at hbetween <;>
      simp [king_castle_target, G1, G8, C1, C8, hbetween]
  have hb_transit : b (king_transit c ks) = Piece.empty := by
    cases c <;> cases ks <;>
      simp [between_empty, king_home, E1, E8] at hbetween <;>
      simp [king_transit, F1, F8, D1, D8, hbetween]
  have hpiece : ∀ a, starts_with (nb a) (opponent c) = starts_with (b a) (opponent c) ∧
      (starts_with (b a) (opponent c) = true → nb a = b a) := by
    intro a
    by_cases h1 : a = king_home c
    · subst h1; rw [hn_home, hk]; simp [starts_with_opponent, show starts_with Piece.empty (opponent c) = false from rfl]
    by_cases h2 : a = king_castle_target c ks
    · subst h2; rw [hn_target, hb_target]; simp [starts_with_opponent, show starts_with Piece.empty (opponent c) = false from rfl]
    by_cases h3 : a = rook_home c ks
    · subst h3; rw [hn_corner, hr]; simp [starts_with_opponent, show starts_with Piece.empty (opponent c) = false from rfl]
    by_cases h4 : a = king_transit c ks
    · subst h4; rw [hn_transit, hb_transit]; simp [starts_with_opponent, show starts_with Piece.empty (opponent c) = false from rfl]
    rw [hn_else a h1 h2 h3 h4]
    exact ⟨rfl, fun _ => rfl⟩
  have hoff : ∀ (offs : List (Int × Int)) (a : Square),
      king_castle_target c ks ∈ offset_moves offs a nb (opponent c) ↔
        king_castle_target c ks ∈ offset_moves offs a b (opponent c) := by
    intro offs a
    rw [mem_offset_moves, mem_offset_moves]
    simp only [hn_target, hb_target, starts_with_opponent, or_true, true_or]
  -- the squares off the home row are unchanged
  have hrow : ∀ (col r : Int), r ≠ (king_home c).row → nb ⟨col, r⟩ = b ⟨col, r⟩ := by
    intro col r hne
    apply hn_else <;> intro h <;> apply hne <;>
      cases c <;> cases ks <;>
      simp [king_home, king_castle_target, rook_home, king_transit, E1, E8, G1, G8, C1, C8,
        F1, F8, D1, D8, H1, H8, A1, A8] at h ⊢ <;> exact h.2
  have hup : ∀ (k1 k2 : Kind) (dc : Int) (col : Int),
      ray_attacked nb (opponent c) k1 k2 dc 1 8 col ((king_home c).row + 1) =
        ray_attacked b (opponent c) k1 k2 dc 1 8 col ((king_home c).row + 1) := by
    intro k1 k2 dc col
    exact ray_attacked_congr_rows b nb _ k1 k2 dc 1 (fun r => (king_home c).row < r)
      (fun r h => by omega) (fun col r h => hrow col r (by omega)) 8 col _ (by omega)
  have hdown : ∀ (k1 k2 : Kind) (dc : Int) (col : Int),
      ray_attacked nb (opponent c) k1 k2 dc (-1) 8 col ((king_home c).row + -1) =
        ray_attacked b (opponent c) k1 k2 dc (-1) 8 col ((king_home c).row + -1) := by
    intro k1 k2 dc col
    exact ray_attacked_congr_rows b nb _ k1 k2 dc (-1) (fun r => r < (king_home c).row)
      (fun r h => by omega) (fun col r h => hrow col r (by omega)) 8 col _ (by omega)
  have htrow : (king_castle_target c ks).row = (king_home c).row := by
    cases c <;> cases ks <;> rfl
  -- the two rays along the home row meet the rook, or leave the board over empty squares
  have hleft : ray_attacked nb (opponent c) Kind.rook Kind.queen (-1) 0 8
      ((king_castle_target c ks).col + -1) ((king_home c).row + 0) = false := by
    have hB : nb ⟨1, (king_home c).row⟩ = Piece.empty ∨ ks = true := by
      cases ks
      · left
        rw [hn_else]
        · simp only [between_empty] at hbetween
          simpa using hbetween.1
        all_goals cases c <;> decide
      · right; rfl
    cases c <;> cases ks <;>
      simp [king_castle_target, king_home, king_transit, rook_home, E1, E8, G1, G8, C1, C8,
        F1, F8, D1, D8, H1, H8, A1, A8] at hn_transit hn_corner hB ⊢ <;>
      simp [ray_attacked, in_bounds_colrow, coords_to_square, hn_transit, hn_corner, hB,
        starts_with, opponent]
  have hright : ray_attacked nb (opponent c) Kind.rook Kind.queen 1 0 8
      ((king_castle_target c ks).col + 1) ((king_home c).row + 0) = false := by
    cases c <;> cases ks <;>
      simp [king_castle_target, king_home, king_transit, rook_home, E1, E8, G1, G8, C1, C8,
        F1, F8, D1, D8, H1, H8, A1, A8] at hn_transit hn_corner ⊢ <;>
      simp [ray_attacked, in_bounds_colrow, coords_to_square, hn_transit, hn_corner,
        starts_with, opponent]
  -- assemble
  unfold is_square_attacked at hatt ⊢
  simp only [Bool.or_eq_false_iff] at hatt ⊢
  obtain ⟨⟨⟨⟨hA, hB⟩, hC⟩, hD⟩, hE⟩ := hatt
  refine ⟨⟨⟨⟨?_, ?_⟩, ?_⟩, ?_⟩, ?_⟩
  · rw [attacker_loop_congr b nb _ _ _ _ _ hpiece (fun a => Iff.rfl)]
    exact hA
  · rw [attacker_loop_congr b nb _ _ _ (fun a => knight_moves_from a b (opponent c))
      (fun a => knight_moves_from a nb (opponent c)) hpiece (fun a => hoff KNIGHT_OFFSETS a)]
    exact hB
  · rw [attacker_loop_congr b nb _ _ _ (fun a => king_moves_from a b (opponent c) none)
      (fun a => king_moves_from a nb (opponent c) none) hpiece
      (fun a => by simp only [king_moves_from, castling_targets, List.append_nil]; exact hoff _ a)]
    exact hC
  · simp only [ORTH_DIRS, List.any_cons, List.any_nil, Bool.or_false, Bool.or_eq_false_iff,
      square_to_coords, htrow] at hD ⊢
    refine ⟨?_, ?_, hleft, hright⟩
    · rw [hup]; exact hD.1
    · rw [hdown]; exact hD.2.1
  · simp only [DIAG_DIRS, List.any_cons, List.any_nil, Bool.or_false, Bool.or_eq_false_iff,
      square_to_coords, htrow] at hE ⊢
    refine ⟨?_, ?_, ?_, ?_⟩
    · rw [hup]; exact hE.1
    · rw [hdown]; exact hE.2.1
    · rw [hup]; exact hE.2.2.1
    · rw [hdown]; exact hE.2.2.2

end Engine

namespace Engine

theorem simulate_board_castle (b : BoardMap) (c : Color) (ks : Bool) (ep : Option Square)
    (hk : b (king_home c) = Piece.mk c Kind.king) :
    simulate_board b (king_home c) (Target.plain (king_castle_target c ks)) ep =
      ((((b.set (king_home c) Piece.empty).set (king_castle_target c ks)
        (Piece.mk c Kind.king)).set (rook_home c ks) Piece.empty).set (king_transit c ks)
        (Piece.mk c Kind.rook)) := by
  unfold simulate_board
  simp only [hk, Target.plain, ends_with]
  cases c <;> cases ks <;>
    simp [king_home, king_castle_target, rook_home, king_transit, E1, E8, G1, G8, C1, C8,
      F1, F8, D1, D8, H1, H8, A1, A8]

theorem castle_squares_distinct (c : Color) (ks : Bool) :
    king_castle_target c ks ≠ king_home c ∧ king_castle_target c ks ≠ rook_home c ks ∧
    king_castle_target c ks ≠ king_transit c ks ∧ rook_home c ks ≠ king_home c ∧
    rook_home c ks ≠ king_transit c ks ∧ king_transit c ks ≠ king_home c := by
  cases c <;> cases ks <;> decide

/-- With the side's only king on its home square and the rook on its corner, the
castled king is not in check when its destination was not attacked before. -/
theorem castled_not_in_check (b : BoardMap) (c : Color) (ks : Bool) (ep : Option Square)
    (hbetween : between_empty b c ks)
    (hk : b (king_home c) = Piece.mk c Kind.king)
    (hr : b (rook_home c ks) = Piece.mk c Kind.rook)
    (hone : ∀ sq ∈ all_squares, b sq = Piece.mk c Kind.king → sq = king_home c)
    (hatt : is_square_attacked b (king_castle_target c ks) (opponent c) = false) :
    is_in_check (simulate_board b (king_home c) (Target.plain (king_castle_target c ks)) ep) c
      = false := by
  obtain ⟨d1, d2, d3, d4, d5, d6⟩ := castle_squares_distinct c ks
  rw [simulate_board_castle b c ks ep hk]
  generalize hnb : ((((b.set (king_home c) Piece.empty).set (king_castle_target c ks)
        (Piece.mk c Kind.king)).set (rook_home c ks) Piece.empty).set (king_transit c ks)
        (Piece.mk c Kind.rook)) = nb
  have hn_home : nb (king_home c) = Piece.empty := by
    rw [← hnb]; simp [BoardMap.set, d1.symm, d4.symm, d6.symm]
  have hn_target : nb (king_castle_target c ks) = Piece.mk c Kind.king := by
    rw [← hnb]; simp [BoardMap.set, d2, d3]
  have hn_corner : nb (rook_home c ks) = Piece.empty := by
    rw [← hnb]; simp [BoardMap.set, d5]
  have hn_transit : nb (king_transit c ks) = Piece.mk c Kind.rook := by
    rw [← hnb]; simp [BoardMap.set]
  have hn_else : ∀ sq, sq ≠ king_home c → sq ≠ king_castle_target c ks → sq ≠ rook_home c ks →
      sq ≠ king_transit c ks → nb sq = b sq := by
    intro sq h1 h2 h3 h4
    rw [← hnb]; simp [BoardMap.set, h1, h2, h3, h4]
  have htarget_mem : king_castle_target c ks ∈ all_squares := by
    cases c <;> cases ks <;> decide
  have hfind : find_king_square nb c = some (king_castle_target c ks) := by
    unfold find_king_square
    apply find_eq_some_of_unique _ _ _ htarget_mem
    · simpa using hn_target
    · intro y hy hyk
      simp only [decide_eq_true_eq] at hyk
      by_contra hne
      by_cases h1 : y = king_home c
      · rw [h1, hn_home] at hyk; exact absurd hyk (by simp)
      by_cases h3 : y = rook_home c ks
      · rw [h3, hn_corner] at hyk; exact absurd hyk (by simp)
      by_cases h4 : y = king_transit c ks
      · rw [h4, hn_transit] at hyk; exact absurd hyk (by simp)
      rw [hn_else y h1 hne h3 h4] at hyk
      exact h1 (hone y hy hyk)
  unfold is_in_check
  rw [hfind]
  exact castled_target_not_attacked b nb c ks hbetween hk hr hn_home hn_target hn_corner
    hn_transit hn_else hatt

/-- C2, as amended (castling correctness, string engine): on a board where each
right that is set has its king and rook at home and the side to move has no king
other than the one on its home square, the king's castling move is emitted
exactly when the right is set, the squares between king and rook are empty, and
none of the king's origin, transit and destination squares is attacked by the
opponent on the board before the move. -/
theorem castling_emitted_iff (b : BoardMap) (c : Color) (r : Rights) (ep : Option Square)
    (ks : Bool) (hinv : rights_at_home b r)
    (hone : ∀ sq ∈ all_squares, b sq = Piece.mk c Kind.king → sq = king_home c) :
    (b (king_home c) = Piece.mk c Kind.king ∧
      emits (generate_legal_moves b c (some r) ep) (king_home c)
        (Target.plain (king_castle_target c ks))) ↔
      (r.get c ks = true ∧ between_empty b c ks ∧
        is_square_attacked b (king_home c) (opponent c) = false ∧
        is_square_attacked b (king_transit c ks) (opponent c) = false ∧
        is_square_attacked b (king_castle_target c ks) (opponent c) = false) := by
  constructor
  · rintro ⟨hk, hem⟩
    obtain ⟨h1, h2, h3, h4, h5, _⟩ := (castle_emitted_iff_raw b c r ep ks hk).mp hem
    exact ⟨h1, h2, h3, h4, h5⟩
  · rintro ⟨h1, h2, h3, h4, h5⟩
    obtain ⟨hk, hr⟩ := hinv c ks h1
    refine ⟨hk, (castle_emitted_iff_raw b c r ep ks hk).mpr ⟨h1, h2, h3, h4, h5, ?_⟩⟩
    exact castled_not_in_check b c ks ep h2 hk hr hone h5

theorem castling_emitted_iff_witness :
    rights_at_home castleReady ⟨true, false, false, false⟩ ∧
    emits (generate_legal_moves castleReady Color.white (some ⟨true, false, false, false⟩) none)
      E1 (Target.plain G1) :=
  ⟨by intro c ks; cases c <;> cases ks <;> decide,
    ((castling_emitted_iff castleReady Color.white ⟨true, false, false, false⟩ none true
      (by intro c ks; cases c <;> cases ks <;> decide) (by decide)).mpr (by decide)).2⟩

/-- C2, as stated, fails on a board with a second white king: the right is set, F1
and G1 are empty, E1, F1 and G1 are not attacked, and yet E1->G1 is not emitted,
because the king found for the check test is the one on A2. -/
theorem castling_not_emitted_with_second_king :
    rights_at_home twoWhiteKings ⟨true, false, false, false⟩ ∧
    twoWhiteKings E1 = Piece.mk Color.white Kind.king ∧
    (Rights.get ⟨true, false, false, false⟩ Color.white true = true ∧
      between_empty twoWhiteKings Color.white true ∧
      is_square_attacked twoWhiteKings E1 Color.black = false ∧
      is_square_attacked twoWhiteKings F1 Color.black = false ∧
      is_square_attacked twoWhiteKings G1 Color.black = false) ∧
    ¬ emits (generate_legal_moves twoWhiteKings Color.white
      (some ⟨true, false, false, false⟩) none) E1 (Target.plain G1) :=
  ⟨by intro c ks; cases c <;> cases ks <;> decide, by decide, by decide, by decide⟩

end Engine

namespace Engine

/-! ## The string engine: promotion -/

theorem ray_attacked_congr_view (b b2 : BoardMap) (col : Color) (k1 k2 : Kind) (dc dr : Int)
    (hview : ∀ a, (b2 a = Piece.empty ↔ b a = Piece.empty) ∧
      starts_with (b2 a) col = starts_with (b a) col ∧
      (starts_with (b a) col = true → b2 a = b a)) :
    ∀ (fuel : Nat) (c r : Int),
      ray_attacked b2 col k1 k2 dc dr fuel c r = ray_attacked b col k1 k2 dc dr fuel c r := by
  intro fuel
  induction fuel with
  | zero => intro c r; rfl
  | succ n ih =>
    intro c r
    unfold ray_attacked
    rw [ih (c + dc) (r + dr)]
    obtain ⟨h1, h2, h3⟩ := hview (coords_to_square c r)
    by_cases hs : starts_with (b (coords_to_square c r)) col = true
    · rw [h3 hs]
    · have hs2 : starts_with (b2 (coords_to_square c r)) col = false := by
        rw [h2]; simpa using hs
      have hs3 : starts_with (b (coords_to_square c r)) col = false := by simpa using hs
      simp only [hs2, hs3, ne_eq, h1, Bool.false_and]

/-- The attack test sees of a board only which squares are empty and which hold
which piece of the attacking colour. -/
theorem is_square_attacked_congr (b b2 : BoardMap) (s : Square) (col : Color)
    (hview : ∀ a, (b2 a = Piece.empty ↔ b a = Piece.empty) ∧
      starts_with (b2 a) col = starts_with (b a) col ∧
      (starts_with (b a) col = true → b2 a = b a)) :
    is_square_attacked b2 s col = is_square_attacked b s col := by
  have hpiece : ∀ a, starts_with (b2 a) col = starts_with (b a) col ∧
      (starts_with (b a) col = true → b2 a = b a) := fun a => (hview a).2
  have hoff : ∀ (offs : List (Int × Int)) (a : Square),
      s ∈ offset_moves offs a b2 col ↔ s ∈ offset_moves offs a b col := by
    intro offs a
    rw [mem_offset_moves, mem_offset_moves]
    simp only [(hview s).1, (hview s).2.1]
  unfold is_square_attacked
  rw [attacker_loop_congr b b2 s col Kind.pawn _ _ hpiece (fun a => Iff.rfl),
    attacker_loop_congr b b2 s col Kind.knight (fun a => knight_moves_from a b col)
      (fun a => knight_moves_from a b2 col) hpiece (fun a => hoff KNIGHT_OFFSETS a),
    attacker_loop_congr b b2 s col Kind.king (fun a => king_moves_from a b col none)
      (fun a => king_moves_from a b2 col none) hpiece
      (fun a => by simp only [king_moves_from, castling_targets, List.append_nil]; exact hoff _ a)]
  simp only [ray_attacked_congr_view b b2 col _ _ _ _ hview]

/-- The check test gives the same answer on two boards that differ only in which
non-king piece of `color` stands on a square. -/
theorem is_in_check_congr (b b2 : BoardMap) (color : Color)
    (h : ∀ a, b2 a = b a ∨ ∃ k k2, b a = Piece.mk color k ∧ b2 a = Piece.mk color k2 ∧
      k ≠ Kind.king ∧ k2 ≠ Kind.king) :
    is_in_check b2 color = is_in_check b color := by
  have hfind : find_king_square b2 color = find_king_square b color := by
    unfold find_king_square
    congr 1
    funext a
    rcases h a with h1 | ⟨k, k2, h1, h2, h3, h4⟩
    · rw [h1]
    · rw [h1, h2]; simp [h3, h4]
  have hview : ∀ a, (b2 a = Piece.empty ↔ b a = Piece.empty) ∧
      starts_with (b2 a) (opponent color) = starts_with (b a) (opponent color) ∧
      (starts_with (b a) (opponent color) = true → b2 a = b a) := by
    intro a
    rcases h a with h1 | ⟨k, k2, h1, h2, _, _⟩
    · rw [h1]; exact ⟨Iff.rfl, rfl, fun _ => rfl⟩
    · rw [h1, h2]
      simp [starts_with_opponent]
  unfold is_in_check
  rw [hfind]
  cases find_king_square b color with
  | none => rfl
  | some k => exact is_square_attacked_congr b b2 k _ hview

theorem PROMO_MAP_ne_king (p : Promo) : PROMO_MAP p ≠ Kind.king := by
  cases p <;> decide

/-- Whether a promoting pawn move is kept by the legality filter does not depend on
the promotion letter. -/
theorem legal_keep_promo (b : BoardMap) (c : Color) (cr : Option Rights) (ep : Option Square)
    (fr d : Square) (p q : Promo) (hp : b fr = Piece.mk c Kind.pawn) :
    (!castling_rejected b cr fr ⟨d, some p⟩ &&
      !is_in_check (simulate_move b fr ⟨d, some p⟩ cr ep).1 c) =
    (!castling_rejected b cr fr ⟨d, some q⟩ &&
      !is_in_check (simulate_move b fr ⟨d, some q⟩ cr ep).1 c) := by
  have hrej : ∀ t, castling_rejected b cr fr t = false := by
    intro t; simp [castling_rejected, hp, ends_with]
  rw [hrej, hrej]
  congr 2
  simp only [simulate_move]
  apply is_in_check_congr
  intro a
  unfold simulate_board
  simp only [hp]
  have hk1 : ¬ (Piece.mk c Kind.pawn = Piece.mk Color.white Kind.king) := by simp
  have hk2 : ¬ (Piece.mk c Kind.pawn = Piece.mk Color.black Kind.king) := by simp
  simp only [hk1, hk2, if_false]
  have hset : ∀ (x : BoardMap) (y : BoardMap) (sq : Square) (v : Piece),
      (x a = y a ∨ ∃ k k2, y a = Piece.mk c k ∧ x a = Piece.mk c k2 ∧
        k ≠ Kind.king ∧ k2 ≠ Kind.king) →
      ((x.set sq v) a = (y.set sq v) a ∨ ∃ k k2, (y.set sq v) a = Piece.mk c k ∧
        (x.set sq v) a = Piece.mk c k2 ∧ k ≠ Kind.king ∧ k2 ≠ Kind.king) := by
    intro x y sq v hxy
    unfold BoardMap.set
    by_cases ha : a = sq
    · simp [ha]
    · simpa [ha] using hxy
  have hbase : ((b.set fr Piece.empty).set d (Piece.mk c (PROMO_MAP p))) a =
      ((b.set fr Piece.empty).set d (Piece.mk c (PROMO_MAP q))) a ∨
      ∃ k k2, ((b.set fr Piece.empty).set d (Piece.mk c (PROMO_MAP q))) a = Piece.mk c k ∧
        ((b.set fr Piece.empty).set d (Piece.mk c (PROMO_MAP p))) a = Piece.mk c k2 ∧
        k ≠ Kind.king ∧ k2 ≠ Kind.king := by
    unfold BoardMap.set
    by_cases ha : a = d
    · right
      exact ⟨PROMO_MAP q, PROMO_MAP p, by simp [ha], by simp [ha],
        PROMO_MAP_ne_king q, PROMO_MAP_ne_king p⟩
    · left; simp [ha]
  split_ifs
  · exact hset _ _ _ _ hbase
  · exact hbase
  · exact hset _ _ _ _ hbase
  · exact hbase
  · exact hbase

end Engine

namespace Engine

theorem count_append_promotions (sq d : Square) (p : Promo) :
    (append_promotions sq).count ⟨d, some p⟩ = if sq = d then 1 else 0 := by
  by_cases h : sq = d
  · subst h
    cases p <;> simp [append_promotions, List.count_cons]
  · cases p <;> simp [append_promotions, List.count_cons, h]

theorem mem_append_promotions (sq : Square) (t : Target) (h : t ∈ append_promotions sq) :
    t.sq = sq ∧ t.promo ≠ none := by
  simp only [append_promotions, List.map_cons, List.map_nil, List.mem_cons, List.mem_singleton,
    List.not_mem_nil, or_false] at h
  rcases h with rfl | rfl | rfl | rfl <;> simp

theorem count_plain_list (l : List Target) (d : Square) (p : Promo)
    (h : ∀ t ∈ l, t.promo = none) : l.count ⟨d, some p⟩ = 0 := by
  apply List.count_eq_zero_of_not_mem
  intro hm
  have := h _ hm
  simp at this

/-- The shape of a block of `pawn_moves_from`: either the four promotion variants of
one square of the last row in column `x`, or plain targets off the last row. -/
theorem pawn_forward_shape (square : Square) (b : BoardMap) (c : Color) :
    (∃ sq : Square, sq.col = square.col ∧ sq.row = pawn_last_row c ∧
      pawn_forward square b c = append_promotions sq) ∨
    (∀ t ∈ pawn_forward square b c, t.promo = none ∧ t.sq.row ≠ pawn_last_row c) := by
  unfold pawn_forward
  simp only [square_to_coords, coords_to_square]
  generalize (if c = Color.white then decide (square.row < 7) else decide (square.row > 0))
    = guard
  split_ifs with h1 h2 h3 h4 h5
  · left; exact ⟨⟨square.col, square.row + pawn_dir c⟩, rfl, h3, rfl⟩
  · right
    intro t ht
    simp only [List.mem_cons, List.mem_singleton, List.not_mem_nil, or_false] at ht
    rcases ht with rfl | rfl
    · exact ⟨rfl, h3⟩
    · refine ⟨rfl, ?_⟩
      cases c <;> simp [pawn_start_row, pawn_dir, pawn_last_row] at h4 ⊢ <;> omega
  · right
    intro t ht
    simp only [List.mem_singleton] at ht
    subst ht
    exact ⟨rfl, h3⟩
  · right
    intro t ht
    simp only [List.mem_singleton] at ht
    subst ht
    exact ⟨rfl, h3⟩
  · right; intro t ht; simp at ht
  · right; intro t ht; simp at ht

theorem pawn_capture_shape (square : Square) (b : BoardMap) (c : Color) (dc : Int) :
    let block : List Target :=
      if in_bounds_colrow (square.col + dc) (square.row + pawn_dir c) then
        if decide (b ⟨square.col + dc, square.row + pawn_dir c⟩ ≠ Piece.empty) &&
            starts_with (b ⟨square.col + dc, square.row + pawn_dir c⟩) (opponent c) then
          if square.row + pawn_dir c = pawn_last_row c then
            append_promotions ⟨square.col + dc, square.row + pawn_dir c⟩
          else [⟨⟨square.col + dc, square.row + pawn_dir c⟩, none⟩]
        else []
      else []
    (∃ sq : Square, sq.col = square.col + dc ∧ sq.row = pawn_last_row c ∧
      block = append_promotions sq) ∨
    (∀ t ∈ block, t.promo = none ∧ t.sq.row ≠ pawn_last_row c) := by
  intro block
  simp only [block]
  split_ifs with h1 h2 h3
  · left; exact ⟨⟨square.col + dc, square.row + pawn_dir c⟩, rfl, h3, rfl⟩
  · right
    intro t ht
    simp only [List.mem_singleton] at ht
    subst ht
    exact ⟨rfl, h3⟩
  · right; intro t ht; simp at ht
  · right; intro t ht; simp at ht

theorem pawn_captures_eq (square : Square) (b : BoardMap) (c : Color) :
    pawn_captures square b c =
      (if in_bounds_colrow (square.col + -1) (square.row + pawn_dir c) then
        if decide (b ⟨square.col + -1, square.row + pawn_dir c⟩ ≠ Piece.empty) &&
            starts_with (b ⟨square.col + -1, square.row + pawn_dir c⟩) (opponent c) then
          if square.row + pawn_dir c = pawn_last_row c then
            append_promotions ⟨square.col + -1, square.row + pawn_dir c⟩
          else [⟨⟨square.col + -1, square.row + pawn_dir c⟩, none⟩]
        else []
      else []) ++
      (if in_bounds_colrow (square.col + 1) (square.row + pawn_dir c) then
        if decide (b ⟨square.col + 1, square.row + pawn_dir c⟩ ≠ Piece.empty) &&
            starts_with (b ⟨square.col + 1, square.row + pawn_dir c⟩) (opponent c) then
          if square.row + pawn_dir c = pawn_last_row c then
            append_promotions ⟨square.col + 1, square.row + pawn_dir c⟩
          else [⟨⟨square.col + 1, square.row + pawn_dir c⟩, none⟩]
        else []
      else []) := by
  simp [pawn_captures, square_to_coords, coords_to_square]

theorem pawn_en_passant_shape (square : Square) (b : BoardMap) (c : Color)
    (ep : Option Square) :
    ∀ t ∈ pawn_en_passant square b c ep, t.promo = none ∧ ep = some t.sq := by
  intro t ht
  cases ep with
  | none => simp [pawn_en_passant] at ht
  | some e =>
    simp only [pawn_en_passant, List.mem_flatMap] at ht
    obtain ⟨dc, _, h⟩ := ht
    split_ifs at h <;> simp at h
    subst h
    exact ⟨rfl, rfl⟩

/-- Counting a promotion target in a block of the given shape: it occurs at most
once, as often for one letter as for another, and only in the block's column. -/
theorem count_in_block (l : List Target) (x last : Int)
    (hshape : (∃ sq : Square, sq.col = x ∧ sq.row = last ∧ l = append_promotions sq) ∨
      (∀ t ∈ l, t.promo = none ∧ t.sq.row ≠ last))
    (d : Square) (p q : Promo) :
    l.count ⟨d, some p⟩ = l.count ⟨d, some q⟩ ∧ l.count ⟨d, some p⟩ ≤ 1 ∧
      (l.count ⟨d, some p⟩ = 1 → d.col = x) := by
  rcases hshape with ⟨sq, h1, _, h3⟩ | h
  · rw [h3, count_append_promotions, count_append_promotions]
    by_cases hd : sq = d
    · simp [hd, ← h1]
    · simp [hd]
  · rw [count_plain_list l d p (fun t ht => (h t ht).1),
      count_plain_list l d q (fun t ht => (h t ht).1)]
    simp

theorem mem_block_promo (l : List Target) (x last : Int)
    (hshape : (∃ sq : Square, sq.col = x ∧ sq.row = last ∧ l = append_promotions sq) ∨
      (∀ t ∈ l, t.promo = none ∧ t.sq.row ≠ last))
    (t : Target) (ht : t ∈ l) :
    (t.promo ≠ none → t.sq.row = last) ∧ (t.promo = none → t.sq.row ≠ last) := by
  rcases hshape with ⟨sq, _, h2, h3⟩ | h
  · rw [h3] at ht
    obtain ⟨h4, h5⟩ := mem_append_promotions sq t ht
    exact ⟨fun _ => by rw [h4, h2], fun h6 => absurd h6 h5⟩
  · exact ⟨fun h6 => absurd (h t ht).1 h6, fun _ => (h t ht).2⟩

end Engine

namespace Engine

theorem to_list_of_pawn (b : BoardMap) (c : Color) (cr : Option Rights) (ep : Option Square)
    (sq : Square) (hp : b sq = Piece.mk c Kind.pawn) :
    to_list_of b c cr ep sq = pawn_moves_from sq b c ep := by
  simp [to_list_of, hp, starts_with, ends_with]

/-- Promotion targets in the pseudo-legal list of a pawn: each occurs at most once,
and as often for one letter as for another. -/
theorem pawn_moves_promo_count (square : Square) (b : BoardMap) (c : Color)
    (ep : Option Square) (d : Square) (p q : Promo) :
    (pawn_moves_from square b c ep).count ⟨d, some p⟩ =
      (pawn_moves_from square b c ep).count ⟨d, some q⟩ ∧
    (pawn_moves_from square b c ep).count ⟨d, some p⟩ ≤ 1 := by
  unfold pawn_moves_from
  rw [pawn_captures_eq]
  obtain ⟨f1, f2, f3⟩ := count_in_block _ _ _ (pawn_forward_shape square b c) d p q
  obtain ⟨l1, l2, l3⟩ := count_in_block _ _ _ (pawn_capture_shape square b c (-1)) d p q
  obtain ⟨r1, r2, r3⟩ := count_in_block _ _ _ (pawn_capture_shape square b c 1) d p q
  have e1 := count_plain_list _ d p (fun t ht => (pawn_en_passant_shape square b c ep t ht).1)
  have e2 := count_plain_list _ d q (fun t ht => (pawn_en_passant_shape square b c ep t ht).1)
  simp only [List.count_append]
  rw [e1, e2, f1, l1, r1]
  refine ⟨rfl, ?_⟩
  rw [← f1, ← l1, ← r1]
  omega

/-- Targets in the pseudo-legal list of a pawn: a promotion letter goes with the last
row, and a plain target on the last row can only be the en-passant target. -/
theorem pawn_moves_rows (square : Square) (b : BoardMap) (c : Color) (ep : Option Square)
    (t : Target) (ht : t ∈ pawn_moves_from square b c ep) :
    (t.promo ≠ none → t.sq.row = pawn_last_row c) ∧
    (t.promo = none → t.sq.row = pawn_last_row c → ep = some t.sq) := by
  unfold pawn_moves_from at ht
  rw [pawn_captures_eq] at ht
  simp only [List.mem_append] at ht
  rcases ht with (h | h | h) | h
  · obtain ⟨h1, h2⟩ := mem_block_promo _ _ _ (pawn_forward_shape square b c) t h
    exact ⟨h1, fun h3 h4 => absurd h4 (h2 h3)⟩
  · obtain ⟨h1, h2⟩ := mem_block_promo _ _ _ (pawn_capture_shape square b c (-1)) t h
    exact ⟨h1, fun h3 h4 => absurd h4 (h2 h3)⟩
  · obtain ⟨h1, h2⟩ := mem_block_promo _ _ _ (pawn_capture_shape square b c 1) t h
    exact ⟨h1, fun h3 h4 => absurd h4 (h2 h3)⟩
  · obtain ⟨h1, h2⟩ := pawn_en_passant_shape square b c ep t h
    exact ⟨fun h3 => absurd h1 h3, fun _ _ => h2⟩

theorem filter_promo_variants (l : List Target) (keep : Target → Bool) (d : Square)
    (hk : ∀ p q : Promo, keep ⟨d, some p⟩ = keep ⟨d, some q⟩)
    (hc : ∀ p q : Promo, l.count ⟨d, some p⟩ = l.count ⟨d, some q⟩ ∧ l.count ⟨d, some p⟩ ≤ 1) :
    (∀ p : Promo, (⟨d, some p⟩ : Target) ∉ l.filter keep) ∨
      (∀ p : Promo, (l.filter keep).count ⟨d, some p⟩ = 1) := by
  by_cases hkeep : keep ⟨d, some Promo.Q⟩ = true
  · by_cases hcount : l.count ⟨d, some Promo.Q⟩ = 1
    · right
      intro p
      have hkp : keep ⟨d, some p⟩ = true := by rw [hk p Promo.Q]; exact hkeep
      rw [List.count_filter hkp, (hc p Promo.Q).1]
      exact hcount
    · left
      intro p hmem
      have hm := (List.mem_filter.mp hmem).1
      have h1 := hc p Promo.Q
      have h3 : 0 < l.count ⟨d, some p⟩ := List.count_pos_iff.mpr hm
      omega
  · left
    intro p hmem
    have hkp := (List.mem_filter.mp hmem).2
    rw [hk p Promo.Q] at hkp
    exact hkeep hkp

/-- C5, as amended (promotion variants, string engine): when the en-passant target,
if any, is not on the side's last row, then for every pawn of the side and every
square `d` on the last row, the pawn's legal target list contains either none of
`d+Q`, `d+R`, `d+B`, `d+N` or each of them exactly once, never the bare `d`; and
every target with a promotion letter is on the last row. -/
theorem promotion_variants (b : BoardMap) (c : Color) (cr : Option Rights)
    (ep : Option Square) (hep : ∀ t, ep = some t → t.row ≠ pawn_last_row c)
    (e : Square × List Target) (he : e ∈ generate_legal_moves b c cr ep)
    (hp : b e.1 = Piece.mk c Kind.pawn) :
    (∀ d : Square, d.row = pawn_last_row c →
      ((∀ p : Promo, (⟨d, some p⟩ : Target) ∉ e.2) ∨
        (∀ p : Promo, e.2.count ⟨d, some p⟩ = 1)) ∧
      (⟨d, none⟩ : Target) ∉ e.2) ∧
    (∀ t ∈ e.2, t.promo ≠ none → t.sq.row = pawn_last_row c) := by
  obtain ⟨_, h2, _⟩ := (mem_legal_map b c cr ep e).mp he
  rw [to_list_of_pawn b c cr ep e.1 hp] at h2
  unfold legal_targets at h2
  rw [h2]
  refine ⟨fun d hd => ⟨?_, ?_⟩, ?_⟩
  · exact filter_promo_variants _ _ d (fun p q => legal_keep_promo b c cr ep e.1 d p q hp)
      (fun p q => pawn_moves_promo_count e.1 b c ep d p q)
  · intro hmem
    have hm := (List.mem_filter.mp hmem).1
    exact hep d ((pawn_moves_rows e.1 b c ep _ hm).2 rfl hd) hd
  · intro t ht hpromo
    exact (pawn_moves_rows e.1 b c ep t (List.mem_filter.mp ht).1).1 hpromo

theorem promotion_variants_witness :
    ((⟨4, 6⟩, [⟨⟨4, 7⟩, some Promo.Q⟩, ⟨⟨4, 7⟩, some Promo.R⟩, ⟨⟨4, 7⟩, some Promo.B⟩,
        ⟨⟨4, 7⟩, some Promo.N⟩]) : Square × List Target) ∈
      generate_legal_moves pawnsOnSeventh Color.white none none ∧
    (⟨⟨4, 7⟩, none⟩ : Target) ∉
      [(⟨⟨4, 7⟩, some Promo.Q⟩ : Target), ⟨⟨4, 7⟩, some Promo.R⟩, ⟨⟨4, 7⟩, some Promo.B⟩,
        ⟨⟨4, 7⟩, some Promo.N⟩] :=
  ⟨by decide,
    ((promotion_variants pawnsOnSeventh Color.white none none (by simp)
      (⟨4, 6⟩, [⟨⟨4, 7⟩, some Promo.Q⟩, ⟨⟨4, 7⟩, some Promo.R⟩, ⟨⟨4, 7⟩, some Promo.B⟩,
        ⟨⟨4, 7⟩, some Promo.N⟩]) (by decide) (by decide)).1 ⟨4, 7⟩ (by decide)).2⟩

/-- C5, as stated, fails when the en-passant target lies on the last row: with a
white pawn on E7, a black pawn on D7 and the target D8, the pawn's legal target
list contains the bare square D8. -/
theorem bare_last_row_target_with_en_passant :
    pawnsOnSeventh ⟨4, 6⟩ = Piece.mk Color.white Kind.pawn ∧
    D8.row = pawn_last_row Color.white ∧
    (∃ e ∈ generate_legal_moves pawnsOnSeventh Color.white none (some D8),
      e.1 = ⟨4, 6⟩ ∧ (⟨D8, none⟩ : Target) ∈ e.2) := by
  decide

end Engine

namespace Engine

/-! ## Castling rights inferred from the board -/

/-- C11 (castling-rights inference, string engine): for every board, also one that
lacks keys, each of the four rights returned by
`infer_castling_rights_from_board` is true exactly when that side's king is on
its home square and that side's rook is on the matching corner; on a full board
this is the function used by `simulate_move` and `engine_search`. -/
theorem infer_castling_rights_iff (board : Square → Option Piece) (full : BoardMap)
    (c : Color) (ks : Bool) :
    ((infer_castling_rights_from_map board).get c ks = true ↔
      (board (king_home c) = some (Piece.mk c Kind.king) ∧
        board (rook_home c ks) = some (Piece.mk c Kind.rook))) ∧
    ((infer_castling_rights_from_board full).get c ks = true ↔
      (full (king_home c) = Piece.mk c Kind.king ∧
        full (rook_home c ks) = Piece.mk c Kind.rook)) ∧
    infer_castling_rights_from_board full =
      infer_castling_rights_from_map (fun sq => some (full sq)) := by
  refine ⟨?_, ?_, ?_⟩
  · cases c <;> cases ks <;>
      simp [infer_castling_rights_from_map, Rights.get, king_home, rook_home]
  · cases c <;> cases ks <;>
      simp [infer_castling_rights_from_board, Rights.get, king_home, rook_home]
  · simp [infer_castling_rights_from_board, infer_castling_rights_from_map]

end Engine

namespace Replit
open Piece

/-- The state built by `engine_search_legacy` has all four castling rights set,
whatever the board. -/
theorem legacy_rights_all_set (board_map : Engine.BoardMap) (c ks : Bool) :
    (legacy_state board_map).castling.get c ks = true := by
  have h : (legacy_state board_map).castling = ⟨15⟩ := rfl
  rw [h]
  cases c <;> cases ks <;> decide

/-- C12 (castling-rights inference at the array engine's entry point), evaluated on
a board with the white king on E2 and the black king on E8: the state handed to
`engine_search` has the white king-side right set although neither king nor rook
is at home, and the legal moves for white then include the castling move e1->g1
from the empty square e1. -/
theorem legacy_state_rights_not_inferred :
    (legacy_state Engine.kingOffHome).board 4 = EMPTY ∧
    (legacy_state Engine.kingOffHome).board 7 = EMPTY ∧
    (legacy_state Engine.kingOffHome).castling.get true true = true ∧
    Move.mk 4 6 ∈ generate_legal_moves (legacy_state Engine.kingOffHome) true := by
  decide

end Replit

namespace Engine

/-! ## The static evaluator of the string engine -/

theorem foldl_add_eq_sum {α : Type} (g : α → Int) (l : List α) (init : Int) :
    l.foldl (fun s a => s + g a) init = init + (l.map g).sum := by
  induction l generalizing init with
  | nil => simp
  | cons a t ih => simp only [List.foldl_cons, List.map_cons, List.sum_cons, ih]; ring

theorem count_moves_eq (moves : List (Square × List Target)) :
    count_moves moves = (moves.map fun kv => (kv.2.length : Int)).sum := by
  unfold count_moves
  rw [foldl_add_eq_sum (fun kv : Square × List Target => (kv.2.length : Int))]
  simp

theorem sum_map_sub {α : Type} (g h : α → Int) (l : List α) :
    (l.map fun a => g a - h a).sum = (l.map g).sum - (l.map h).sum := by
  induction l with
  | nil => simp
  | cons a t ih => simp only [List.map_cons, List.sum_cons, ih]; ring

/-- C14 (static evaluator, string engine): `evaluate_board(board, c)` is the material
of `c` minus the material of the opponent plus twice the difference of their
pseudo-legal move counts, with the values pawn 100, knight 320, bishop 330,
rook 500, queen 900, king 20000. -/
theorem evaluate_board_eq (board : BoardMap) (c : Color) :
    evaluate_board board c =
      material board c - material board (opponent c) +
        2 * (mobility board c - mobility board (opponent c)) := by
  have hmat : all_squares.foldl (fun score sq =>
      match board sq with
      | Piece.empty => score
      | Piece.mk color_label ptype =>
        if color_label = c then score + PIECE_VALUES ptype
        else score - PIECE_VALUES ptype) 0 = material board c - material board (opponent c) := by
    have hstep : (fun (score : Int) (sq : Square) =>
        match board sq with
        | Piece.empty => score
        | Piece.mk color_label ptype =>
          if color_label = c then score + PIECE_VALUES ptype
          else score - PIECE_VALUES ptype) =
        fun score sq => score +
          ((match board sq with
            | Piece.empty => 0
            | Piece.mk c2 k => if c2 = c then spec_value k else 0) -
           (match board sq with
            | Piece.empty => 0
            | Piece.mk c2 k => if c2 = opponent c then spec_value k else 0)) := by
      funext score sq
      cases hb : board sq with
      | empty => simp
      | mk c2 k =>
        cases c2 <;> cases c <;> cases k <;>
          simp only [opponent, PIECE_VALUES, spec_value, reduceCtorEq, if_true, if_false] <;>
          ring
    rw [hstep, foldl_add_eq_sum, sum_map_sub]
    simp [material]
  unfold evaluate_board
  simp only [hmat, count_moves_eq, mobility]

/-! ## Terminal scores of the string engine's minimax -/

/-- C16 (terminal scoring, string engine): with the stop flag clear and a depth other
than 0 (in particular every depth >= 1), if `generate_legal_moves` for the side
to move is empty, `minimax` returns `-infinity` when that side is in check and is
the maximizing side, `+infinity` when it is in check and is not, and 0 when it is
not in check, whatever `alpha` and `beta` are. -/
theorem minimax_terminal (fuel : Nat) (board : BoardMap) (m s : Color) (depth : Int)
    (alpha beta : Score) (cr : Option Rights) (ep : Option Square)
    (hdepth : 1 ≤ depth) (hlegal : generate_legal_moves board s cr ep = []) :
    minimax (fuel + 1) board m s depth alpha beta false cr ep =
      some (if is_in_check board s = true then (if s = m then ⊥ else ⊤) else 0) := by
  have h0 : depth ≠ 0 := by omega
  unfold minimax
  simp only [Bool.false_eq_true, if_false, h0, hlegal, List.isEmpty_nil, if_true]
  split_ifs <;> rfl

theorem minimax_terminal_witness :
    generate_legal_moves stalemateBoard Color.black none none = [] ∧
    is_in_check stalemateBoard Color.black = false ∧
    minimax 1 stalemateBoard Color.white Color.black 1 ⊥ ⊤ false none none = some 0 :=
  ⟨by decide, by decide,
    minimax_terminal 0 stalemateBoard Color.white Color.black 1 ⊥ ⊤ none none (by decide)
      (by decide)⟩

end Engine

namespace Replit
open Piece

/-! ## Leaf evaluation of the array engine's minimax -/

/-- At depth 0 with the stop flag clear `minimax` returns `evaluate_position` of the
board, whichever side is the maximizing one; the table is not touched. -/
theorem minimax_depth_zero (fuel : Nat) (state : GameState) (m s : Bool) (alpha beta : Score)
    (tt : Option TranspositionTable) :
    minimax (fuel + 1) state m s 0 alpha beta false tt =
      some (((evaluate_position state.board : Int) : Score), tt) := by
  simp [minimax]

/-- C15 (leaf evaluation perspective, array engine), evaluated at a position where
white is a pawn up: at depth 0 `minimax` returns +100 with white as maximizing
side and +100 again, not -100, with black as maximizing side. -/
theorem minimax_leaf_ignores_perspective :
    evaluate_position pawnOnSecond.board = 100 ∧ evaluate_position twoKings.board = 0 ∧
    (minimax 1 pawnOnSecond true true 0 ⊥ ⊤ false none).map Prod.fst = some 100 ∧
    (minimax 1 pawnOnSecond false true 0 ⊥ ⊤ false none).map Prod.fst = some 100 := by
  refine ⟨by decide, by decide, ?_, ?_⟩ <;>
    rw [minimax_depth_zero] <;> simp only [Option.map_some'] <;>
    rw [show evaluate_position pawnOnSecond.board = 100 by decide] <;> rfl

/-! ## Move ordering of the array engine -/

/-- The result of `order_moves` is a permutation of its input in which every move is
followed only by moves of at most its score. -/
theorem order_moves_sorted (board : Board) (moves : List Move) :
    (order_moves board moves).Perm moves ∧
    (order_moves board moves).Sorted
      (fun a b => move_score_for_ordering board a ≥ move_score_for_ordering board b) := by
  refine ⟨List.perm_insertionSort _ _, ?_⟩
  haveI : IsTotal Move
      (fun a b => move_score_for_ordering board a ≥ move_score_for_ordering board b) :=
    ⟨fun a b => le_total _ _⟩
  haveI : IsTrans Move
      (fun a b => move_score_for_ordering board a ≥ move_score_for_ordering board b) :=
    ⟨fun a b c h1 h2 => le_trans h2 h1⟩
  exact List.sorted_insertionSort _ _

/-- C18 (move ordering, array engine), evaluated at a position where the white king
on e1 can take a black pawn on e2: the capture scores 10 * 100 - 20000 = -19000,
below the 0 of the quiet move e1->d1, so `order_moves` puts the quiet move
first, and so does every ordering that sorts by the same comparison. -/
theorem order_moves_quiet_before_king_capture :
    is_empty (kingTakesPawn 12) = false ∧ is_empty (kingTakesPawn 3) = true ∧
    move_score_for_ordering kingTakesPawn ⟨4, 12⟩ = -19000 ∧
    move_score_for_ordering kingTakesPawn ⟨4, 3⟩ = 0 ∧
    order_moves kingTakesPawn [⟨4, 12⟩, ⟨4, 3⟩] = [⟨4, 3⟩, ⟨4, 12⟩] ∧
    ¬ List.Sorted (fun a b => move_score_for_ordering kingTakesPawn a ≥
        move_score_for_ordering kingTakesPawn b) [⟨4, 12⟩, ⟨4, 3⟩] := by
  refine ⟨by decide, by decide, by decide, by decide, by decide, ?_⟩
  intro h
  have h2 := List.rel_of_sorted_cons h ⟨4, 3⟩ (List.mem_singleton.mpr rfl)
  revert h2
  decide

/-! ## The transposition table -/

/-- C19 (transposition-table lookup): `probe(h, d, score)` returns true exactly when
the entry in slot `h mod 2^20` has stored hash `h` and stored depth at least `d`;
it then sets `score` to the stored score (and leaves it alone otherwise); the
slot index is below `2^20`; the table after the call is the table before. -/
theorem probe_spec (t : TranspositionTable) (h : Nat) (d : Int) (score : Score) :
    ((t.probe h d score).2.1 = true ↔
      ((t.table (h % 2 ^ 20)).hash = h ∧ (t.table (h % 2 ^ 20)).depth ≥ d)) ∧
    ((t.probe h d score).2.1 = true → (t.probe h d score).2.2 = (t.table (h % 2 ^ 20)).score) ∧
    ((t.probe h d score).2.1 = false → (t.probe h d score).2.2 = score) ∧
    TranspositionTable.index h = h % 2 ^ 20 ∧ TranspositionTable.index h < 2 ^ 20 ∧
    (t.probe h d score).1 = t := by
  have hidx : TranspositionTable.index h = h % 2 ^ 20 := rfl
  have hlt : h % 2 ^ 20 < 2 ^ 20 := Nat.mod_lt _ (by norm_num)
  have hprobe : t.probe h d score =
      if (t.table (h % 2 ^ 20)).hash = h ∧ (t.table (h % 2 ^ 20)).depth ≥ d then
        (t, true, (t.table (h % 2 ^ 20)).score)
      else (t, false, score) := rfl
  refine ⟨?_, ?_, ?_, hidx, by rw [hidx]; exact hlt, ?_⟩
  all_goals rw [hprobe]
  all_goals by_cases hc : (t.table (h % 2 ^ 20)).hash = h ∧ (t.table (h % 2 ^ 20)).depth ≥ d
  all_goals first
    | rw [if_pos hc]
    | rw [if_neg hc]
  · exact ⟨fun _ => hc, fun _ => rfl⟩
  · exact ⟨fun hf => absurd hf (by simp), fun hx => absurd hx hc⟩
  · exact fun _ => rfl
  · exact fun hf => absurd hf (by simp)
  · exact fun hf => absurd hf (by simp)
  · exact fun _ => rfl

theorem probe_spec_witness :
    (tableWithEntry.probe 5 2 0).2.1 = true ∧ (tableWithEntry.probe 5 2 0).2.2 = 7 :=
  ⟨by decide, (probe_spec tableWithEntry 5 2 0).2.1 (by decide)⟩

/-- C20 (transposition-table replacement): `store(h, d, s)` writes `(h, d, s)` into
slot `h mod 2^20` when `d` is at least the depth stored there, leaves the whole
table unchanged when `d` is smaller, and never changes another slot; on a fresh
table a store at depth `d >= 0` followed by a probe of the same hash at a depth
`d2 <= d` finds `s`. -/
theorem store_spec (t : TranspositionTable) (h : Nat) (d : Int) (s : Score) :
    ((t.table (h % 2 ^ 20)).depth ≤ d →
      ((t.store h d s).table (h % 2 ^ 20)).hash = h ∧
      ((t.store h d s).table (h % 2 ^ 20)).depth = d ∧
      ((t.store h d s).table (h % 2 ^ 20)).score = s) ∧
    (d < (t.table (h % 2 ^ 20)).depth → t.store h d s = t) ∧
    (∀ i : Nat, i ≠ h % 2 ^ 20 → (t.store h d s).table i = t.table i) ∧
    (∀ (d2 : Int) (score : Score), 0 ≤ d → d2 ≤ d →
      ((TranspositionTable.fresh.store h d s).probe h d2 score).2 = (true, s)) := by
  have hidx : TranspositionTable.index h = h % 2 ^ 20 := rfl
  refine ⟨?_, ?_, ?_, ?_⟩
  · intro hle
    unfold TranspositionTable.store
    rw [hidx, if_pos hle]
    simp
  · intro hlt
    unfold TranspositionTable.store
    rw [hidx, if_neg (not_le.mpr hlt)]
  · intro i hi
    unfold TranspositionTable.store
    rw [hidx]
    split_ifs
    · show (if i = h % 2 ^ 20 then _ else t.table i) = t.table i
      rw [if_neg hi]
    · rfl
  · intro d2 score hd hd2
    have hfresh : (TranspositionTable.fresh.table (h % 2 ^ 20)).depth ≤ d := by
      show (-1 : Int) ≤ d
      omega
    unfold TranspositionTable.store TranspositionTable.probe
    rw [hidx, if_pos hfresh]
    simp [hd2]

theorem store_spec_witness :
    ((TranspositionTable.fresh.store 5 3 7).probe 5 2 0).2 = (true, 7) :=
  (store_spec TranspositionTable.fresh 5 3 7).2.2.2 2 0 (by decide) (by decide)

end Replit

namespace Replit
open Piece

/-! ## Attack detection of the array engine -/

theorem coords_of_square (a : Int) (h0 : 0 ≤ a) (h1 : a < 64) :
    in_bounds (a % 8) (a / 8) = true ∧ make_square (a % 8) (a / 8) = a := by
  have hb : 0 ≤ a % 8 ∧ a % 8 ≤ 7 ∧ 0 ≤ a / 8 ∧ a / 8 ≤ 7 := by omega
  refine ⟨(in_bounds_iff _ _).mpr hb, ?_⟩
  rw [make_square_eq _ _ hb.1 hb.2.1 hb.2.2.1 hb.2.2.2]
  omega

theorem square_of_coords (f r : Int) (hb : in_bounds f r = true) :
    0 ≤ make_square f r ∧ make_square f r < 64 ∧ make_square f r % 8 = f ∧
      make_square f r / 8 = r := by
  have h := (in_bounds_iff f r).mp hb
  rw [make_square_eq f r h.1 h.2.1 h.2.2.1 h.2.2.2]
  omega

/-- An offset loop of `is_square_attacked` finds the piece `p` exactly when `p` stands
on a square of the board whose coordinates differ from `(f, r)` by an offset of
the list. -/
theorem offset_attacked_iff (board : Board) (p : Piece) (offsets : List (Int × Int))
    (f r : Int) :
    offset_attacked board p offsets f r = true ↔
      ∃ a : Int, 0 ≤ a ∧ a < 64 ∧ board a = p ∧ (a % 8 - f, a / 8 - r) ∈ offsets := by
  unfold offset_attacked
  simp only [List.any_eq_true, Bool.and_eq_true, decide_eq_true_eq]
  constructor
  · rintro ⟨o, ho, hb, hp⟩
    obtain ⟨h0, h1, h2, h3⟩ := square_of_coords _ _ hb
    refine ⟨_, h0, h1, hp, ?_⟩
    rw [h2, h3]
    have e1 : f + o.1 - f = o.1 := by ring
    have e2 : r + o.2 - r = o.2 := by ring
    rw [e1, e2]
    exact ho
  · rintro ⟨a, h0, h1, hp, ho⟩
    obtain ⟨hb, hm⟩ := coords_of_square a h0 h1
    refine ⟨_, ho, ?_⟩
    have e1 : f + (a % 8 - f) = a % 8 := by ring
    have e2 : r + (a / 8 - r) = a / 8 := by ring
    simp only [e1, e2, hb, hm, hp, and_self]

theorem mem_knight_offsets (x y : Int) :
    (x, y) ∈ KNIGHT_OFFSETS ↔
      ((x.natAbs = 1 ∧ y.natAbs = 2) ∨ (x.natAbs = 2 ∧ y.natAbs = 1)) := by
  simp only [KNIGHT_OFFSETS, List.mem_cons, List.mem_singleton, List.not_mem_nil, or_false,
    Prod.mk.injEq]
  omega

theorem mem_king_offsets (x y : Int) :
    (x, y) ∈ KING_OFFSETS ↔ (x.natAbs ≤ 1 ∧ y.natAbs ≤ 1 ∧ ¬ (x = 0 ∧ y = 0)) := by
  simp only [KING_OFFSETS, List.mem_cons, List.mem_singleton, List.not_mem_nil, or_false,
    Prod.mk.injEq]
  omega

end Replit

namespace Replit
open Piece

/-- What a ray loop of `is_square_attacked` computes: it answers true exactly when,
within the fuel, some step `k` from the start is on the board and holds `x` or
`y`, all earlier steps being on the board and empty. -/
theorem ray_attacked_iff (board : Board) (x y : Piece) (hx : x ≠ EMPTY) (hy : y ≠ EMPTY)
    (df dr : Int) (fuel : Nat) (f r : Int) :
    ray_attacked board x y df dr fuel f r = true ↔
      ∃ k : Nat, k < fuel ∧
        (∀ j : Nat, j < k → in_bounds (f + j * df) (r + j * dr) = true ∧
          board (make_square (f + j * df) (r + j * dr)) = EMPTY) ∧
        in_bounds (f + k * df) (r + k * dr) = true ∧
        (board (make_square (f + k * df) (r + k * dr)) = x ∨
          board (make_square (f + k * df) (r + k * dr)) = y) := by
  induction fuel generalizing f r with
  | zero => simp [ray_attacked]
  | succ n ih =>
    unfold ray_attacked
    by_cases hb : in_bounds f r = true
    · by_cases he : board (make_square f r) = EMPTY
      · have hemp : is_empty (board (make_square f r)) = true := by simp [is_empty, he]
        simp only [hb, if_true, hemp, Bool.not_true, Bool.false_eq_true, if_false]
        rw [ih]
        constructor
        · rintro ⟨k, hk, hall, hkb, hkp⟩
          refine ⟨k + 1, by omega, ?_, ?_, ?_⟩
          · intro j hj
            cases j with
            | zero => simpa using ⟨hb, he⟩
            | succ i =>
              have := hall i (by omega)
              have e1 : f + ((i + 1 : Nat) : Int) * df = f + df + i * df := by push_cast; ring
              have e2 : r + ((i + 1 : Nat) : Int) * dr = r + dr + i * dr := by push_cast; ring
              rw [e1, e2]; exact this
          · have e1 : f + ((k + 1 : Nat) : Int) * df = f + df + k * df := by push_cast; ring
            have e2 : r + ((k + 1 : Nat) : Int) * dr = r + dr + k * dr := by push_cast; ring
            rw [e1, e2]; exact hkb
          · have e1 : f + ((k + 1 : Nat) : Int) * df = f + df + k * df := by push_cast; ring
            have e2 : r + ((k + 1 : Nat) : Int) * dr = r + dr + k * dr := by push_cast; ring
            rw [e1, e2]; exact hkp
        · rintro ⟨k, hk, hall, hkb, hkp⟩
          cases k with
          | zero =>
            simp only [Nat.cast_zero, zero_mul, add_zero] at hkp
            rw [he] at hkp
            rcases hkp with h | h
            · exact absurd h.symm hx
            · exact absurd h.symm hy
          | succ i =>
            have e1 : f + ((i + 1 : Nat) : Int) * df = f + df + i * df := by push_cast; ring
            have e2 : r + ((i + 1 : Nat) : Int) * dr = r + dr + i * dr := by push_cast; ring
            rw [e1, e2] at hkb hkp
            refine ⟨i, by omega, ?_, hkb, hkp⟩
            intro j hj
            have := hall (j + 1) (by omega)
            have e3 : f + ((j + 1 : Nat) : Int) * df = f + df + j * df := by push_cast; ring
            have e4 : r + ((j + 1 : Nat) : Int) * dr = r + dr + j * dr := by push_cast; ring
            rw [e3, e4] at this
            exact this
      · have hemp : is_empty (board (make_square f r)) = false := by simp [is_empty, he]
        simp only [hb, if_true, hemp, Bool.not_false, Bool.or_eq_true, decide_eq_true_eq]
        constructor
        · intro h
          exact ⟨0, by omega, fun j hj => absurd hj (by omega), by simpa using hb,
            by simpa using h⟩
        · rintro ⟨k, _, hall, _, hkp⟩
          cases k with
          | zero => simpa using hkp
          | succ i =>
            have := (hall 0 (by omega)).2
            simp only [Nat.cast_zero, zero_mul, add_zero] at this
            exact absurd this he
    · simp only [hb, Bool.false_eq_true, if_false, false_iff]
      rintro ⟨k, _, hall, hkb, _⟩
      cases k with
      | zero => simp only [Nat.cast_zero, zero_mul, add_zero] at hkb; exact hb hkb
      | succ i =>
        have := (hall 0 (by omega)).1
        simp only [Nat.cast_zero, zero_mul, add_zero] at this
        exact hb this

/-- A unit direction: one step along a rank, a file or a diagonal. -/
theorem unit_cases (d : Int × Int) (hd : d ∈ ROOK_DIRS ∨ d ∈ BISHOP_DIRS) :
    (d.1 = -1 ∨ d.1 = 0 ∨ d.1 = 1) ∧ (d.2 = -1 ∨ d.2 = 0 ∨ d.2 = 1) ∧ ¬ (d.1 = 0 ∧ d.2 = 0) := by
  simp only [ROOK_DIRS, BISHOP_DIRS, List.mem_cons, List.mem_singleton, List.not_mem_nil,
    or_false] at hd
  rcases hd with (rfl | rfl | rfl | rfl) | (rfl | rfl | rfl | rfl) <;> simp

/-- A ray of `is_square_attacked` from square `(f, r)` of the board in a unit direction
answers true exactly when some square `n >= 1` steps away is on the board and
holds `x` or `y`, the squares before it being empty. -/
theorem ray_from_square_iff (board : Board) (x y : Piece) (hx : x ≠ EMPTY) (hy : y ≠ EMPTY)
    (df dr : Int)
    (hd : (df = -1 ∨ df = 0 ∨ df = 1) ∧ (dr = -1 ∨ dr = 0 ∨ dr = 1) ∧ ¬ (df = 0 ∧ dr = 0))
    (f r : Int) (hb : in_bounds f r = true) :
    ray_attacked board x y df dr 8 (f + df) (r + dr) = true ↔
      ∃ n : Nat, 1 ≤ n ∧ in_bounds (f + n * df) (r + n * dr) = true ∧
        (board (make_square (f + n * df) (r + n * dr)) = x ∨
          board (make_square (f + n * df) (r + n * dr)) = y) ∧
        ∀ j : Nat, 1 ≤ j → j < n → board (make_square (f + j * df) (r + j * dr)) = EMPTY := by
  rw [ray_attacked_iff board x y hx hy]
  have hb0 := (in_bounds_iff _ _).mp hb
  have shift : ∀ (m : Nat) (z dz : Int), z + dz + m * dz = z + ((m + 1 : Nat) : Int) * dz := by
    intro m z dz; push_cast; ring
  constructor
  · rintro ⟨k, _, hall, hkb, hkp⟩
    rw [shift, shift] at hkb hkp
    refine ⟨k + 1, by omega, hkb, hkp, ?_⟩
    intro j hj1 hj2
    obtain ⟨i, rfl⟩ : ∃ i, j = i + 1 := ⟨j - 1, by omega⟩
    have := (hall i (by omega)).2
    rw [shift, shift] at this
    exact this
  · rintro ⟨n, hn, hnb, hnp, hall⟩
    obtain ⟨k, rfl⟩ : ∃ k, n = k + 1 := ⟨n - 1, by omega⟩
    have hnb0 := (in_bounds_iff _ _).mp hnb
    have hk8 : k < 8 := by
      obtain ⟨h1, h2, h3⟩ := hd
      push_cast at hnb0
      rcases h1 with h | h | h <;> rcases h2 with h' | h' | h' <;> subst h <;> subst h' <;>
        simp at h3 hnb0 <;> omega
    refine ⟨k, hk8, ?_, by rw [shift, shift]; exact hnb, by rw [shift, shift]; exact hnp⟩
    intro j hj
    rw [shift, shift]
    refine ⟨?_, hall (j + 1) (by omega) (by omega)⟩
    rw [in_bounds_iff]
    obtain ⟨h1, h2, h3⟩ := hd
    push_cast at hnb0 ⊢
    rcases h1 with h | h | h <;> rcases h2 with h' | h' | h' <;> subst h <;> subst h' <;>
      simp at h3 hnb0 ⊢ <;> omega

end Replit

namespace Replit
open Piece

/-- Between two squares of the board on a line of unit direction, every step is on
the board. -/
theorem in_bounds_between (df dr : Int)
    (hd : (df = -1 ∨ df = 0 ∨ df = 1) ∧ (dr = -1 ∨ dr = 0 ∨ dr = 1) ∧ ¬ (df = 0 ∧ dr = 0))
    (f r : Int) (hb : in_bounds f r = true) (n : Nat)
    (hnb : in_bounds (f + n * df) (r + n * dr) = true) (j : Nat) (hj : j ≤ n) :
    in_bounds (f + j * df) (r + j * dr) = true := by
  rw [in_bounds_iff] at hb hnb ⊢
  obtain ⟨h1, h2, _⟩ := hd
  rcases h1 with h | h | h <;> rcases h2 with h' | h' | h' <;> subst h <;> subst h' <;>
    simp at hnb ⊢ <;> omega

/-- The squares strictly between `s` and the square `n` unit steps away from it are
the squares `j` steps away, `0 < j < n`. -/
theorem square_between_iff (df dr : Int)
    (hd : (df = -1 ∨ df = 0 ∨ df = 1) ∧ (dr = -1 ∨ dr = 0 ∨ dr = 1) ∧ ¬ (df = 0 ∧ dr = 0))
    (a s b : Int) (n : Nat) (hfa : a % 8 = s % 8 + n * df) (hra : a / 8 = s / 8 + n * dr) :
    square_between a s b ↔
      ∃ j : Nat, 1 ≤ j ∧ j < n ∧ b % 8 = s % 8 + j * df ∧ b / 8 = s / 8 + j * dr := by
  unfold square_between strictly_between
  obtain ⟨h1, h2, h3⟩ := hd
  rcases h1 with h | h | h <;> rcases h2 with h' | h' | h' <;> subst h <;> subst h' <;>
    simp only [mul_neg, mul_one, mul_zero, add_zero, not_true_eq_false, and_self] at h3 hfa hra ⊢
  all_goals constructor
  all_goals first
    | (rintro ⟨j, hj1, hj2, hj3, hj4⟩
       omega)
    | (intro h
       first
        | exact ⟨(b % 8 - s % 8).natAbs, by omega, by omega, by omega, by omega⟩
        | exact ⟨(b / 8 - s / 8).natAbs, by omega, by omega, by omega, by omega⟩)

/-- The rook directions reach exactly the other squares of the rank and the file. -/
theorem rook_line_iff (a s : Int) :
    (∃ d ∈ ROOK_DIRS, ∃ n : Nat, 1 ≤ n ∧ a % 8 = s % 8 + n * d.1 ∧ a / 8 = s / 8 + n * d.2) ↔
      (a ≠ s ∧ (a / 8 = s / 8 ∨ a % 8 = s % 8)) := by
  simp only [ROOK_DIRS, List.mem_cons, List.mem_singleton, List.not_mem_nil, or_false,
    exists_eq_or_imp, exists_eq_left, mul_zero, mul_one, mul_neg, add_zero]
  constructor
  · rintro (⟨n, h1, h2, h3⟩ | ⟨n, h1, h2, h3⟩ | ⟨n, h1, h2, h3⟩ | ⟨n, h1, h2, h3⟩) <;> omega
  · rintro ⟨hne, h | h⟩
    · by_cases hlt : a % 8 < s % 8
      · right; right; left
        exact ⟨(s % 8 - a % 8).natAbs, by omega, by omega, by omega⟩
      · right; right; right
        exact ⟨(a % 8 - s % 8).natAbs, by omega, by omega, by omega⟩
    · by_cases hlt : a / 8 < s / 8
      · right; left
        exact ⟨(s / 8 - a / 8).natAbs, by omega, by omega, by omega⟩
      · left
        exact ⟨(a / 8 - s / 8).natAbs, by omega, by omega, by omega⟩

/-- The bishop directions reach exactly the other squares of the diagonals. -/
theorem bishop_line_iff (a s : Int) :
    (∃ d ∈ BISHOP_DIRS, ∃ n : Nat, 1 ≤ n ∧ a % 8 = s % 8 + n * d.1 ∧
        a / 8 = s / 8 + n * d.2) ↔
      (a ≠ s ∧ (s % 8 - a % 8).natAbs = (s / 8 - a / 8).natAbs) := by
  simp only [BISHOP_DIRS, List.mem_cons, List.mem_singleton, List.not_mem_nil, or_false,
    exists_eq_or_imp, exists_eq_left, mul_zero, mul_one, mul_neg, add_zero]
  constructor
  · rintro (⟨n, h1, h2, h3⟩ | ⟨n, h1, h2, h3⟩ | ⟨n, h1, h2, h3⟩ | ⟨n, h1, h2, h3⟩) <;> omega
  · rintro ⟨hne, h⟩
    by_cases hf : a % 8 < s % 8
    · by_cases hr : a / 8 < s / 8
      · right; right; left
        exact ⟨(s % 8 - a % 8).natAbs, by omega, by omega, by omega⟩
      · right; left
        exact ⟨(s % 8 - a % 8).natAbs, by omega, by omega, by omega⟩
    · by_cases hr : a / 8 < s / 8
      · right; right; right
        exact ⟨(a % 8 - s % 8).natAbs, by omega, by omega, by omega⟩
      · left
        exact ⟨(a % 8 - s % 8).natAbs, by omega, by omega, by omega⟩

/-- The sliding part of `is_square_attacked` for a table of directions: some square
reached from `s` along one of the directions holds `x` or `y`, with an empty path
in between. -/
theorem slide_attacked_iff (board : Board) (x y : Piece) (hx : x ≠ EMPTY) (hy : y ≠ EMPTY)
    (dirs : List (Int × Int)) (hdirs : ∀ d ∈ dirs, d ∈ ROOK_DIRS ∨ d ∈ BISHOP_DIRS)
    (s : Int) (hs : 0 ≤ s ∧ s < 64) :
    (dirs.any fun d => ray_attacked board x y d.1 d.2 8 (s % 8 + d.1) (s / 8 + d.2)) = true ↔
      ∃ a : Int, 0 ≤ a ∧ a < 64 ∧ (board a = x ∨ board a = y) ∧
        (∃ d ∈ dirs, ∃ n : Nat, 1 ≤ n ∧ a % 8 = s % 8 + n * d.1 ∧ a / 8 = s / 8 + n * d.2) ∧
        path_clear board a s := by
  obtain ⟨hsb, hsm⟩ := coords_of_square s hs.1 hs.2
  simp only [List.any_eq_true]
  constructor
  · rintro ⟨d, hd, hray⟩
    have hu := unit_cases d (hdirs d hd)
    obtain ⟨n, hn, hnb, hnp, hall⟩ := (ray_from_square_iff board x y hx hy d.1 d.2 hu _ _ hsb).mp hray
    obtain ⟨h0, h1, h2, h3⟩ := square_of_coords _ _ hnb
    refine ⟨_, h0, h1, hnp, ⟨d, hd, n, hn, h2, h3⟩, ?_⟩
    intro b hb0 hb1 hbet
    obtain ⟨j, hj1, hj2, hj3, hj4⟩ := (square_between_iff d.1 d.2 hu _ s b n h2 h3).mp hbet
    have := hall j hj1 hj2
    rw [← hj3, ← hj4, (coords_of_square b hb0 hb1).2] at this
    exact this
  · rintro ⟨a, ha0, ha1, hp, ⟨d, hd, n, hn, hfa, hra⟩, hclear⟩
    have hu := unit_cases d (hdirs d hd)
    refine ⟨d, hd, (ray_from_square_iff board x y hx hy d.1 d.2 hu _ _ hsb).mpr ?_⟩
    obtain ⟨hab, ham⟩ := coords_of_square a ha0 ha1
    have hnb : in_bounds (s % 8 + n * d.1) (s / 8 + n * d.2) = true := by
      rw [← hfa, ← hra]; exact hab
    refine ⟨n, hn, hnb, by rw [← hfa, ← hra, ham]; exact hp, ?_⟩
    intro j hj1 hj2
    have hjb := in_bounds_between d.1 d.2 hu _ _ hsb n hnb j (by omega)
    obtain ⟨h0, h1, h2, h3⟩ := square_of_coords _ _ hjb
    exact hclear _ h0 h1 ((square_between_iff d.1 d.2 hu a s _ n hfa hra).mpr ⟨j, hj1, hj2, h2, h3⟩)

end Replit

namespace Replit
open Piece

theorem pawn_attacked_iff (board : Board) (c : Bool) (s : Int) :
    (([-1, 1] : List Int).any fun df =>
        in_bounds (s % 8 + df) (s / 8 - (if c then 1 else -1)) &&
          decide (board (make_square (s % 8 + df) (s / 8 - (if c then 1 else -1))) =
            (if c then W_PAWN else B_PAWN))) = true ↔
      ∃ a : Int, 0 ≤ a ∧ a < 64 ∧ board a = pawn_of c ∧
        s / 8 = a / 8 + (if c then 1 else -1) ∧ (s % 8 - a % 8).natAbs = 1 := by
  have hoff : (([-1, 1] : List Int).any fun df =>
        in_bounds (s % 8 + df) (s / 8 - (if c then 1 else -1)) &&
          decide (board (make_square (s % 8 + df) (s / 8 - (if c then 1 else -1))) =
            (if c then W_PAWN else B_PAWN))) =
      offset_attacked board (pawn_of c)
        [(-1, -(if c then (1 : Int) else -1)), (1, -(if c then (1 : Int) else -1))]
        (s % 8) (s / 8) := by
    simp [offset_attacked, pawn_of, sub_eq_add_neg]
  rw [hoff, offset_attacked_iff]
  constructor
  · rintro ⟨a, h0, h1, hp, hm⟩
    refine ⟨a, h0, h1, hp, ?_⟩
    simp only [List.mem_cons, List.mem_singleton, List.not_mem_nil, or_false,
      Prod.mk.injEq] at hm
    cases c <;> simp at hm ⊢ <;> omega
  · rintro ⟨a, h0, h1, hp, h2, h3⟩
    refine ⟨a, h0, h1, hp, ?_⟩
    simp only [List.mem_cons, List.mem_singleton, List.not_mem_nil, or_false, Prod.mk.injEq]
    cases c <;> simp at h2 ⊢ <;> omega

/-- C13 (attack detection, array engine): for every board, every square `s` in
`0..63` and every colour `c`, `is_square_attacked(board, s, c)` is true exactly
when some square `a` of the board holds a piece of colour `c` that attacks `s`
by the chess definition `attacks`; the function takes the board alone, so states
with the same board give the same answer. -/
theorem is_square_attacked_iff (board : Board) (s : Int) (hs : 0 ≤ s ∧ s < 64) (c : Bool) :
    (is_square_attacked board s c = true ↔
      ∃ a : Int, 0 ≤ a ∧ a < 64 ∧ attacks board c a s) ∧
    (∀ s1 s2 : GameState, s1.board = board → s2.board = board →
      is_square_attacked s1.board s c = is_square_attacked s2.board s c) := by
  refine ⟨?_, fun s1 s2 h1 h2 => by rw [h1, h2]⟩
  have hP := pawn_attacked_iff board c s
  have hN := offset_attacked_iff board (knight_of c) KNIGHT_OFFSETS (s % 8) (s / 8)
  have hK := offset_attacked_iff board (king_of c) KING_OFFSETS (s % 8) (s / 8)
  have hR := slide_attacked_iff board (rook_of c) (queen_of c)
    (by cases c <;> decide) (by cases c <;> decide) ROOK_DIRS (fun d hd => Or.inl hd) s hs
  have hB := slide_attacked_iff board (bishop_of c) (queen_of c)
    (by cases c <;> decide) (by cases c <;> decide) BISHOP_DIRS (fun d hd => Or.inr hd) s hs
  have hdef : is_square_attacked board s c =
      ((([-1, 1] : List Int).any fun df =>
        in_bounds (s % 8 + df) (s / 8 - (if c then 1 else -1)) &&
          decide (board (make_square (s % 8 + df) (s / 8 - (if c then 1 else -1))) =
            (if c then W_PAWN else B_PAWN))) ||
      offset_attacked board (knight_of c) KNIGHT_OFFSETS (s % 8) (s / 8) ||
      (ROOK_DIRS.any fun d =>
        ray_attacked board (rook_of c) (queen_of c) d.1 d.2 8 (s % 8 + d.1) (s / 8 + d.2)) ||
      (BISHOP_DIRS.any fun d =>
        ray_attacked board (bishop_of c) (queen_of c) d.1 d.2 8 (s % 8 + d.1) (s / 8 + d.2)) ||
      offset_attacked board (king_of c) KING_OFFSETS (s % 8) (s / 8)) := by
    unfold is_square_attacked
    simp only [square_to_file_eq s hs.1 hs.2, square_to_rank_eq s hs.1 hs.2, knight_of, king_of,
      rook_of, queen_of, bishop_of]
  rw [hdef]
  simp only [Bool.or_eq_true]
  rw [hP, hN, hK, hR, hB]
  unfold attacks
  constructor
  · rintro ((((⟨a, h0, h1, hp, h2, h3⟩ | ⟨a, h0, h1, hp, hm⟩) | ⟨a, h0, h1, hp, hl, hc⟩) |
      ⟨a, h0, h1, hp, hl, hc⟩) | ⟨a, h0, h1, hp, hm⟩)
    · exact ⟨a, h0, h1, Or.inl ⟨hp, h2, h3⟩⟩
    · refine ⟨a, h0, h1, Or.inr (Or.inl ⟨hp, ?_⟩)⟩
      have := (mem_knight_offsets _ _).mp hm
      omega
    · obtain ⟨hne, hline⟩ := (rook_line_iff a s).mp hl
      exact ⟨a, h0, h1, Or.inr (Or.inr (Or.inr (Or.inl ⟨hp, hne, hline, hc⟩)))⟩
    · obtain ⟨hne, hline⟩ := (bishop_line_iff a s).mp hl
      exact ⟨a, h0, h1, Or.inr (Or.inr (Or.inr (Or.inr ⟨hp, hne, hline, hc⟩)))⟩
    · refine ⟨a, h0, h1, Or.inr (Or.inr (Or.inl ⟨hp, ?_⟩))⟩
      have := (mem_king_offsets _ _).mp hm
      omega
  · rintro ⟨a, h0, h1, ⟨hp, h2, h3⟩ | ⟨hp, hm⟩ | ⟨hp, hne, hf, hr⟩ | ⟨hp, hne, hline, hc⟩ |
      ⟨hp, hne, hline, hc⟩⟩
    · exact Or.inl (Or.inl (Or.inl (Or.inl ⟨a, h0, h1, hp, h2, h3⟩)))
    · refine Or.inl (Or.inl (Or.inl (Or.inr ⟨a, h0, h1, hp, ?_⟩)))
      rw [mem_knight_offsets]
      omega
    · refine Or.inr ⟨a, h0, h1, hp, ?_⟩
      rw [mem_king_offsets]
      omega
    · exact Or.inl (Or.inl (Or.inr ⟨a, h0, h1, hp, (rook_line_iff a s).mpr ⟨hne, hline⟩, hc⟩))
    · exact Or.inl (Or.inr ⟨a, h0, h1, hp,
        (bishop_line_iff a s).mpr ⟨hne, hline⟩, hc⟩)

theorem is_square_attacked_iff_witness :
    ∃ a : Int, 0 ≤ a ∧ a < 64 ∧ attacks castleThroughCheck.board false a 5 :=
  (is_square_attacked_iff castleThroughCheck.board 5 (by decide) false).1.mp (by decide)

end Replit

/-! ## Alpha-beta against plain minimax (string engine) -/

theorem ab_max_cut {S : Type} [LinearOrder S] (a0 b value wc c : S)
    (hab : max a0 value < b)
    (C2 : b ≤ wc → wc ≤ c)
    (hcut : b ≤ max (max a0 value) (max value wc)) :
    b ≤ max value wc ∧ max value wc ≤ c := by
  have hv : value < b := lt_of_le_of_lt (le_max_right _ _) hab
  have h1 : b ≤ wc := by
    rcases le_max_iff.mp hcut with h | h
    · exact absurd h (not_le.mpr hab)
    · rcases le_max_iff.mp h with h' | h'
      · exact absurd h' (not_le.mpr hv)
      · exact h'
  have h2 : max value wc = wc := max_eq_right (le_of_lt (lt_of_lt_of_le hv h1))
  rw [h2]
  exact ⟨h1, C2 h1⟩

theorem ab_max_step {S : Type} [LinearOrder S] (a0 b value p wc c : S)
    (J1 : value ≤ a0 → p ≤ value) (J2 : a0 < value → p = value)
    (C1 : wc ≤ max a0 value → c ≤ wc)
    (C3 : max a0 value < wc → wc < b → wc = c)
    (hno : max (max a0 value) (max value wc) < b) :
    max (max a0 value) (max value wc) = max a0 (max value wc) ∧
    max a0 (max value wc) < b ∧
    (max value wc ≤ a0 → max p c ≤ max value wc) ∧
    (a0 < max value wc → max p c = max value wc) := by
  have hid : max (max a0 value) (max value wc) = max a0 (max value wc) := by
    rw [max_assoc, ← max_assoc value value wc, max_self]
  have hwc : wc < b :=
    lt_of_le_of_lt (le_trans (le_max_right _ _) (le_max_right _ _)) hno
  refine ⟨hid, by rw [← hid]; exact hno, ?_, ?_⟩
  · intro h
    have hv : value ≤ a0 := le_trans (le_max_left _ _) h
    have hw : wc ≤ a0 := le_trans (le_max_right _ _) h
    exact max_le (le_trans (J1 hv) (le_max_left _ _))
      (le_trans (C1 (le_trans hw (le_max_left _ _))) (le_max_right _ _))
  · intro h
    rcases le_or_lt value a0 with hv | hv
    · have ha : max a0 value = a0 := max_eq_left hv
      have hw : a0 < wc := by
        rcases lt_max_iff.mp h with h' | h'
        · exact absurd hv (not_le.mpr h')
        · exact h'
      have hc : wc = c := C3 (by rw [ha]; exact hw) hwc
      have h1 : max value wc = wc := max_eq_right (le_of_lt (lt_of_le_of_lt hv hw))
      rw [h1, ← hc]
      exact max_eq_right (le_trans (J1 hv) (le_of_lt (lt_of_le_of_lt hv hw)))
    · have ha : max a0 value = value := max_eq_right (le_of_lt hv)
      have hp : p = value := J2 hv
      rcases le_or_lt wc value with hw | hw
      · have h1 : max value wc = value := max_eq_left hw
        have hc : c ≤ wc := C1 (by rw [ha]; exact hw)
        rw [h1, hp]
        exact max_eq_left (le_trans hc hw)
      · have hc : wc = c := C3 (by rw [ha]; exact hw) hwc
        rw [hp, ← hc]

/-- The mirror image of `ab_max_cut` for the minimizing loop. -/
theorem ab_min_cut {S : Type} [LinearOrder S] (a b0 value wc c : S)
    (hab : a < min b0 value)
    (C1 : wc ≤ a → c ≤ wc)
    (hcut : min (min b0 value) (min value wc) ≤ a) :
    min value wc ≤ a ∧ c ≤ min value wc :=
  @ab_max_cut Sᵒᵈ _ b0 a value wc c hab C1 hcut

/-- The mirror image of `ab_max_step` for the minimizing loop. -/
theorem ab_min_step {S : Type} [LinearOrder S] (a b0 value p wc c : S)
    (J1 : b0 ≤ value → value ≤ p) (J2 : value < b0 → p = value)
    (C2 : min b0 value ≤ wc → wc ≤ c)
    (C3 : a < wc → wc < min b0 value → wc = c)
    (hno : a < min (min b0 value) (min value wc)) :
    min (min b0 value) (min value wc) = min b0 (min value wc) ∧
    a < min b0 (min value wc) ∧
    (b0 ≤ min value wc → min value wc ≤ min p c) ∧
    (min value wc < b0 → min p c = min value wc) :=
  @ab_max_step Sᵒᵈ _ b0 a value p wc c J1 J2 C2 (fun h1 h2 => C3 h2 h1) hno

namespace Engine

theorem best_of_true_ge : ∀ (l : List (Option Score)) (acc v : Score),
    best_of true l acc = some v → acc ≤ v
  | [], acc, v, h => by
    simp only [best_of, Option.some.injEq] at h
    exact le_of_eq h
  | none :: _, acc, v, h => by simp [best_of] at h
  | some c :: rest, acc, v, h => by
    simp only [best_of, if_true] at h
    exact le_trans (le_max_left _ _) (best_of_true_ge rest _ v h)

theorem best_of_false_le : ∀ (l : List (Option Score)) (acc v : Score),
    best_of false l acc = some v → v ≤ acc
  | [], acc, v, h => by
    simp only [best_of, Option.some.injEq] at h
    exact le_of_eq h.symm
  | none :: _, acc, v, h => by simp [best_of] at h
  | some c :: rest, acc, v, h => by
    simp only [best_of, Bool.false_eq_true, if_false] at h
    exact le_trans (best_of_false_le rest _ v h) (min_le_left _ _)

/-- The value of `best_of` does not depend on the order of the children. -/
theorem best_of_perm (b : Bool) {l l2 : List (Option Score)} (h : l.Perm l2) :
    ∀ acc : Score, best_of b l acc = best_of b l2 acc := by
  induction h with
  | nil => intro acc; rfl
  | cons x _ ih =>
    intro acc
    cases x with
    | none => rfl
    | some v => exact ih _
  | swap x y l =>
    intro acc
    cases x <;> cases y <;> cases b <;>
      simp [best_of, sup_right_comm, inf_right_comm]
  | trans _ _ ih1 ih2 => intro acc; rw [ih1, ih2]

theorem best_of_some (b : Bool) : ∀ (l : List (Option Score)) (acc : Score),
    (∀ x ∈ l, ∃ v, x = some v) → ∃ w, best_of b l acc = some w
  | [], acc, _ => ⟨acc, rfl⟩
  | x :: rest, acc, h => by
    obtain ⟨v, hv⟩ := h x (List.mem_cons_self _ _)
    subst hv
    exact best_of_some b rest _ fun y hy => h y (List.mem_cons_of_mem _ hy)

/-- The maximizing loop of `minimax`, entered with the running value `value` and
`alpha = max a0 value`, returns a result within the bounds of the window `(a0, b)`
around the plain maximum; `p` is the plain maximum of the children seen so far. -/
theorem search_loop_max
    (recur : BoardMap × Rights × Option Square → Score → Score → Option Score)
    (plain : BoardMap × Rights × Option Square → Option Score)
    (board : BoardMap) (cr : Option Rights) (ep : Option Square) (a0 b : Score)
    (hrec : ∀ sim a c, a < b → plain sim = some c →
      ∃ w, recur sim a b = some w ∧ window_bounds a b c w) :
    ∀ (moves : List (Square × Target)) (value p v : Score),
      max a0 value < b → (value ≤ a0 → p ≤ value) → (a0 < value → p = value) →
      best_of true (moves.map fun mv => plain (simulate_move board mv.1 mv.2 cr ep)) p
        = some v →
      ∃ w, search_loop recur board cr ep true false moves value (max a0 value) b = some w ∧
        window_bounds a0 b v w := by
  intro moves
  induction moves with
  | nil =>
    intro value p v hab J1 J2 hv
    simp only [List.map_nil, best_of, Option.some.injEq] at hv
    subst hv
    refine ⟨value, rfl, J1, ?_, fun h _ => (J2 h).symm⟩
    intro h
    exact absurd (lt_of_le_of_lt (le_max_right a0 value) hab) (not_lt.mpr h)
  | cons mv rest ih =>
    intro value p v hab J1 J2 hv
    obtain ⟨fr, to_⟩ := mv
    simp only [List.map_cons] at hv
    cases hc : plain (simulate_move board fr to_ cr ep) with
    | none => rw [hc] at hv; simp [best_of] at hv
    | some c =>
      rw [hc] at hv
      simp only [best_of, if_true] at hv
      obtain ⟨wc, hwc, C1, C2, C3⟩ := hrec _ (max a0 value) c hab hc
      simp only [search_loop, Bool.false_eq_true, if_false, hwc, if_true, ge_iff_le]
      by_cases hcut : b ≤ max (max a0 value) (max value wc)
      · rw [if_pos hcut]
        obtain ⟨h1, h2⟩ := ab_max_cut a0 b value wc c hab C2 hcut
        refine ⟨_, rfl, ?_, ?_, ?_⟩
        · intro h
          exact absurd (lt_of_lt_of_le (lt_of_le_of_lt (le_max_left a0 value) hab) h1)
            (not_lt.mpr h)
        · intro _
          exact le_trans h2 (le_trans (le_max_right p c) (best_of_true_ge _ _ _ hv))
        · intro _ h
          exact absurd h (not_lt.mpr h1)
      · rw [if_neg hcut]
        obtain ⟨hid, hab2, J1n, J2n⟩ :=
          ab_max_step a0 b value p wc c J1 J2 C1 C3 (not_le.mp hcut)
        rw [hid]
        exact ih (max value wc) (max p c) v hab2 J1n J2n hv

/-- The minimizing loop of `minimax`, entered with the running value `value` and
`beta = min b0 value`, returns a result within the bounds of the window `(a, b0)`
around the plain minimum; `p` is the plain minimum of the children seen so far. -/
theorem search_loop_min
    (recur : BoardMap × Rights × Option Square → Score → Score → Option Score)
    (plain : BoardMap × Rights × Option Square → Option Score)
    (board : BoardMap) (cr : Option Rights) (ep : Option Square) (a b0 : Score)
    (hrec : ∀ sim b c, a < b → plain sim = some c →
      ∃ w, recur sim a b = some w ∧ window_bounds a b c w) :
    ∀ (moves : List (Square × Target)) (value p v : Score),
      a < min b0 value → (b0 ≤ value → value ≤ p) → (value < b0 → p = value) →
      best_of false (moves.map fun mv => plain (simulate_move board mv.1 mv.2 cr ep)) p
        = some v →
      ∃ w, search_loop recur board cr ep false false moves value a (min b0 value) = some w ∧
        window_bounds a b0 v w := by
  intro moves
  induction moves with
  | nil =>
    intro value p v hab J1 J2 hv
    simp only [List.map_nil, best_of, Option.some.injEq] at hv
    subst hv
    refine ⟨value, rfl, ?_, J1, fun _ h => (J2 h).symm⟩
    intro h
    exact absurd (lt_of_lt_of_le hab (min_le_right b0 value)) (not_lt.mpr h)
  | cons mv rest ih =>
    intro value p v hab J1 J2 hv
    obtain ⟨fr, to_⟩ := mv
    simp only [List.map_cons] at hv
    cases hc : plain (simulate_move board fr to_ cr ep) with
    | none => rw [hc] at hv; simp [best_of] at hv
    | some c =>
      rw [hc] at hv
      simp only [best_of, Bool.false_eq_true, if_false] at hv
      obtain ⟨wc, hwc, C1, C2, C3⟩ := hrec _ (min b0 value) c hab hc
      simp only [search_loop, Bool.false_eq_true, if_false, hwc, ge_iff_le]
      by_cases hcut : min (min b0 value) (min value wc) ≤ a
      · rw [if_pos hcut]
        obtain ⟨h1, h2⟩ := ab_min_cut a b0 value wc c hab C1 hcut
        refine ⟨_, rfl, ?_, ?_, ?_⟩
        · intro _
          exact le_trans (le_trans (best_of_false_le _ _ _ hv) (min_le_right p c)) h2
        · intro h
          exact absurd (lt_of_le_of_lt h1 (lt_of_lt_of_le hab (min_le_left b0 value)))
            (not_lt.mpr h)
        · intro h _
          exact absurd h (not_lt.mpr h1)
      · rw [if_neg hcut]
        obtain ⟨hid, hab2, J1n, J2n⟩ :=
          ab_min_step a b0 value p wc c J1 J2 C2 C3 (not_le.mp hcut)
        rw [hid]
        exact ih (min value wc) (min p c) v hab2 J1n J2n hv

/-- The move loop of a `minimax` node over any list of moves: when the recursive
calls keep within the bounds of their windows, so does the loop. -/
theorem search_loop_window (fuel : Nat) (board : BoardMap) (m s : Color) (depth : Int)
    (a b : Score) (cr : Option Rights) (ep : Option Square)
    (ih : ∀ (board : BoardMap) (m s : Color) (depth : Int)
      (a b : Score) (cr : Option Rights) (ep : Option Square) (v : Score),
      a < b → plain_minimax fuel board m s depth cr ep = some v →
      ∃ w, minimax fuel board m s depth a b false cr ep = some w ∧ window_bounds a b v w)
    (moves : List (Square × Target)) (v : Score) (hab : a < b)
    (h : best_of (s = m)
      (moves.map fun mv =>
        plain_minimax fuel (simulate_move board mv.1 mv.2 cr ep).1 m (opponent s) (depth - 1)
          (some (simulate_move board mv.1 mv.2 cr ep).2.1)
          (simulate_move board mv.1 mv.2 cr ep).2.2)
      (if s = m then ⊥ else ⊤) = some v) :
    ∃ w, search_loop
        (fun sim a b => minimax fuel sim.1 m (opponent s) (depth - 1) a b false
          (some sim.2.1) sim.2.2)
        board cr ep (s = m) false moves (if s = m then ⊥ else ⊤) a b = some w ∧
      window_bounds a b v w := by
  by_cases hsm : s = m
  · simp only [hsm, decide_True, if_true] at h ⊢
    have h0 : a = max a ⊥ := (max_eq_left bot_le).symm
    have hl := search_loop_max
      (fun sim a b => minimax fuel sim.1 m (opponent m) (depth - 1) a b false
        (some sim.2.1) sim.2.2)
      (fun sim => plain_minimax fuel sim.1 m (opponent m) (depth - 1)
        (some sim.2.1) sim.2.2)
      board cr ep a b
      (fun sim a2 c h2 hc => ih sim.1 m (opponent m) (depth - 1) a2 b
        (some sim.2.1) sim.2.2 c h2 hc)
      moves ⊥ ⊥ v
      (by rw [← h0]; exact hab) (fun _ => le_refl _) (fun _ => rfl) h
    rw [← h0] at hl
    exact hl
  · simp only [hsm, decide_False, if_false, Bool.false_eq_true] at h ⊢
    have h0 : b = min b ⊤ := (min_eq_left le_top).symm
    have hl := search_loop_min
      (fun sim a b => minimax fuel sim.1 m (opponent s) (depth - 1) a b false
        (some sim.2.1) sim.2.2)
      (fun sim => plain_minimax fuel sim.1 m (opponent s) (depth - 1)
        (some sim.2.1) sim.2.2)
      board cr ep a b
      (fun sim b2 c h2 hc => ih sim.1 m (opponent s) (depth - 1) a b2
        (some sim.2.1) sim.2.2 c h2 hc)
      moves ⊤ ⊤ v
      (by rw [← h0]; exact hab) (fun _ => le_refl _) (fun _ => rfl) h
    rw [← h0] at hl
    exact hl

/-- Fail-soft alpha-beta: with a window `a < b` and no stop flag, `minimax`
returns a result within the bounds of the window around the plain minimax value. -/
theorem minimax_window : ∀ (fuel : Nat) (board : BoardMap) (m s : Color) (depth : Int)
    (a b : Score) (cr : Option Rights) (ep : Option Square) (v : Score),
    a < b → plain_minimax fuel board m s depth cr ep = some v →
    ∃ w, minimax fuel board m s depth a b false cr ep = some w ∧ window_bounds a b v w := by
  intro fuel
  induction fuel with
  | zero => intro board m s depth a b cr ep v _ h; simp [plain_minimax] at h
  | succ fuel ih =>
    intro board m s depth a b cr ep v hab h
    have exact_ok : ∀ x : Score, window_bounds a b x x :=
      fun x => ⟨fun _ => le_refl _, fun _ => le_refl _, fun _ _ => rfl⟩
    unfold plain_minimax at h
    unfold minimax
    simp only [Bool.false_eq_true, if_false]
    by_cases hd : depth = 0
    · simp only [hd, if_true, Option.some.injEq] at h ⊢
      subst h
      exact ⟨_, rfl, exact_ok _⟩
    · simp only [hd, if_false] at h ⊢
      by_cases he : (generate_legal_moves board s cr ep).isEmpty = true
      · simp only [he, if_true] at h ⊢
        rw [h]
        exact ⟨_, rfl, exact_ok _⟩
      · simp only [he, if_false, Bool.false_eq_true] at h ⊢
        exact search_loop_window fuel board m s depth a b cr ep ih _ v hab h

/-- With the full window the bounds leave one value only. -/
theorem window_bounds_full (v w : Score) (h : window_bounds ⊥ ⊤ v w) : w = v := by
  obtain ⟨B1, B2, B3⟩ := h
  rcases eq_or_ne w ⊥ with h1 | h1
  · exact le_antisymm (by rw [h1]; exact bot_le) (B1 (le_of_eq h1))
  · rcases eq_or_ne w ⊤ with h2 | h2
    · exact le_antisymm (B2 (le_of_eq h2.symm)) (by rw [h2]; exact le_top)
    · exact B3 (bot_lt_iff_ne_bot.mpr h1) (lt_top_iff_ne_top.mpr h2)

/-- Plain minimax gives a value as soon as the fuel exceeds the depth. -/
theorem plain_minimax_some : ∀ (fuel : Nat) (board : BoardMap) (m s : Color) (depth : Int)
    (cr : Option Rights) (ep : Option Square), 0 ≤ depth → depth < fuel →
    ∃ v, plain_minimax fuel board m s depth cr ep = some v := by
  intro fuel
  induction fuel with
  | zero => intro board m s depth cr ep h0 h1; simp at h1; omega
  | succ fuel ih =>
    intro board m s depth cr ep h0 h1
    unfold plain_minimax
    by_cases hd : depth = 0
    · simp only [hd, if_true]
      exact ⟨_, rfl⟩
    · simp only [hd, if_false]
      by_cases he : (generate_legal_moves board s cr ep).isEmpty = true
      · simp only [he, if_true]
        split_ifs <;> exact ⟨_, rfl⟩
      · simp only [he, if_false, Bool.false_eq_true]
        apply best_of_some
        intro x hx
        obtain ⟨mv, _, rfl⟩ := List.mem_map.mp hx
        exact ih _ m (opponent s) (depth - 1) _ _ (by omega) (by push_cast at h1; omega)

/-- C17 (string engine): for every position, sides M and S and depth d >= 0, with
no stop flag and enough fuel for the depth, `minimax` with the full window
(-infinity, +infinity) returns a value, and it is the value of plain minimax
without pruning (leaf = `evaluate_board` from M's perspective, terminal scores as
in the code, maximum over the legal moves when S = M and minimum otherwise).
Hence the order of the visit does not matter: the move loop of the node run over
any permutation of its legal moves returns what `minimax` returns, and the plain
maximum or minimum is the same for every order of the children. -/
theorem minimax_full_window_exact (fuel : Nat) (board : BoardMap) (m s : Color)
    (depth : Int) (cr : Option Rights) (ep : Option Square)
    (hd : 0 ≤ depth) (hf : depth < fuel) :
    (∃ v, plain_minimax fuel board m s depth cr ep = some v ∧
      minimax fuel board m s depth ⊥ ⊤ false cr ep = some v) ∧
    (depth ≠ 0 → (generate_legal_moves board s cr ep).isEmpty = false →
      ∀ moves : List (Square × Target),
        moves.Perm (move_pairs (generate_legal_moves board s cr ep)) →
        search_loop
          (fun sim a b => minimax (fuel - 1) sim.1 m (opponent s) (depth - 1) a b false
            (some sim.2.1) sim.2.2)
          board cr ep (s = m) false moves (if s = m then ⊥ else ⊤) ⊥ ⊤ =
        minimax fuel board m s depth ⊥ ⊤ false cr ep) ∧
    (∀ (b : Bool) (l l2 : List (Option Score)) (acc : Score),
      l.Perm l2 → best_of b l acc = best_of b l2 acc) := by
  obtain ⟨v, hv⟩ := plain_minimax_some fuel board m s depth cr ep hd hf
  obtain ⟨w, hw, hB⟩ :=
    minimax_window fuel board m s depth ⊥ ⊤ cr ep v (by decide) hv
  have hwv : w = v := window_bounds_full v w hB
  rw [hwv] at hw
  refine ⟨⟨v, hv, hw⟩, ?_, fun b l l2 acc h => best_of_perm b h acc⟩
  intro hd0 he moves hperm
  obtain ⟨f, rfl⟩ : ∃ f, fuel = f + 1 := ⟨fuel - 1, by omega⟩
  rw [hw, Nat.add_sub_cancel]
  unfold plain_minimax at hv
  simp only [hd0, if_false, he, Bool.false_eq_true] at hv
  rw [best_of_perm _ ((hperm.symm).map _)] at hv
  obtain ⟨w2, hw2, hB2⟩ := search_loop_window f board m s depth ⊥ ⊤ cr ep
    (minimax_window f) moves v (by decide) hv
  rw [hw2, window_bounds_full v w2 hB2]

theorem minimax_full_window_exact_witness :
    (0 : Int) ≤ 1 ∧ (1 : Int) < (2 : Nat) ∧
    ∃ v, plain_minimax 2 kingOffHome Color.white Color.black 1 none none = some v ∧
      minimax 2 kingOffHome Color.white Color.black 1 ⊥ ⊤ false none none = some v :=
  ⟨by decide, by decide,
    (minimax_full_window_exact 2 kingOffHome Color.white Color.black 1 none none
      (by decide) (by decide)).1⟩

end Engine

namespace Replit
open Piece

/-! ## The stop flag as explicit state agrees with the constant flag -/

/-- With a flag that is never set, the move loops with the clock compute what the
loops with the constant flag `false` compute. -/
theorem search_loop_clock_none
    (recur : GameState → Score → Score → Option TranspositionTable →
      Option (Score × Option TranspositionTable))
    (recur2 : GameState → Score → Score → StopClock → TranspositionTable →
      Option (Score × TranspositionTable × StopClock))
    (hrec : ∀ st a b t, recur2 st a b none t =
      (recur st a b (some t)).bind fun r => r.2.map fun t2 => (r.1, t2, none))
    (hsome : ∀ st a b t r, recur st a b (some t) = some r → r.2.isSome = true)
    (state : GameState) (mx : Bool) :
    ∀ (moves : List Move) (v a b : Score) (tt : TranspositionTable),
      search_loop_clock recur2 state mx moves v a b none tt =
        (search_loop recur state mx false moves v a b (some tt)).bind fun r =>
          r.2.1.map fun t2 => (r.1, t2, none, r.2.2) := by
  intro moves
  induction moves with
  | nil => intro v a b tt; rfl
  | cons mv rest ih =>
    intro v a b tt
    simp only [search_loop_clock, search_loop, StopClock.load, Bool.false_eq_true, if_false]
    rw [hrec]
    cases hr : recur (apply_move state mv) a b (some tt) with
    | none => rfl
    | some r =>
      obtain ⟨score, t2⟩ := r
      have h2 := hsome _ _ _ _ _ hr
      cases t2 with
      | none => simp at h2
      | some t3 =>
        simp only [Option.some_bind, Option.map_some']
        cases mx
        · simp only [Bool.false_eq_true, if_false]
          split_ifs
          · rfl
          · exact ih _ _ _ _
        · simp only [if_true]
          split_ifs
          · rfl
          · exact ih _ _ _ _

/-- The loops with the constant flag keep a table when they are given one. -/
theorem search_loop_table_some
    (recur : GameState → Score → Score → Option TranspositionTable →
      Option (Score × Option TranspositionTable))
    (hsome : ∀ st a b t r, recur st a b (some t) = some r → r.2.isSome = true)
    (state : GameState) (mx stop : Bool) :
    ∀ (moves : List Move) (v a b : Score) (tt : TranspositionTable)
      (r : Score × Option TranspositionTable × Bool),
      search_loop recur state mx stop moves v a b (some tt) = some r → r.2.1.isSome = true := by
  intro moves
  induction moves with
  | nil =>
    intro v a b tt r h
    simp only [search_loop, Option.some.injEq] at h
    rw [← h]; rfl
  | cons mv rest ih =>
    intro v a b tt r h
    simp only [search_loop] at h
    by_cases hs : stop = true
    · simp only [hs, if_true, Option.some.injEq] at h
      rw [← h]; rfl
    · rw [if_neg hs] at h
      cases hr : recur (apply_move state mv) a b (some tt) with
      | none => rw [hr] at h; simp at h
      | some r2 =>
        obtain ⟨score, t2⟩ := r2
        have h2 := hsome _ _ _ _ _ hr
        cases t2 with
        | none => simp at h2
        | some t3 =>
          rw [hr] at h
          simp only at h
          cases mx
          · simp only [Bool.false_eq_true, if_false] at h
            split_ifs at h
            · simp only [Option.some.injEq] at h
              rw [← h]; rfl
            · exact ih _ _ _ _ _ h
          · simp only [if_true] at h
            split_ifs at h
            · simp only [Option.some.injEq] at h
              rw [← h]; rfl
            · exact ih _ _ _ _ _ h

/-- The function `minimax` returns a table when it is given one. -/
theorem minimax_table_some : ∀ (fuel : Nat) (state : GameState) (m c : Bool) (depth : Int)
    (a b : Score) (stop : Bool) (tt : TranspositionTable)
    (r : Score × Option TranspositionTable),
    minimax fuel state m c depth a b stop (some tt) = some r → r.2.isSome = true := by
  intro fuel
  induction fuel with
  | zero => intro state m c depth a b stop tt r h; simp [minimax] at h
  | succ fuel ih =>
    intro state m c depth a b stop tt r h
    unfold minimax at h
    by_cases hs : stop = true
    · simp only [hs, if_true, Option.some.injEq] at h
      rw [← h]; rfl
    · simp only [hs, if_false, Bool.false_eq_true] at h
      by_cases hd : depth = 0
      · simp only [hd, if_true, Option.some.injEq] at h
        rw [← h]; rfl
      · simp only [hd, if_false] at h
        by_cases hp : (tt.probe (hash_board state.board) depth 0).2.1 = true
        · simp only [hp, if_true, Option.some.injEq] at h
          rw [← h]; rfl
        · simp only [hp, if_false, Bool.false_eq_true] at h
          by_cases he : (generate_legal_moves state c).isEmpty = true
          · simp only [he, if_true] at h
            split_ifs at h <;>
              (simp only [Option.some.injEq] at h; rw [← h]; rfl)
          · simp only [he, if_false, Bool.false_eq_true] at h
            cases hl : search_loop
                (fun st a b t => minimax fuel st m (!c) (depth - 1) a b false t)
                state (decide (c = m)) false (order_moves state.board (generate_legal_moves state c))
                (if c = m then ⊥ else ⊤) a b (some tt) with
            | none => rw [hl] at h; simp at h
            | some r2 =>
              obtain ⟨value, t2, flag⟩ := r2
              have h2 := search_loop_table_some _
                (fun st a b t r hr => ih st m (!c) (depth - 1) a b false t r hr)
                state _ false _ _ _ _ tt _ hl
              rw [hl] at h
              cases t2 with
              | none => simp at h2
              | some t3 =>
                cases flag <;>
                  (simp only [Option.map_some', Option.some.injEq] at h; rw [← h]; rfl)

/-- With a flag that is never set, `minimax_clock` computes what `minimax` computes
with the constant flag `false` and the same table. -/
theorem minimax_clock_none : ∀ (fuel : Nat) (state : GameState) (m c : Bool) (depth : Int)
    (a b : Score) (tt : TranspositionTable),
    minimax_clock fuel state m c depth a b none tt =
      (minimax fuel state m c depth a b false (some tt)).bind fun r =>
        r.2.map fun t2 => (r.1, t2, none) := by
  intro fuel
  induction fuel with
  | zero => intro state m c depth a b tt; rfl
  | succ fuel ih =>
    intro state m c depth a b tt
    unfold minimax_clock minimax
    simp only [StopClock.load, Bool.false_eq_true, if_false]
    by_cases hd : depth = 0
    · simp only [hd, if_true]; rfl
    · simp only [hd, if_false]
      by_cases hp : (tt.probe (hash_board state.board) depth 0).2.1 = true
      · simp only [hp, if_true]; rfl
      · simp only [hp, if_false, Bool.false_eq_true]
        by_cases he : (generate_legal_moves state c).isEmpty = true
        · simp only [he, if_true]
          split_ifs <;> rfl
        · simp only [he, if_false, Bool.false_eq_true]
          rw [search_loop_clock_none
            (fun st a b t => minimax fuel st m (!c) (depth - 1) a b false t)
            (fun st a b cl t => minimax_clock fuel st m (!c) (depth - 1) a b cl t)
            (fun st a b t => ih st m (!c) (depth - 1) a b t)
            (fun st a b t r hr => minimax_table_some fuel st m (!c) (depth - 1) a b false t r hr)]
          cases hl : search_loop
              (fun st a b t => minimax fuel st m (!c) (depth - 1) a b false t)
              state (decide (c = m)) false (order_moves state.board (generate_legal_moves state c))
              (if c = m then ⊥ else ⊤) a b (some tt) with
          | none => rfl
          | some r2 =>
            obtain ⟨value, t2, flag⟩ := r2
            have h2 := search_loop_table_some _
              (fun st a b t r hr => minimax_table_some fuel st m (!c) (depth - 1) a b false t r hr)
              state _ false _ _ _ _ tt _ hl
            cases t2 with
            | none => simp at h2
            | some t3 => cases flag <;> rfl

end Replit

namespace Engine

/-! ## Root search of the string engine -/

/-- The loop "find max by value" started from `(k0, s0)`: either nothing beat `s0`,
or the result is an entry of the map that beats `s0`; in both cases no entry has
a greater score than the result. -/
theorem find_max_fold (d : List ((Square × Target) × Score)) :
    ∀ (k0 : Option (Square × Target)) (s0 : Score),
      let best := d.foldl (fun best kv => if kv.2 > best.2 then (some kv.1, kv.2) else best) (k0, s0)
      (∀ e ∈ d, e.2 ≤ best.2) ∧ s0 ≤ best.2 ∧
      ((best = (k0, s0)) ∨ (∃ e ∈ d, best = (some e.1, e.2) ∧ s0 < e.2)) := by
  induction d with
  | nil =>
    intro k0 s0
    exact ⟨fun e he => absurd he (List.not_mem_nil e), le_refl _, Or.inl rfl⟩
  | cons kv rest ih =>
    intro k0 s0
    simp only [List.foldl_cons]
    by_cases h : kv.2 > s0
    · rw [if_pos h]
      obtain ⟨h1, h2, h3⟩ := ih (some kv.1) kv.2
      refine ⟨?_, le_trans (le_of_lt h) h2, ?_⟩
      · intro e he
        rcases List.mem_cons.mp he with rfl | he
        · exact h2
        · exact h1 e he
      · right
        rcases h3 with h3 | ⟨e, he, h3, h4⟩
        · exact ⟨kv, List.mem_cons_self _ _, h3, h⟩
        · exact ⟨e, List.mem_cons_of_mem _ he, h3, lt_trans h h4⟩
    · rw [if_neg h]
      obtain ⟨h1, h2, h3⟩ := ih k0 s0
      refine ⟨?_, h2, ?_⟩
      · intro e he
        rcases List.mem_cons.mp he with rfl | he
        · exact le_trans (not_lt.mp h) h2
        · exact h1 e he
      · rcases h3 with h3 | ⟨e, he, h3, h4⟩
        · exact Or.inl h3
        · exact Or.inr ⟨e, List.mem_cons_of_mem _ he, h3, h4⟩

/-- When every score of the map is `-infinity`, no entry is selected. -/
theorem find_max_all_bot (d : List ((Square × Target) × Score)) (h : ∀ e ∈ d, e.2 = ⊥) :
    find_max d = (none, ⊥) := by
  obtain ⟨_, _, h3⟩ := find_max_fold d none ⊥
  rcases h3 with h3 | ⟨e, he, _, h4⟩
  · exact h3
  · rw [h e he] at h4
    exact absurd h4 (lt_irrefl _)

/-- When some score of the map is `+infinity`, an entry with that score is selected. -/
theorem find_max_top (d : List ((Square × Target) × Score)) (e : (Square × Target) × Score)
    (he : e ∈ d) (htop : e.2 = ⊤) :
    ∃ k, (k, (⊤ : Score)) ∈ d ∧ find_max d = (some k, ⊤) := by
  obtain ⟨h1, _, h3⟩ := find_max_fold d none ⊥
  have hb : (find_max d).2 = ⊤ := le_antisymm le_top (by rw [← htop]; exact h1 e he)
  rcases h3 with h3 | ⟨e2, he2, h3, _⟩
  · have h4 : (find_max d).2 = ⊥ := congrArg Prod.snd h3
    rw [hb] at h4
    exact absurd h4 (by decide)
  · have h4 : (find_max d).2 = e2.2 := congrArg Prod.snd h3
    rw [hb] at h4
    refine ⟨e2.1, ?_, ?_⟩
    · rw [h4]; exact he2
    · rw [show find_max d = (some e2.1, e2.2) from h3, ← h4]

theorem mem_dict_insert_self (d : List ((Square × Target) × Score)) (k : Square × Target)
    (v : Score) : (k, v) ∈ dict_insert d k v := by
  induction d with
  | nil => simp [dict_insert]
  | cons e rest ih =>
    unfold dict_insert
    split_ifs
    · exact List.mem_cons_self _ _
    · exact List.mem_cons_self _ _
    · exact List.mem_cons_of_mem _ ih

theorem mem_dict_insert_of_mem (d : List ((Square × Target) × Score)) (k : Square × Target)
    (v : Score) (e : (Square × Target) × Score) (he : e ∈ d) (hk : e.1 ≠ k) :
    e ∈ dict_insert d k v := by
  induction d with
  | nil => exact absurd he (List.not_mem_nil e)
  | cons e2 rest ih =>
    unfold dict_insert
    rcases List.mem_cons.mp he with rfl | he
    · rw [if_neg hk]
      split_ifs
      · exact List.mem_cons_of_mem _ (List.mem_cons_self _ _)
      · exact List.mem_cons_self _ _
    · split_ifs
      · exact List.mem_cons_of_mem _ he
      · exact List.mem_cons_of_mem _ (List.mem_cons_of_mem _ he)
      · exact List.mem_cons_of_mem _ (ih he)

theorem mem_of_mem_dict_insert (d : List ((Square × Target) × Score)) (k : Square × Target)
    (v : Score) (e : (Square × Target) × Score) (he : e ∈ dict_insert d k v) :
    e = (k, v) ∨ e ∈ d := by
  induction d with
  | nil =>
    simp only [dict_insert, List.mem_singleton] at he
    exact Or.inl he
  | cons e2 rest ih =>
    unfold dict_insert at he
    split_ifs at he
    · rcases List.mem_cons.mp he with h | h
      · exact Or.inl h
      · exact Or.inr (List.mem_cons_of_mem _ h)
    · rcases List.mem_cons.mp he with h | h
      · exact Or.inl h
      · exact Or.inr h
    · rcases List.mem_cons.mp he with h | h
      · exact Or.inr (h ▸ List.mem_cons_self _ _)
      · rcases ih h with h | h
        · exact Or.inl h
        · exact Or.inr (List.mem_cons_of_mem _ h)

/-- After the workers have run, `return_dict` holds the score of every root move, and
nothing else beyond what it held before. -/
theorem run_workers_spec (fuel : Nat) (board : BoardMap) (color : Color) (depth : Int)
    (rights : Rights) (ep : Option Square) :
    ∀ (roots : List (Square × Target)) (d : List ((Square × Target) × Score)),
      (∀ r ∈ roots, ∃ s, root_score fuel board color depth rights ep r = some s) →
      (∀ e ∈ d, root_score fuel board color depth rights ep e.1 = some e.2) →
      ∃ d2, run_workers fuel board color depth rights ep roots d = some d2 ∧
        (∀ e ∈ d2, root_score fuel board color depth rights ep e.1 = some e.2) ∧
        (∀ e ∈ d2, e ∈ d ∨ e.1 ∈ roots) ∧
        (∀ r ∈ roots, ∃ s, (r, s) ∈ d2) ∧
        (∀ e ∈ d, ∃ s, (e.1, s) ∈ d2) := by
  intro roots
  induction roots with
  | nil =>
    intro d _ hd
    exact ⟨d, rfl, hd, fun e he => Or.inl he, fun r hr => absurd hr (List.not_mem_nil r),
      fun e he => ⟨e.2, he⟩⟩
  | cons r rest ih =>
    intro d hroots hd
    obtain ⟨s, hs⟩ := hroots r (List.mem_cons_self _ _)
    have hd1 : ∀ e ∈ dict_insert d r s,
        root_score fuel board color depth rights ep e.1 = some e.2 := by
      intro e he
      rcases mem_of_mem_dict_insert d r s e he with h | h
      · rw [h]; exact hs
      · exact hd e h
    obtain ⟨d2, h1, h2, h3, h4, h5⟩ :=
      ih (dict_insert d r s) (fun x hx => hroots x (List.mem_cons_of_mem _ hx)) hd1
    refine ⟨d2, ?_, h2, ?_, ?_, ?_⟩
    · simp only [run_workers, hs]
      exact h1
    · intro e he
      rcases h3 e he with h | h
      · rcases mem_of_mem_dict_insert d r s e h with h | h
        · right; rw [h]; exact List.mem_cons_self _ _
        · exact Or.inl h
      · exact Or.inr (List.mem_cons_of_mem _ h)
    · intro x hx
      rcases List.mem_cons.mp hx with rfl | hx
      · exact h5 (x, s) (mem_dict_insert_self d x s)
      · exact h4 x hx
    · intro e he
      by_cases hk : e.1 = r
      · rw [hk]
        exact h5 (r, s) (mem_dict_insert_self d r s)
      · exact h5 e (mem_dict_insert_of_mem d r s e he hk)

/-- With no stop flag and a depth `d >= 0`, `minimax` with the full window returns a
value as soon as the fuel exceeds the depth. -/
theorem minimax_some (fuel : Nat) (board : BoardMap) (m s : Color) (depth : Int)
    (cr : Option Rights) (ep : Option Square) (hd : 0 ≤ depth) (hf : depth < fuel) :
    ∃ v, minimax fuel board m s depth ⊥ ⊤ false cr ep = some v ∧
      plain_minimax fuel board m s depth cr ep = some v := by
  obtain ⟨v, hv⟩ := plain_minimax_some fuel board m s depth cr ep hd hf
  obtain ⟨w, hw, hB⟩ := minimax_window fuel board m s depth ⊥ ⊤ cr ep v (by decide) hv
  rw [window_bounds_full v w hB] at hw
  exact ⟨v, hw, hv⟩

/-- C23 (no legal moves, string engine): when `generate_legal_moves` is empty for the
side to move, with the rights `engine_search` works with, `engine_search` returns
the empty move and NaN, and has launched no worker thread, whatever the depth. -/
theorem engine_search_no_legal_moves (fuel : Nat) (board : BoardMap) (color : Color)
    (depth : Int) (cr : Option Rights) (ep : Option Square)
    (h : generate_legal_moves board color (some (effective_rights board cr)) ep = []) :
    engine_search fuel board color depth cr ep = some ⟨none, none, 0⟩ := by
  simp [engine_search, root_moves, h, move_pairs]

theorem engine_search_no_legal_moves_witness :
    generate_legal_moves stalemateBoard Color.black
        (some (effective_rights stalemateBoard none)) none = [] ∧
    is_in_check stalemateBoard Color.black = false ∧
    engine_search 1 stalemateBoard Color.black 1 none none = some ⟨none, none, 0⟩ :=
  ⟨by decide, by decide,
    engine_search_no_legal_moves 1 stalemateBoard Color.black 1 none none (by decide)⟩

set_option maxRecDepth 100000 in
/-- C22 (root aggregation, string engine), evaluated at a position where white's only
legal move Kh8-g8 is answered by Ra8 mate, depth 3: the root move scores
`-infinity`, and `engine_search` returns the empty move with score `-infinity`,
not the root move. -/
theorem all_roots_mated_returns_empty_move :
    root_moves allMated Color.white none none = [(H8, Target.plain G8)] ∧
    root_score 3 allMated Color.white 3 (effective_rights allMated none) none
      (H8, Target.plain G8) = some ⊥ ∧
    engine_search 3 allMated Color.white 3 none none = some ⟨none, some ⊥, 1⟩ := by
  decide!

end Engine

namespace Engine

/-! ## Checkmate at the root (string engine) -/

/-- The minimum of a non-empty list of finite values is not `+infinity`. -/
theorem best_of_false_finite (l : List (Option Score)) (acc v : Score) (hne : l ≠ [])
    (hl : ∀ x ∈ l, ∃ i : Int, x = some (i : Score))
    (h : best_of false l acc = some v) : v ≠ ⊤ := by
  cases l with
  | nil => exact absurd rfl hne
  | cons x rest =>
    obtain ⟨i, rfl⟩ := hl x (List.mem_cons_self _ _)
    simp only [best_of, Bool.false_eq_true, if_false] at h
    have h1 : v ≤ min acc (i : Score) := best_of_false_le rest _ v h
    have h2 : v ≤ (i : Score) := le_trans h1 (min_le_right _ _)
    intro hv
    rw [hv] at h2
    have h3 : ((i : WithTop Int) : Score) < ⊤ :=
      WithBot.coe_lt_coe.mpr (WithTop.coe_lt_top i)
    exact absurd (lt_of_le_of_lt h2 h3) (lt_irrefl _)

/-- At depth 1 with the opponent to move, `minimax` returns `+infinity` only when the
side to move is in check and has no legal move. -/
theorem minimax_depth_one_top (fuel : Nat) (board : BoardMap) (m s : Color)
    (cr : Option Rights) (ep : Option Square) (hs : s ≠ m)
    (h : minimax (fuel + 2) board m s 1 ⊥ ⊤ false cr ep = some ⊤) :
    generate_legal_moves board s cr ep = [] ∧ is_in_check board s = true := by
  obtain ⟨v, hv, hp⟩ := minimax_some (fuel + 2) board m s 1 cr ep (by decide)
    (by push_cast; omega)
  rw [h] at hv
  have hv2 : v = ⊤ := (Option.some.inj hv).symm
  subst hv2
  unfold plain_minimax at hp
  simp only [one_ne_zero, if_false, hs, decide_False, Bool.false_eq_true] at hp
  by_cases he : (generate_legal_moves board s cr ep).isEmpty = true
  · simp only [he, if_true] at hp
    have he2 : generate_legal_moves board s cr ep = [] := List.isEmpty_iff.mp he
    by_cases hc : is_in_check board s = true
    · exact ⟨he2, hc⟩
    · simp only [hc, if_false, Bool.false_eq_true] at hp
      exact absurd (Option.some.inj hp) (by decide)
  · simp only [he, if_false, Bool.false_eq_true] at hp
    exfalso
    refine best_of_false_finite _ _ _ ?_ ?_ hp rfl
    · intro hnil
      have h1 := List.map_eq_nil_iff.mp hnil
      apply he
      unfold move_pairs at h1
      cases hg : generate_legal_moves board s cr ep with
      | nil => rfl
      | cons e rest =>
        exfalso
        have hmem : e ∈ generate_legal_moves board s cr ep := hg ▸ List.mem_cons_self _ _
        unfold generate_legal_moves at hmem
        obtain ⟨e0, _, he0⟩ := List.mem_filterMap.mp hmem
        by_cases hlt : (legal_targets board s cr ep e0.1 e0.2).isEmpty = true
        · simp [hlt] at he0
        · simp only [hlt, if_false, Bool.false_eq_true, Option.some.injEq] at he0
          rw [hg] at h1
          simp only [List.flatMap_cons, List.append_eq_nil, List.map_eq_nil_iff] at h1
          rw [← he0] at h1
          exact hlt (List.isEmpty_iff.mpr h1.1)
    · intro x hx
      obtain ⟨mv, _, rfl⟩ := List.mem_map.mp hx
      exact ⟨evaluate_board (simulate_move board mv.1 mv.2 cr ep).1 m, by simp [plain_minimax]⟩

/-- C25 (checkmate recognition, string engine): for every position, side M and depth
at least 2 with no stop flag, if a legal root move leaves the opponent in check
with no legal move, then the score of that root move is `+infinity`, and
`engine_search` returns a root move whose score is `+infinity`; it returns that
very move when no other root move scores `+infinity`. -/
theorem engine_search_finds_mate (fuel : Nat) (board : BoardMap) (m : Color) (depth : Int)
    (cr : Option Rights) (ep : Option Square) (r : Square × Target)
    (hdepth : 2 ≤ depth) (hfuel : depth ≤ fuel)
    (hroot : r ∈ root_moves board m cr ep)
    (hmate :
      generate_legal_moves (simulate_move board r.1 r.2 (some (effective_rights board cr)) ep).1
        (opponent m)
        (some (simulate_move board r.1 r.2 (some (effective_rights board cr)) ep).2.1)
        (simulate_move board r.1 r.2 (some (effective_rights board cr)) ep).2.2 = [] ∧
      is_in_check (simulate_move board r.1 r.2 (some (effective_rights board cr)) ep).1
        (opponent m) = true) :
    root_score fuel board m depth (effective_rights board cr) ep r = some ⊤ ∧
    (∃ r2, r2 ∈ root_moves board m cr ep ∧
      root_score fuel board m depth (effective_rights board cr) ep r2 = some ⊤ ∧
      engine_search fuel board m depth cr ep =
        some ⟨some r2, some ⊤, (root_moves board m cr ep).length⟩) ∧
    ((∀ r2 ∈ root_moves board m cr ep, r2 ≠ r →
        root_score fuel board m depth (effective_rights board cr) ep r2 ≠ some ⊤) →
      engine_search fuel board m depth cr ep =
        some ⟨some r, some ⊤, (root_moves board m cr ep).length⟩) := by
  obtain ⟨f, rfl⟩ : ∃ f, fuel = f + 1 := ⟨fuel - 1, by omega⟩
  have hopp : opponent m ≠ m := by cases m <;> simp [opponent]
  have hscore : root_score (f + 1) board m depth (effective_rights board cr) ep r = some ⊤ := by
    have h0 : depth - 1 ≠ 0 := by omega
    unfold root_score minimax
    simp only [Bool.false_eq_true, if_false, h0, hmate.1, hmate.2, List.isEmpty_nil, if_true,
      hopp]
  have hall : ∀ x ∈ root_moves board m cr ep,
      ∃ s, root_score (f + 1) board m depth (effective_rights board cr) ep x = some s := by
    intro x _
    obtain ⟨v, hv, _⟩ := minimax_some (f + 1)
      (simulate_move board x.1 x.2 (some (effective_rights board cr)) ep).1 m (opponent m)
      (depth - 1)
      (some (simulate_move board x.1 x.2 (some (effective_rights board cr)) ep).2.1)
      (simulate_move board x.1 x.2 (some (effective_rights board cr)) ep).2.2
      (by omega) (by push_cast; omega)
    exact ⟨v, hv⟩
  obtain ⟨d, hd, hd1, hd2, hd3, _⟩ := run_workers_spec (f + 1) board m depth
    (effective_rights board cr) ep (root_moves board m cr ep) [] hall
    (fun e he => absurd he (List.not_mem_nil e))
  obtain ⟨s, hs⟩ := hd3 r hroot
  have hs2 : s = ⊤ := by
    have := hd1 (r, s) hs
    rw [hscore] at this
    exact (Option.some.inj this).symm
  subst hs2
  obtain ⟨k, hk, hmax⟩ := find_max_top d (r, ⊤) hs rfl
  have hne : (root_moves board m cr ep).isEmpty = false := by
    cases hr : root_moves board m cr ep with
    | nil => rw [hr] at hroot; exact absurd hroot (List.not_mem_nil r)
    | cons _ _ => rfl
  have hdne : d.isEmpty = false := by
    cases hdd : d with
    | nil => rw [hdd] at hs; exact absurd hs (List.not_mem_nil _)
    | cons _ _ => rfl
  have hres : engine_search (f + 1) board m depth cr ep =
      some ⟨some k, some ⊤, (root_moves board m cr ep).length⟩ := by
    simp only [engine_search, hne, hd, hdne, hmax, Bool.false_eq_true, if_false]
  have hkroot : k ∈ root_moves board m cr ep := by
    rcases hd2 (k, ⊤) hk with h | h
    · exact absurd h (List.not_mem_nil _)
    · exact h
  have hkscore := hd1 (k, ⊤) hk
  refine ⟨hscore, ⟨k, hkroot, hkscore, hres⟩, ?_⟩
  intro huniq
  by_cases hkr : k = r
  · rw [← hkr]; exact hres
  · exact absurd hkscore (huniq k hkroot hkr)

end Engine

namespace Engine

set_option maxRecDepth 100000 in
/-- The facts about the position after 1.f3 e5 2.g4 that the search needs: Qd8-h4 is a
root move of black, it leaves white in check with no legal move, black has 30
root moves, and no other root move gives check. -/
theorem foolsMate_facts :
    (D8, Target.plain H4) ∈ root_moves foolsMate Color.black none none ∧
    (generate_legal_moves
        (simulate_move foolsMate D8 (Target.plain H4)
          (some (effective_rights foolsMate none)) none).1 Color.white
        (some (simulate_move foolsMate D8 (Target.plain H4)
          (some (effective_rights foolsMate none)) none).2.1)
        (simulate_move foolsMate D8 (Target.plain H4)
          (some (effective_rights foolsMate none)) none).2.2 = [] ∧
      is_in_check (simulate_move foolsMate D8 (Target.plain H4)
          (some (effective_rights foolsMate none)) none).1 Color.white = true) ∧
    (root_moves foolsMate Color.black none none).length = 30 ∧
    (∀ r2 ∈ root_moves foolsMate Color.black none none, r2 ≠ (D8, Target.plain H4) →
      is_in_check (simulate_move foolsMate r2.1 r2.2
        (some (effective_rights foolsMate none)) none).1 Color.white = false) := by
  decide!

theorem engine_search_finds_mate_witness :
    (D8, Target.plain H4) ∈ root_moves foolsMate Color.black none none ∧
    engine_search 2 foolsMate Color.black 2 none none =
      some ⟨some (D8, Target.plain H4), some ⊤, 30⟩ := by
  obtain ⟨hroot, hmate, hlen, hothers⟩ := foolsMate_facts
  refine ⟨hroot, ?_⟩
  have h := (engine_search_finds_mate 2 foolsMate Color.black 2 none none
    (D8, Target.plain H4) (by decide) (by decide) hroot hmate).2.2
  rw [hlen] at h
  apply h
  intro r2 hr2 hne hscore
  have hchk := hothers r2 hr2 hne
  unfold root_score at hscore
  have h1 : (2 : Int) - 1 = 1 := by norm_num
  rw [h1] at hscore
  have h2 := (minimax_depth_one_top 0 _ Color.black (opponent Color.black) _ _ (by decide)
    hscore).2
  rw [show opponent Color.black = Color.white from rfl] at h2
  rw [hchk] at h2
  exact absurd h2 (by decide)

end Engine

namespace Engine

/-! ## The user-move step of the monitor -/

theorem find_first_not_of_eq (s : List Char) :
    find_first_not_of s =
      if s.dropWhile is_blank = [] then none else some (s.takeWhile is_blank).length := by
  induction s with
  | nil => rfl
  | cons c cs ih =>
    unfold find_first_not_of
    by_cases hc : is_blank c = true
    · rw [if_pos hc, ih]
      simp only [List.dropWhile_cons, List.takeWhile_cons, hc, if_true]
      split_ifs <;> simp
    · simp [hc]

theorem drop_takeWhile_length (p : Char → Bool) (s : List Char) :
    s.drop (s.takeWhile p).length = s.dropWhile p := by
  have h := List.drop_left (s.takeWhile p) (s.dropWhile p)
  rwa [List.takeWhile_append_dropWhile] at h

theorem take_sub_eq_reverse_drop (t : List Char) (k : Nat) :
    t.take (t.length - k) = (t.reverse.drop k).reverse := by
  rw [List.drop_reverse, List.reverse_reverse]

/-- When the upper-cased string has a character that is not blank, the code's
normalisation removes exactly the blanks at both ends. -/
theorem normalize_eq_strip (s : List Char) (h : s.dropWhile is_blank ≠ []) :
    remove_spaces s = strip s := by
  have hsplit : s = s.takeWhile is_blank ++ s.dropWhile is_blank :=
    (List.takeWhile_append_dropWhile is_blank s).symm
  -- the reversed string has a character that is not blank too
  have hrev : (s.dropWhile is_blank).reverse.dropWhile is_blank ≠ [] := by
    cases ht : s.dropWhile is_blank with
    | nil => exact absurd ht h
    | cons c cs =>
      have hc : is_blank c = false := by
        have := List.head_dropWhile_not is_blank s (by rw [ht]; simp)
        simpa [ht] using this
      intro hnil
      have hall := List.dropWhile_eq_nil_iff.mp hnil
      have := hall c (by simp)
      rw [hc] at this
      exact absurd this (by decide)
  have hrev2 : s.reverse.dropWhile is_blank ≠ [] := by
    intro hnil
    apply hrev
    rw [List.dropWhile_eq_nil_iff] at hnil ⊢
    intro x hx
    apply hnil
    rw [List.mem_reverse] at hx ⊢
    rw [hsplit]
    exact List.mem_append_right _ hx
  -- the leading blanks of the reversed string are those of the reversed tail
  have htw : s.reverse.takeWhile is_blank =
      (s.dropWhile is_blank).reverse.takeWhile is_blank := by
    conv_lhs => rw [hsplit, List.reverse_append]
    generalize (s.dropWhile is_blank).reverse = t at hrev ⊢
    generalize (s.takeWhile is_blank).reverse = q
    induction t with
    | nil => exact absurd rfl hrev
    | cons c cs ih =>
      by_cases hc : is_blank c = true
      · simp only [List.cons_append, List.takeWhile_cons, hc, if_true]
        rw [ih]
        simpa [List.dropWhile_cons, hc] using hrev
      · simp [List.takeWhile_cons, hc]
  have hk : ((s.dropWhile is_blank).reverse.takeWhile is_blank).length <
      (s.dropWhile is_blank).length := by
    have h1 := congrArg List.length
      (List.takeWhile_append_dropWhile is_blank (s.dropWhile is_blank).reverse)
    rw [List.length_append, List.length_reverse] at h1
    have h2 : 0 < ((s.dropWhile is_blank).reverse.dropWhile is_blank).length :=
      List.length_pos.mpr hrev
    omega
  have hlen : s.length = (s.takeWhile is_blank).length + (s.dropWhile is_blank).length := by
    conv_lhs => rw [hsplit]
    rw [List.length_append]
  unfold remove_spaces find_last_not_of
  rw [find_first_not_of_eq s, find_first_not_of_eq s.reverse, if_neg h, if_neg hrev2]
  simp only [Option.map_some']
  unfold substr strip
  rw [drop_takeWhile_length, htw]
  have hcount : s.length - 1 - ((s.dropWhile is_blank).reverse.takeWhile is_blank).length -
      (s.takeWhile is_blank).length + 1 =
      (s.dropWhile is_blank).length -
        ((s.dropWhile is_blank).reverse.takeWhile is_blank).length := by omega
  rw [hcount, take_sub_eq_reverse_drop, drop_takeWhile_length]

/-- The key of a root move starts with a letter, which is not blank. -/
theorem key_string_not_blank (r : Square × Target) :
    ∃ c rest, key_string r = c :: rest ∧ is_blank c = false := by
  refine ⟨['A', 'B', 'C', 'D', 'E', 'F', 'G', 'H'].getD r.1.col.toNat '?', _, rfl, ?_⟩
  generalize r.1.col.toNat = n
  rcases Nat.lt_or_ge n 8 with h | h
  · interval_cases n <;> decide
  · have h2 : ['A', 'B', 'C', 'D', 'E', 'F', 'G', 'H'].getD n '?' = '?' := by
      rw [List.getD_eq_default]
      exact h
    rw [h2]
    decide

/-- The normalised string of the code equals a root key exactly when the upper-cased,
stripped string does. -/
theorem normalize_eq_key_iff (u : List Char) (r : Square × Target) :
    normalize_user_move u = key_string r ↔ normalized u = key_string r := by
  obtain ⟨c, rest, hkey, hc⟩ := key_string_not_blank r
  unfold normalize_user_move normalized
  by_cases h : (u.map toupper).dropWhile is_blank = []
  · -- all blank: neither string is a key
    have h1 : find_first_not_of (u.map toupper) = none := by
      rw [find_first_not_of_eq, if_pos h]
    have h2 : strip (u.map toupper) = [] := by
      unfold strip
      rw [h]
      rfl
    simp only [remove_spaces, h1, h2, hkey]
    constructor
    · intro he
      exfalso
      have hall := List.dropWhile_eq_nil_iff.mp h
      have := hall c (by rw [he]; simp)
      rw [hc] at this
      exact absurd this (by decide)
    · intro he
      exact absurd he (by simp)
  · rw [normalize_eq_strip _ h]

/-- C29 (selective cancel decision, string engine): for worker flags keyed by root
keys and a non-empty announced string `u`, with `n` the string `u` upper-cased and
with the blanks (space, tab, newline, carriage return) removed at both ends: if
`n` is one of the keys, the step sets the flag of every other key, leaves the
entry of `n` as it was and leaves the global stop flag as it was; otherwise it
sets the global stop flag and leaves the worker flags as they were. -/
theorem monitor_user_move_spec (flags : MonitorFlags) (u : List Char) (hu : u ≠ [])
    (hK : ∀ kv ∈ flags.worker_events, ∃ r, kv.1 = key_string r) :
    ((∃ kv ∈ flags.worker_events, kv.1 = normalized u) →
      (monitor_user_move flags u).master_stop_event = flags.master_stop_event ∧
      (monitor_user_move flags u).worker_events =
        flags.worker_events.map fun kv => if kv.1 = normalized u then kv else (kv.1, true)) ∧
    ((¬ ∃ kv ∈ flags.worker_events, kv.1 = normalized u) →
      (monitor_user_move flags u).master_stop_event = true ∧
      (monitor_user_move flags u).worker_events = flags.worker_events) := by
  have hkey : ∀ kv ∈ flags.worker_events,
      (kv.1 = normalize_user_move u ↔ kv.1 = normalized u) := by
    intro kv hkv
    obtain ⟨r, hr⟩ := hK kv hkv
    rw [hr]
    constructor
    · intro h; exact ((normalize_eq_key_iff u r).mp h.symm).symm
    · intro h; exact ((normalize_eq_key_iff u r).mpr h.symm).symm
  have hne : u.isEmpty = false := by
    cases u with
    | nil => exact absurd rfl hu
    | cons _ _ => rfl
  have hany : (flags.worker_events.any fun kv => decide (kv.1 = normalize_user_move u)) = true ↔
      ∃ kv ∈ flags.worker_events, kv.1 = normalized u := by
    rw [List.any_eq_true]
    constructor
    · rintro ⟨kv, hkv, h⟩
      exact ⟨kv, hkv, (hkey kv hkv).mp (of_decide_eq_true h)⟩
    · rintro ⟨kv, hkv, h⟩
      exact ⟨kv, hkv, decide_eq_true ((hkey kv hkv).mpr h)⟩
  constructor
  · intro hin
    have h1 := hany.mpr hin
    simp only [monitor_user_move, hne, h1, Bool.false_eq_true, if_false, if_true]
    refine ⟨trivial, ?_⟩
    apply List.map_congr_left
    intro kv hkv
    by_cases hk : kv.1 = normalized u
    · have hk2 := (hkey kv hkv).mpr hk
      rw [if_neg (not_not.mpr hk2), if_pos hk]
    · have hk2 : ¬ kv.1 = normalize_user_move u := fun h => hk ((hkey kv hkv).mp h)
      rw [if_pos hk2, if_neg hk]
  · intro hnot
    have h1 : ¬ (flags.worker_events.any fun kv => decide (kv.1 = normalize_user_move u)) = true :=
      fun h => hnot (hany.mp h)
    simp only [monitor_user_move, hne, h1, Bool.false_eq_true, if_false]
    exact ⟨trivial, trivial⟩

theorem monitor_user_move_spec_witness :
    (monitor_user_move
        ⟨[(key_string (E1, Target.plain G1), false), (key_string (D8, Target.plain H4), false)],
          false⟩ (String.toList " d8h4 ")).worker_events =
      [(key_string (E1, Target.plain G1), true), (key_string (D8, Target.plain H4), false)] :=
  ((monitor_user_move_spec
    ⟨[(key_string (E1, Target.plain G1), false), (key_string (D8, Target.plain H4), false)],
      false⟩ (String.toList " d8h4 ") (by decide)
    (by
      intro kv hkv
      simp only [List.mem_cons, List.mem_singleton, List.not_mem_nil, or_false] at hkv
      rcases hkv with rfl | rfl
      · exact ⟨_, rfl⟩
      · exact ⟨_, rfl⟩)).1
    ⟨_, List.mem_cons_of_mem _ (List.mem_cons_self _ _), by decide⟩).2.trans (by decide)

end Engine

namespace Replit
open Piece

/-! ## Transposition table and root search of the array engine -/

set_option maxRecDepth 100000 in
/-- C21 (the transposition table and search results, array engine), evaluated at a
position with white king h1, black bishop g2 and black king f3, white to move and
maximizing, depth 4, full window: `minimax` returns -330 without a table and 0
with a freshly constructed table. -/
theorem table_changes_minimax_value :
    (minimax 5 bishopCheck true true 4 ⊥ ⊤ false none).map Prod.fst =
      some ((-330 : Int) : Score) ∧
    (minimax 5 bishopCheck true true 4 ⊥ ⊤ false (some TranspositionTable.fresh)).map Prod.fst =
      some (0 : Score) := by
  decide!

set_option maxRecDepth 100000 in
/-- The result of `engine_search` on the same position at depth 4 depends on which
worker fetches which root move: one worker searching both root moves returns
Kg1 with score 0, two workers with one root move each return Kh2 with score -330. -/
theorem engine_search_depends_on_workers :
    engine_search 5 bishopCheck true 4 [[0, 1]] = some (⟨7, 6⟩, some (0 : Score)) ∧
    engine_search 5 bishopCheck true 4 [[0], [1]] =
      some (⟨7, 15⟩, some ((-330 : Int) : Score)) := by
  decide!

end Replit

namespace Replit
open Piece

/-- When the side to move has no legal move, `engine_search` returns the
default-constructed move `Move(0, 0)` with NaN. -/
theorem array_search_no_legal_moves (fuel : Nat) (state : GameState) (white : Bool)
    (depth : Int) (assignment : List (List Nat))
    (h : generate_legal_moves state white = []) :
    engine_search fuel state white depth assignment = some (Move.mk 0 0, none) := by
  simp [engine_search, h]

/-- C24 (absence of a move at the string interface of the array engine), evaluated on
the stalemate board with the black king on a1, the white king on c2 and the white
queen on b3, black to move: black has no legal move, and `engine_search_legacy`
returns the square name "A1" as origin and as destination, with NaN, whatever
the depth and the number of workers. -/
theorem legacy_names_a1_for_missing_move (fuel : Nat) (depth : Int)
    (assignment : List (List Nat)) :
    generate_legal_moves (legacy_state Engine.stalemateBoard) false = [] ∧
    engine_search_legacy fuel Engine.stalemateBoard false depth assignment =
      some (['A', '1'], ['A', '1'], none) := by
  have h : generate_legal_moves (legacy_state Engine.stalemateBoard) false = [] := by decide
  refine ⟨h, ?_⟩
  unfold engine_search_legacy
  rw [array_search_no_legal_moves fuel _ false depth assignment h]
  decide

set_option maxRecDepth 100000 in
/-- C28 (cancellation safety, array engine), evaluated at the position with white king
h1, black bishop g2, black king f3, depth 2, for a worker that fetches root move 0
(Kh2) and sees the stop flag set at its third load, inside `minimax`: the aborted
call returns `+infinity`, the worker stores it in `scores[0]`, and the
aggregation selects index 0 with score `+infinity`. A run to the end gives -330
for that root move. -/
theorem aborted_search_is_published :
    order_moves bishopCheck.board (generate_legal_moves bishopCheck true) =
      [⟨7, 15⟩, ⟨7, 6⟩] ∧
    (minimax_clock 2 (apply_move bishopCheck ⟨7, 15⟩) true false 1 ⊥ ⊤ (some 1)
        TranspositionTable.fresh).map (fun r => (r.1, r.2.2)) = some (⊤, some 0) ∧
    worker_loop 2 bishopCheck true 2 [⟨7, 15⟩, ⟨7, 6⟩] [0, 1] (some 2)
        TranspositionTable.fresh [none, none] = some ([some ⊤, none], some 0) ∧
    find_best [some ⊤, none] 0 (-1, ⊥) = (0, ⊤) ∧
    worker_loop 2 bishopCheck true 2 [⟨7, 15⟩, ⟨7, 6⟩] [0] none
        TranspositionTable.fresh [none, none] =
      some ([some ((-330 : Int) : Score), none], none) := by
  decide!

/-! ## Perft of the array engine -/

set_option maxRecDepth 100000 in
/-- From the initial position there are 20 move sequences of length 1. -/
theorem perft_one : perft 1 startState true = 20 := by
  decide!

set_option maxRecDepth 100000 in
/-- From the initial position there are 400 move sequences of length 2. -/
theorem perft_two : perft 2 startState true = 400 := by
  decide!

set_option maxRecDepth 100000 in
/-- C27 (perft at depth 4, array engine), evaluated along 1.e4 e5 2.Nf3: the three
moves are legal moves of the engine in turn, and in the position reached the
engine lists 28 moves for black, none of them from e8, although e7 is empty and
not attacked by white: the king move e8-e7, which is part of the 197281 sequences
of length 4, is not generated. -/
theorem black_king_move_missing_at_depth_four :
    Move.mk 12 28 ∈ generate_legal_moves startState true ∧
    Move.mk 52 36 ∈ generate_legal_moves (apply_move startState ⟨12, 28⟩) false ∧
    Move.mk 6 21 ∈
      generate_legal_moves (apply_move (apply_move startState ⟨12, 28⟩) ⟨52, 36⟩) true ∧
    afterKnightF3.board 60 = B_KING ∧ afterKnightF3.board 52 = EMPTY ∧
    is_square_attacked afterKnightF3.board 52 true = false ∧
    (generate_legal_moves afterKnightF3 false).length = 28 ∧
    (∀ m ∈ generate_legal_moves afterKnightF3 false, m.from_ ≠ 60) := by
  decide!

end Replit

namespace Replit
open Piece

/-! ## Pawn pushes and en passant in the array engine -/

/-- The moves pushed by `generate_pawn_moves`, in terms of the file `f = p % 8` and
rank `r = p / 8` of the origin and the direction `dir`. -/
theorem mem_generate_pawn_moves (board : Board) (p : Int) (c : Bool) (e : Int) (m : Move)
    (hp : 0 ≤ p ∧ p < 64) :
    m ∈ generate_pawn_moves board p c e ↔
      (in_bounds (p % 8) (p / 8 + (if c then 1 else -1)) = true ∧
        board (make_square (p % 8) (p / 8 + (if c then 1 else -1))) = EMPTY ∧
        (m = ⟨p, make_square (p % 8) (p / 8 + (if c then 1 else -1))⟩ ∨
          (p / 8 = (if c then 1 else 6) ∧
            board (make_square (p % 8) (p / 8 + 2 * (if c then 1 else -1))) = EMPTY ∧
            m = ⟨p, make_square (p % 8) (p / 8 + 2 * (if c then 1 else -1))⟩))) ∨
      (∃ df : Int, (df = -1 ∨ df = 1) ∧
        in_bounds (p % 8 + df) (p / 8 + (if c then 1 else -1)) = true ∧
        m = ⟨p, make_square (p % 8 + df) (p / 8 + (if c then 1 else -1))⟩ ∧
        ((board (make_square (p % 8 + df) (p / 8 + (if c then 1 else -1))) ≠ EMPTY ∧
            is_color (board (make_square (p % 8 + df) (p / 8 + (if c then 1 else -1)))) (!c)
              = true) ∨
          (0 ≤ e ∧ make_square (p % 8 + df) (p / 8 + (if c then 1 else -1)) = e ∧
            board (make_square (p % 8 + df) (p / 8)) = pawn_of (!c)))) := by
  have hF := square_to_file_eq p hp.1 hp.2
  have hR := square_to_rank_eq p hp.1 hp.2
  have hx : (if c then B_PAWN else W_PAWN) = pawn_of (!c) := by cases c <;> rfl
  unfold generate_pawn_moves pawn_forward_moves pawn_capture_moves
  simp only [List.mem_flatMap, List.mem_cons, List.mem_singleton,
    List.not_mem_nil, or_false, hF, hR, hx]
  rw [List.mem_append]
  simp only [List.mem_flatMap, List.mem_cons, List.mem_singleton,
    List.not_mem_nil, or_false]
  generalize (if c then (1 : Int) else -1) = dir
  generalize (if c then (1 : Int) else 6) = start
  constructor
  · rintro (h | ⟨df, hdf, h⟩)
    · left
      split_ifs at h with hb he hs2 hd
      all_goals simp only [List.mem_cons, List.mem_singleton, List.not_mem_nil, or_false] at h
      all_goals simp only [is_empty, decide_eq_true_eq] at he
      · rcases h with h | h
        · exact ⟨hb, he, Or.inl h⟩
        · simp only [is_empty, decide_eq_true_eq] at hd
          exact ⟨hb, he, Or.inr ⟨hs2, hd, h⟩⟩
      · exact ⟨hb, he, Or.inl h⟩
      · exact ⟨hb, he, Or.inl h⟩
    · right
      refine ⟨df, hdf, ?_⟩
      by_cases hb : in_bounds (p % 8 + df) (p / 8 + dir) = true
      · rw [if_pos hb] at h
        refine ⟨hb, ?_⟩
        rcases List.mem_append.mp h with h | h
        · by_cases hc : (!is_empty (board (make_square (p % 8 + df) (p / 8 + dir))) &&
              is_color (board (make_square (p % 8 + df) (p / 8 + dir))) (!c)) = true
          · rw [if_pos hc] at h
            simp only [Bool.and_eq_true, Bool.not_eq_true', is_empty,
              decide_eq_false_iff_not] at hc
            exact ⟨List.mem_singleton.mp h, Or.inl hc⟩
          · rw [if_neg hc] at h
            exact absurd h (List.not_mem_nil _)
        · by_cases hc : (decide (0 ≤ e) &&
              decide (make_square (p % 8 + df) (p / 8 + dir) = e)) = true
          · rw [if_pos hc] at h
            by_cases hv : board (make_square (p % 8 + df) (p / 8)) = pawn_of (!c)
            · rw [if_pos hv] at h
              simp only [Bool.and_eq_true, decide_eq_true_eq] at hc
              exact ⟨List.mem_singleton.mp h, Or.inr ⟨hc.1, hc.2, hv⟩⟩
            · rw [if_neg hv] at h
              exact absurd h (List.not_mem_nil _)
          · rw [if_neg hc] at h
            exact absurd h (List.not_mem_nil _)
      · rw [if_neg hb] at h
        exact absurd h (List.not_mem_nil _)
  · rintro (⟨hb, he, h⟩ | ⟨df, hdf, hb, hm, h⟩)
    · left
      have he2 : is_empty (board (make_square (p % 8) (p / 8 + dir))) = true := by
        simp [is_empty, he]
      rw [if_pos hb, if_pos he2]
      rcases h with h | ⟨hs2, hd, h⟩
      · exact List.mem_cons.mpr (Or.inl h)
      · have hd2 : is_empty (board (make_square (p % 8) (p / 8 + 2 * dir))) = true := by
          simp [is_empty, hd]
        rw [if_pos hs2, if_pos hd2]
        exact List.mem_cons_of_mem _ (List.mem_singleton.mpr h)
    · right
      refine ⟨df, hdf, ?_⟩
      rw [if_pos hb]
      apply List.mem_append.mpr
      rcases h with ⟨h1, h2⟩ | ⟨h1, h2, h3⟩
      · left
        have hc : (!is_empty (board (make_square (p % 8 + df) (p / 8 + dir))) &&
            is_color (board (make_square (p % 8 + df) (p / 8 + dir))) (!c)) = true := by
          simp [is_empty, h1, h2]
        rw [if_pos hc]
        exact List.mem_singleton.mpr hm
      · right
        have hc : (decide (0 ≤ e) && decide (make_square (p % 8 + df) (p / 8 + dir) = e)) = true := by
          simp [h1, h2]
        rw [if_pos hc, if_pos h3]
        exact List.mem_singleton.mpr hm

end Replit

namespace Replit
open Piece

/-- C30 (pawn pushes and en passant, array engine): for every board, every square `p`
in `0..63` that is not on the last rank of side `c` (in particular the square of a
pawn of side `c`) and every en-passant target `e`, with `dir` = +1 for white and
-1 for black: `generate_pawn_moves` emits the single push `p -> p + 8 dir` exactly
when that square is empty; it emits the double push `p -> p + 16 dir` exactly
when `p` is on the home rank and both squares ahead are empty; and it emits a
move to an empty diagonal-forward square `t` exactly when `t = e` and a pawn of
the other side stands on `p`'s rank in `t`'s file. -/
theorem pawn_pushes_and_en_passant (board : Board) (p : Int) (c : Bool) (e : Int)
    (hp : 0 ≤ p ∧ p < 64) (hlast : p / 8 ≠ (if c then 7 else 0)) :
    (Move.mk p (p + 8 * (if c then 1 else -1)) ∈ generate_pawn_moves board p c e ↔
      board (p + 8 * (if c then 1 else -1)) = EMPTY) ∧
    (Move.mk p (p + 16 * (if c then 1 else -1)) ∈ generate_pawn_moves board p c e ↔
      (p / 8 = (if c then 1 else 6) ∧ board (p + 8 * (if c then 1 else -1)) = EMPTY ∧
        board (p + 16 * (if c then 1 else -1)) = EMPTY)) ∧
    (∀ t : Int, 0 ≤ t → t < 64 → t / 8 = p / 8 + (if c then 1 else -1) →
      (t % 8 - p % 8).natAbs = 1 → board t = EMPTY →
      (Move.mk p t ∈ generate_pawn_moves board p c e ↔
        (t = e ∧ board (p / 8 * 8 + t % 8) = pawn_of (!c)))) := by
  have hcases : ((if c then (1 : Int) else -1) = 1 ∧ (if c then (1 : Int) else 6) = 1 ∧
        (if c then (7 : Int) else 0) = 7) ∨
      ((if c then (1 : Int) else -1) = -1 ∧ (if c then (1 : Int) else 6) = 6 ∧
        (if c then (7 : Int) else 0) = 0) := by
    cases c <;> simp
  have hmem := fun m => mem_generate_pawn_moves board p c e m hp
  revert hlast hmem
  generalize (if c then (1 : Int) else -1) = dir at hcases ⊢
  generalize (if c then (1 : Int) else 6) = start at hcases ⊢
  generalize (if c then (7 : Int) else 0) = last at hcases ⊢
  intro hlast hmem
  have hr : 0 ≤ p / 8 + dir ∧ p / 8 + dir ≤ 7 := by omega
  have hf : 0 ≤ p % 8 ∧ p % 8 ≤ 7 := by omega
  have hb : in_bounds (p % 8) (p / 8 + dir) = true :=
    (in_bounds_iff _ _).mpr ⟨hf.1, hf.2, hr.1, hr.2⟩
  have hm1 : make_square (p % 8) (p / 8 + dir) = p + 8 * dir := by
    rw [make_square_eq _ _ hf.1 hf.2 hr.1 hr.2]; omega
  have hm2 : p / 8 = start → make_square (p % 8) (p / 8 + 2 * dir) = p + 16 * dir := by
    intro hs
    rw [make_square_eq _ _ hf.1 hf.2 (by omega) (by omega)]; omega
  have hcap : ∀ df : Int, (df = -1 ∨ df = 1) → in_bounds (p % 8 + df) (p / 8 + dir) = true →
      make_square (p % 8 + df) (p / 8 + dir) = p + 8 * dir + df ∧
      make_square (p % 8 + df) (p / 8) = p / 8 * 8 + (p % 8 + df) ∧
      0 ≤ p % 8 + df ∧ p % 8 + df ≤ 7 := by
    intro df _ hbd
    have h := (in_bounds_iff _ _).mp hbd
    rw [make_square_eq _ _ h.1 h.2.1 h.2.2.1 h.2.2.2,
      make_square_eq _ _ h.1 h.2.1 (by omega) (by omega)]
    omega
  refine ⟨?_, ?_, ?_⟩
  · rw [hmem]
    constructor
    · rintro (⟨_, he, _⟩ | ⟨df, hdf, hbd, hm, _⟩)
      · rw [← hm1]; exact he
      · exfalso
        have h := (hcap df hdf hbd).1
        simp only [Move.mk.injEq, true_and] at hm
        omega
    · intro he
      exact Or.inl ⟨hb, by rw [hm1]; exact he, Or.inl (by rw [hm1])⟩
  · rw [hmem]
    constructor
    · rintro (⟨_, he, h | ⟨hs, hd, _⟩⟩ | ⟨df, hdf, hbd, hm, _⟩)
      · exfalso
        simp only [Move.mk.injEq, true_and] at h
        omega
      · rw [hm1] at he
        rw [hm2 hs] at hd
        exact ⟨hs, he, hd⟩
      · exfalso
        have h := (hcap df hdf hbd).1
        simp only [Move.mk.injEq, true_and] at hm
        omega
    · rintro ⟨hs, he, hd⟩
      exact Or.inl ⟨hb, by rw [hm1]; exact he,
        Or.inr ⟨hs, by rw [hm2 hs]; exact hd, by rw [hm2 hs]⟩⟩
  · intro t ht0 ht1 htr htf hte
    rw [hmem]
    constructor
    · rintro (⟨_, _, h | ⟨hs, _, h⟩⟩ | ⟨df, hdf, hbd, hm, h⟩)
      · exfalso
        simp only [Move.mk.injEq, true_and] at h
        omega
      · exfalso
        simp only [Move.mk.injEq, true_and] at h
        rw [hm2 hs] at h
        omega
      · obtain ⟨h1, h2, h3, h4⟩ := hcap df hdf hbd
        simp only [Move.mk.injEq, true_and] at hm
        rw [h1] at hm
        rcases h with ⟨hne, _⟩ | ⟨_, hte2, hv⟩
        · rw [h1, ← hm] at hne
          exact absurd hte hne
        · rw [h1, ← hm] at hte2
          rw [h2] at hv
          have h5 : p % 8 + df = t % 8 := by omega
          rw [h5] at hv
          exact ⟨hte2, hv⟩
    · rintro ⟨hte2, hv⟩
      right
      have hdf : t % 8 - p % 8 = -1 ∨ t % 8 - p % 8 = 1 := by omega
      have hbd : in_bounds (p % 8 + (t % 8 - p % 8)) (p / 8 + dir) = true :=
        (in_bounds_iff _ _).mpr (by omega)
      obtain ⟨h1, h2, _, _⟩ := hcap _ hdf hbd
      refine ⟨t % 8 - p % 8, hdf, hbd, ?_, Or.inr ⟨by omega, ?_, ?_⟩⟩
      · rw [h1]
        simp only [Move.mk.injEq, true_and]
        omega
      · rw [h1]; omega
      · rw [h2]
        have h5 : p % 8 + (t % 8 - p % 8) = t % 8 := by omega
        rw [h5]
        exact hv

theorem pawn_pushes_and_en_passant_witness :
    (Move.mk 36 44 ∈ generate_pawn_moves enPassantReady.board 36 true 43 ↔
      enPassantReady.board 44 = EMPTY) ∧
    Move.mk 36 43 ∈ generate_pawn_moves enPassantReady.board 36 true 43 :=
  ⟨(pawn_pushes_and_en_passant enPassantReady.board 36 true 43 (by decide) (by decide)).1,
    ((pawn_pushes_and_en_passant enPassantReady.board 36 true 43 (by decide)
      (by decide)).2.2 43 (by decide) (by decide) (by decide) (by decide) (by decide)).mpr
      ⟨rfl, by decide⟩⟩

end Replit

namespace Replit
open Piece

/-! ## Squares `apply_move` leaves alone, and the shape of generated moves -/

theorem apply_move_board_unchanged (s : GameState) (m : Move) (i : Int)
    (h1 : i ≠ m.from_) (h2 : i ≠ m.to_)
    (h3 : piece_type (s.board m.from_) = 6 →
      i ∉ castling_rook_squares (is_white (s.board m.from_)) m)
    (h4 : piece_type (s.board m.from_) = 1 → m.to_ = s.en_passant →
      i ≠ en_passant_victim (is_white (s.board m.from_)) m) :
    (apply_move s m).board i = s.board i := by
  have hb1 : ((s.board.set m.to_ (s.board m.from_)).set m.from_ EMPTY) i = s.board i := by
    simp [Board.set, h1, h2]
  have hb2 : moved_board s m i = s.board i := by
    unfold moved_board
    by_cases h6 : piece_type (s.board m.from_) = 6
    · rw [if_pos h6]
      have h3b := h3 h6
      unfold castling_rook_squares at h3b
      unfold castle_rook_board
      split_ifs at h3b ⊢ <;>
        simp only [List.mem_cons, List.mem_singleton, List.not_mem_nil, or_false,
          not_or] at h3b <;>
        simp [Board.set, h3b, h1, h2]
    · rw [if_neg h6]; exact hb1
  rw [apply_move_board_raw]
  by_cases hep : piece_type (s.board m.from_) = 1 ∧ m.to_ = s.en_passant
  · rw [if_pos hep]
    by_cases hr : 0 ≤ en_passant_victim (is_white (s.board m.from_)) m ∧
        en_passant_victim (is_white (s.board m.from_)) m < 64
    · rw [if_pos hr]
      simp only [Board.set]
      rw [if_neg (h4 hep.1 hep.2)]
      exact hb2
    · rw [if_neg hr]
      exact hb2
  · rw [if_neg hep]
    exact hb2

/-- After a move of a piece other than a king between two different squares, with the
en-passant victim square not the destination, the destination holds the moved
piece. -/
theorem apply_move_board_to (s : GameState) (m : Move) (hne : m.to_ ≠ m.from_)
    (h6 : piece_type (s.board m.from_) ≠ 6)
    (hv : en_passant_victim (is_white (s.board m.from_)) m ≠ m.to_) :
    (apply_move s m).board m.to_ = s.board m.from_ := by
  have hb2 : moved_board s m m.to_ = s.board m.from_ := by
    unfold moved_board
    rw [if_neg h6]
    simp only [Board.set]
    rw [if_neg hne]
    simp
  rw [apply_move_board_raw]
  by_cases hep : piece_type (s.board m.from_) = 1 ∧ m.to_ = s.en_passant
  · rw [if_pos hep]
    by_cases hr : 0 ≤ en_passant_victim (is_white (s.board m.from_)) m ∧
        en_passant_victim (is_white (s.board m.from_)) m < 64
    · rw [if_pos hr]
      simp only [Board.set]
      rw [if_neg (Ne.symm hv)]
      exact hb2
    · rw [if_neg hr]
      exact hb2
  · rw [if_neg hep]
    exact hb2

theorem mem_castling_moves (board : Board) (white : Bool) (c : Option CastlingRights)
    (m : Move) (hm : m ∈ castling_moves board white c) :
    m = ⟨4, 6⟩ ∨ m = ⟨4, 2⟩ ∨ m = ⟨60, 62⟩ ∨ m = ⟨60, 58⟩ := by
  cases c with
  | none => simp [castling_moves] at hm
  | some r =>
    unfold castling_moves at hm
    simp only at hm
    have e1 : make_square 4 0 = 4 := rfl
    have e2 : make_square 6 0 = 6 := rfl
    have e3 : make_square 2 0 = 2 := rfl
    have e4 : make_square 4 7 = 60 := rfl
    have e5 : make_square 6 7 = 62 := rfl
    have e6 : make_square 2 7 = 58 := rfl
    rw [e1, e2, e3, e4, e5, e6] at hm
    split_ifs at hm <;> simp at hm <;> tauto

/-- A move pushed for square `sq` either starts on `sq` (and is a pawn move when the
piece there is a pawn) or is one of the castling moves pushed for a king. -/
theorem moves_from_square_cases (s : GameState) (w : Bool) (sq : Int) (m : Move)
    (h0 : 0 ≤ sq) (h1 : sq < 64) (hm : m ∈ moves_from_square s w sq) :
    is_color (s.board sq) w = true ∧
    ((m.from_ = sq ∧
        (piece_type (s.board sq) = 1 → m ∈ generate_pawn_moves s.board sq w s.en_passant)) ∨
      (piece_type (s.board sq) = 6 ∧ m ∈ castling_moves s.board w (some s.castling))) := by
  unfold moves_from_square at hm
  simp only at hm
  by_cases hcol : is_color (s.board sq) w = true
  · refine ⟨hcol, ?_⟩
    simp only [hcol, Bool.not_true, Bool.false_eq_true, if_false] at hm
    split_ifs at hm with p1 p2 p3 p4 p5 p6
    · left
      refine ⟨?_, fun _ => hm⟩
      rcases List.mem_append.mp hm with h | h
      · exact (pawn_forward_moves_spec _ _ _ _ h0 h1 h).1
      · obtain ⟨df, _, hdf⟩ := List.mem_flatMap.mp h
        have := (pawn_capture_moves_spec _ _ _ _ _ _ hdf).2.1
        rw [this]
    · exact Or.inl ⟨generate_knight_moves_from _ _ _ _ hm, fun h => absurd h p1⟩
    · exact Or.inl ⟨generate_sliding_moves_from _ _ _ _ _ hm, fun h => absurd h p1⟩
    · exact Or.inl ⟨generate_sliding_moves_from _ _ _ _ _ hm, fun h => absurd h p1⟩
    · left
      refine ⟨?_, fun h => absurd h p1⟩
      rcases List.mem_append.mp hm with h | h <;> exact generate_sliding_moves_from _ _ _ _ _ h
    · rcases List.mem_append.mp hm with h | h
      · exact Or.inl ⟨king_step_moves_from _ _ _ _ h, fun h => absurd h p1⟩
      · exact Or.inr ⟨p6, h⟩
    · simp at hm
  · simp [hcol] at hm

/-- The shape of a generated pawn move: one step forward, two steps forward from the
start rank, or one step diagonally forward; the destination is on the board. -/
theorem pawn_move_shape (board : Board) (p : Int) (c : Bool) (e : Int) (m : Move)
    (hp : 0 ≤ p ∧ p < 64) (hm : m ∈ generate_pawn_moves board p c e) :
    m.from_ = p ∧ 0 ≤ m.to_ ∧ m.to_ < 64 ∧
    ((m.to_ / 8 = p / 8 + (if c then 1 else -1) ∧
        (m.to_ % 8 - p % 8 = 0 ∨ m.to_ % 8 - p % 8 = 1 ∨ m.to_ % 8 - p % 8 = -1)) ∨
      (p / 8 = (if c then 1 else 6) ∧ m.to_ = p + (if c then 16 else -16))) := by
  rw [mem_generate_pawn_moves board p c e m hp] at hm
  have hf0 : 0 ≤ p % 8 := by omega
  have hf1 : p % 8 ≤ 7 := by omega
  rcases hm with ⟨hib, _, hm1 | ⟨hstart, _, hm2⟩⟩ | ⟨df, hdf, hib, hm3, _⟩
  · rw [in_bounds_iff] at hib
    subst hm1
    have := make_square_eq (p % 8) (p / 8 + (if c then 1 else -1)) hf0 hf1 hib.2.2.1 hib.2.2.2
    simp only
    cases c <;> simp only [Bool.false_eq_true, if_false, if_true] at hib this ⊢ <;> rw [this] <;>
      exact ⟨trivial, by omega, by omega, Or.inl (by omega)⟩
  · subst hm2
    have hr : 0 ≤ p / 8 + 2 * (if c then 1 else -1) ∧ p / 8 + 2 * (if c then 1 else -1) ≤ 7 := by
      cases c <;> simp only [Bool.false_eq_true, if_false, if_true] at hstart ⊢ <;> omega
    have := make_square_eq (p % 8) (p / 8 + 2 * (if c then 1 else -1)) hf0 hf1 hr.1 hr.2
    simp only
    cases c <;> simp only [Bool.false_eq_true, if_false, if_true] at hstart this ⊢ <;> rw [this] <;>
      exact ⟨trivial, by omega, by omega, Or.inr (by omega)⟩
  · rw [in_bounds_iff] at hib
    subst hm3
    have := make_square_eq (p % 8 + df) (p / 8 + (if c then 1 else -1)) hib.1 hib.2.1
      hib.2.2.1 hib.2.2.2
    simp only
    cases c <;> simp only [Bool.false_eq_true, if_false, if_true] at hib this ⊢ <;>
      rcases hdf with h | h <;> subst h <;> rw [this] <;>
      exact ⟨trivial, by omega, by omega, Or.inl (by omega)⟩

end Replit

namespace Replit
open Piece

/-! ## Square encoding -/

/-- On the 64 squares the string functions agree with the typed ones used by the
rest of the development. -/
theorem square_strings_agree (col row : Int) (h0 : 0 ≤ col) (h1 : col ≤ 7) (h2 : 0 ≤ row)
    (h3 : row ≤ 7) :
    Engine.coords_to_square_string col row = Engine.square_name ⟨col, row⟩ ∧
    parse_square_string (Engine.square_name ⟨col, row⟩) = parse_square ⟨col, row⟩ ∧
    Engine.square_to_coords_string (Engine.square_name ⟨col, row⟩) =
      Engine.square_to_coords ⟨col, row⟩ := by
  interval_cases col <;> interval_cases row <;> decide

/-- C40 (square encoding round trip): for every square index in 0..63, file and rank
are `sq mod 8` and `sq div 8`, `make_square` puts them together again and
`parse_square` reads back what `square_to_string` wrote; for every name made of a
letter A-H and a digit 1-8, `square_to_string` writes back what `parse_square`
read; square 0 is "A1" and square 63 is "H8"; and `coords_to_square` and
`square_to_coords` of the string engine are inverse to each other on the same
64 names. -/
theorem square_encoding_round_trip :
    (∀ sq : Int, 0 ≤ sq → sq < 64 →
      square_to_file sq = sq % 8 ∧ square_to_rank sq = sq / 8 ∧
      make_square (square_to_file sq) (square_to_rank sq) = sq ∧
      parse_square_string (square_to_string sq) = sq) ∧
    (∀ a ∈ Engine.FILES, ∀ b ∈ Engine.RANKS,
      square_to_string (parse_square_string [a, b]) = [a, b]) ∧
    square_to_string 0 = ['A', '1'] ∧ square_to_string 63 = ['H', '8'] ∧
    (∀ col row : Int, 0 ≤ col → col ≤ 7 → 0 ≤ row → row ≤ 7 →
      Engine.square_to_coords_string (Engine.coords_to_square_string col row) = (col, row)) ∧
    (∀ a ∈ Engine.FILES, ∀ b ∈ Engine.RANKS,
      Engine.coords_to_square_string (Engine.square_to_coords_string [a, b]).1
        (Engine.square_to_coords_string [a, b]).2 = [a, b]) := by
  refine ⟨?_, by decide, by decide, by decide, ?_, by decide⟩
  · intro sq h0 h1
    refine ⟨square_to_file_eq sq h0 h1, square_to_rank_eq sq h0 h1, ?_, ?_⟩
    · interval_cases sq <;> rfl
    · interval_cases sq <;> decide
  · intro col row h0 h1 h2 h3
    interval_cases col <;> interval_cases row <;> decide

theorem square_encoding_round_trip_witness :
    parse_square_string (square_to_string 28) = 28 ∧
    square_to_string (parse_square_string ['E', '4']) = ['E', '4'] :=
  ⟨(square_encoding_round_trip.1 28 (by decide) (by decide)).2.2.2,
    square_encoding_round_trip.2.1 'E' (by decide) '4' (by decide)⟩

/-! ## Castling moves and the piece on their origin -/

/-- C38 (every generated move moves a piece of the side to move, array engine),
evaluated at a position with the white king on d2, a black knight on e1 and all
four castling rights set: the moves generated for white, pseudo-legal and legal,
include the castling move e1->g1, whose origin holds a black knight and not the
white king; applying it moves the black knight to g1. -/
theorem castling_move_of_foreign_piece :
    knightOnE1.board 4 = B_KNIGHT ∧ is_color (knightOnE1.board 4) true = false ∧
    knightOnE1.board 11 = W_KING ∧
    Move.mk 4 6 ∈ generate_pseudo_legal_moves knightOnE1 true ∧
    Move.mk 4 6 ∈ generate_legal_moves knightOnE1 true ∧
    (apply_move knightOnE1 ⟨4, 6⟩).board 6 = B_KNIGHT := by
  decide

/-! ## The frame of `apply_move` -/

/-- C37, as amended (frame of move application, array engine): for every state and
move, the board after `apply_move` agrees with the board before on every square
other than `m.from`, `m.to`, the two rook squares when a king makes one of the
four castling moves, and the en-passant victim square when a pawn lands on the
en-passant target; and when the moved piece is a knight, bishop, rook or queen
and `m.from` differs from `m.to`, `m.from` is empty afterwards, `m.to` holds the
moved piece, and no other square differs. -/
theorem apply_move_frame (s : GameState) (m : Move) :
    (∀ i : Int, (apply_move s m).board i ≠ s.board i →
      i = m.from_ ∨ i = m.to_ ∨
      (piece_type (s.board m.from_) = 6 ∧
        i ∈ castling_rook_squares (is_white (s.board m.from_)) m) ∨
      (piece_type (s.board m.from_) = 1 ∧ m.to_ = s.en_passant ∧
        i = en_passant_victim (is_white (s.board m.from_)) m)) ∧
    (2 ≤ piece_type (s.board m.from_) → piece_type (s.board m.from_) ≤ 5 →
      m.from_ ≠ m.to_ →
      (apply_move s m).board m.from_ = EMPTY ∧
      (apply_move s m).board m.to_ = s.board m.from_ ∧
      ∀ i : Int, i ≠ m.from_ → i ≠ m.to_ → (apply_move s m).board i = s.board i) := by
  constructor
  · intro i hi
    by_contra hcon
    push_neg at hcon
    obtain ⟨h1, h2, h3, h4⟩ := hcon
    exact hi (apply_move_board_unchanged s m i h1 h2 h3 h4)
  · intro h2 h5 hne
    have h6 : ¬ piece_type (s.board m.from_) = 6 := by omega
    have h1 : ¬ (piece_type (s.board m.from_) = 1 ∧ m.to_ = s.en_passant) := by omega
    have hb : (apply_move s m).board = (s.board.set m.to_ (s.board m.from_)).set m.from_ EMPTY := by
      rw [apply_move_board_raw, if_neg h1]
      unfold moved_board
      rw [if_neg h6]
    rw [hb]
    refine ⟨by simp [Board.set], by simp [Board.set, Ne.symm hne], ?_⟩
    intro i hi1 hi2
    simp [Board.set, hi1, hi2]

theorem apply_move_frame_witness :
    (apply_move bishopCheck ⟨14, 5⟩).board 14 = EMPTY ∧
    (apply_move bishopCheck ⟨14, 5⟩).board 5 = B_BISHOP :=
  ⟨((apply_move_frame bishopCheck ⟨14, 5⟩).2 (by decide) (by decide) (by decide)).1,
    ((apply_move_frame bishopCheck ⟨14, 5⟩).2 (by decide) (by decide) (by decide)).2.1⟩

/-- C37, as stated, fails for a move whose origin is its destination: with a bishop on
g2 and the move g2->g2, the square is empty afterwards, so `m.to` does not hold
the moved piece. -/
theorem apply_move_same_square_empties :
    bishopCheck.board 14 = B_BISHOP ∧ (apply_move bishopCheck ⟨14, 14⟩).board 14 = EMPTY := by
  decide

end Replit

namespace Replit
open Piece

/-! ## The en-passant target after a generated move -/

/-- For a generated move of a pawn, the index the en-passant removal clears is never
64 or 65: it is a square of the board, or, for a castling move pushed from a
square that holds a pawn, one of -2, -6, 66, 70, 10, 14, 50, 54. -/
theorem generated_victim_not_field (s : GameState) (white : Bool) (m : Move)
    (hm : m ∈ generate_pseudo_legal_moves s white)
    (hp : piece_type (s.board m.from_) = 1) :
    en_passant_victim (is_white (s.board m.from_)) m ≠ 64 ∧
      en_passant_victim (is_white (s.board m.from_)) m ≠ 65 := by
  obtain ⟨sq, hsq, hmem⟩ := (mem_pseudo_legal_moves s white m).1 hm
  have hsq0 : (0 : Int) ≤ sq := by omega
  have hsq1 : (sq : Int) < 64 := by omega
  obtain ⟨hcol, hcase⟩ := moves_from_square_cases s white sq m hsq0 hsq1 hmem
  rcases hcase with ⟨hfrom, hpawn⟩ | ⟨_, hcast⟩
  · have hpt : piece_type (s.board sq) = 1 := by rw [← hfrom]; exact hp
    have hpiece : s.board m.from_ = pawn_of white := by
      rw [hfrom]; exact (pawn_of_iff _ _).1 ⟨hcol, hpt⟩
    have hw : is_white (s.board m.from_) = white := by
      rw [hpiece]; cases white <;> rfl
    obtain ⟨_, ht0, ht1, hshape⟩ :=
      pawn_move_shape s.board sq white s.en_passant m ⟨hsq0, hsq1⟩ (hpawn hpt)
    have hF := square_to_file_range m.to_ ht0 ht1
    have hrt : square_to_rank m.to_ = m.to_ / 8 := square_to_rank_eq _ ht0 ht1
    have hr : 0 ≤ (if white then square_to_rank m.to_ - 1 else square_to_rank m.to_ + 1) ∧
        (if white then square_to_rank m.to_ - 1 else square_to_rank m.to_ + 1) ≤ 7 := by
      rw [hrt]
      rcases hshape with ⟨h1, _⟩ | ⟨hstart, hto⟩ <;> cases white <;>
        simp only [Bool.false_eq_true, if_false, if_true] at * <;> omega
    have := make_square_range _ _ hF.1 hF.2 hr.1 hr.2
    unfold en_passant_victim
    rw [hw]
    omega
  · generalize is_white (s.board m.from_) = w
    rcases mem_castling_moves _ _ _ _ hcast with h | h | h | h <;> subst h <;>
      cases w <;> decide

/-- C33 (en-passant target rank invariant, array engine): for every state, side and
move generated by `generate_pseudo_legal_moves` for that side, the `en_passant`
field after `apply_move` is `-1`, or it is a square on rank index 2 (the side is
white) or rank index 5 (the side is black), the moved piece is that side's pawn,
and the square directly beyond the target (8 further for white, 8 back for
black) is the move's destination and holds that pawn. -/
theorem en_passant_rank_invariant (s : GameState) (white : Bool) (m : Move)
    (hm : m ∈ generate_pseudo_legal_moves s white) :
    (apply_move s m).en_passant = -1 ∨
    (0 ≤ (apply_move s m).en_passant ∧ (apply_move s m).en_passant < 64 ∧
      square_to_rank (apply_move s m).en_passant = (if white then 2 else 5) ∧
      s.board m.from_ = pawn_of white ∧
      m.to_ = (apply_move s m).en_passant + (if white then 8 else -8) ∧
      (apply_move s m).board m.to_ = pawn_of white) := by
  have hep : (apply_move s m).en_passant =
      if piece_type (s.board m.from_) = 1 ∧
          (square_to_rank m.to_ - square_to_rank m.from_).natAbs = 2 then
        make_square (square_to_file m.from_)
          ((square_to_rank m.from_ + square_to_rank m.to_).tdiv 2)
      else -1 := by
    rw [apply_move_en_passant_raw, if_neg]
    rintro ⟨h1, _, h3⟩
    exact (generated_victim_not_field s white m hm h1).2 h3
  by_cases hc : piece_type (s.board m.from_) = 1 ∧
      (square_to_rank m.to_ - square_to_rank m.from_).natAbs = 2
  swap
  · left; rw [hep, if_neg hc]
  right
  obtain ⟨sq, hsq, hmem⟩ := (mem_pseudo_legal_moves s white m).1 hm
  have hsq0 : (0 : Int) ≤ sq := by omega
  have hsq1 : (sq : Int) < 64 := by omega
  obtain ⟨hcol, hcase⟩ := moves_from_square_cases s white sq m hsq0 hsq1 hmem
  rcases hcase with ⟨hfrom, hpawn⟩ | ⟨_, hcast⟩
  swap
  · exfalso
    have := castling_moves_rank _ _ _ _ hcast
    rw [this] at hc
    simp at hc
  have hpt : piece_type (s.board sq) = 1 := by rw [← hfrom]; exact hc.1
  have hpiece : s.board m.from_ = pawn_of white := by
    rw [hfrom]; exact (pawn_of_iff _ _).1 ⟨hcol, hpt⟩
  obtain ⟨_, ht0, ht1, hshape⟩ :=
    pawn_move_shape s.board sq white s.en_passant m ⟨hsq0, hsq1⟩ (hpawn hpt)
  have hrf : square_to_rank m.from_ = (sq : Int) / 8 := by
    rw [hfrom]; exact square_to_rank_eq _ hsq0 hsq1
  have hrt : square_to_rank m.to_ = m.to_ / 8 := square_to_rank_eq _ ht0 ht1
  have hff : square_to_file m.from_ = (sq : Int) % 8 := by
    rw [hfrom]; exact square_to_file_eq _ hsq0 hsq1
  have hft : square_to_file m.to_ = m.to_ % 8 := square_to_file_eq _ ht0 ht1
  have h2 := hc.2
  rw [hrf, hrt] at h2
  have hf0 : 0 ≤ (sq : Int) % 8 := by omega
  have hf1 : (sq : Int) % 8 ≤ 7 := by omega
  rcases hshape with ⟨h1, _⟩ | ⟨hstart, hto⟩
  · exfalso
    cases white <;> simp only [Bool.false_eq_true, if_false, if_true] at h1 <;> omega
  · have hmid : ((sq : Int) / 8 + m.to_ / 8).tdiv 2 = (if white then 2 else 5) := by
      rw [Int.tdiv_eq_ediv (by omega) (by norm_num)]
      cases white <;> simp only [Bool.false_eq_true, if_false, if_true] at hstart hto ⊢ <;> omega
    have hmr : 0 ≤ (if white then (2 : Int) else 5) ∧ (if white then (2 : Int) else 5) ≤ 7 := by
      cases white <;> simp
    have hval : (apply_move s m).en_passant = (if white then 2 else 5) * 8 + (sq : Int) % 8 := by
      rw [hep, if_pos hc, hrf, hrt, hff, hmid]
      exact make_square_eq _ _ hf0 hf1 hmr.1 hmr.2
    have hrank : square_to_rank (apply_move s m).en_passant = (if white then 2 else 5) := by
      rw [hep, if_pos hc, hrf, hrt, hff, hmid]
      exact square_to_rank_make _ _ hf0 hf1 hmr.1 hmr.2
    have hne : m.to_ ≠ m.from_ := by
      rw [hfrom]
      cases white <;> simp only [Bool.false_eq_true, if_false, if_true] at hto <;> omega
    have hvict : make_square (square_to_file m.to_)
        (if is_white (s.board m.from_) then square_to_rank m.to_ - 1
          else square_to_rank m.to_ + 1) ≠ m.to_ := by
      have hw : is_white (s.board m.from_) = white := by
        rw [hpiece]; cases white <;> rfl
      rw [hw, hft, hrt]
      have hr : 0 ≤ (if white then m.to_ / 8 - 1 else m.to_ / 8 + 1) ∧
          (if white then m.to_ / 8 - 1 else m.to_ / 8 + 1) ≤ 7 := by
        cases white <;> simp only [Bool.false_eq_true, if_false, if_true] at hstart hto ⊢ <;>
          omega
      rw [make_square_eq _ _ (by omega) (by omega) hr.1 hr.2]
      cases white <;> simp only [Bool.false_eq_true, if_false, if_true] <;> omega
    have hboard : (apply_move s m).board m.to_ = s.board m.from_ :=
      apply_move_board_to s m hne (by rw [hc.1]; decide) hvict
    refine ⟨?_, ?_, hrank, hpiece, ?_, ?_⟩
    · rw [hval]; cases white <;> simp only [Bool.false_eq_true, if_false, if_true] <;> omega
    · rw [hval]; cases white <;> simp only [Bool.false_eq_true, if_false, if_true] <;> omega
    · rw [hval]
      cases white <;> simp only [Bool.false_eq_true, if_false, if_true] at hstart hto ⊢ <;> omega
    · rw [hboard, hpiece]

theorem en_passant_rank_invariant_witness :
    Move.mk 12 28 ∈ generate_pseudo_legal_moves pawnOnSecond true ∧
    ((apply_move pawnOnSecond ⟨12, 28⟩).en_passant = -1 ∨
      (0 ≤ (apply_move pawnOnSecond ⟨12, 28⟩).en_passant ∧
        (apply_move pawnOnSecond ⟨12, 28⟩).en_passant < 64 ∧
        square_to_rank (apply_move pawnOnSecond ⟨12, 28⟩).en_passant = (if true then 2 else 5) ∧
        pawnOnSecond.board 12 = pawn_of true ∧
        (28 : Int) = (apply_move pawnOnSecond ⟨12, 28⟩).en_passant + (if true then 8 else -8) ∧
        (apply_move pawnOnSecond ⟨12, 28⟩).board 28 = pawn_of true)) :=
  ⟨by decide, en_passant_rank_invariant pawnOnSecond true ⟨12, 28⟩ (by decide)⟩

/-! ## The castling-rights invariant under move application -/

/-- When a generated move by a pawn lands on the en-passant target of a state whose
target, if set, is on rank index 2 or 5, the victim square lies on ranks 2..7. -/
theorem en_passant_victim_range (s : GameState) (white : Bool) (m : Move)
    (hep : en_passant_on_rank s) (hm : m ∈ generate_pseudo_legal_moves s white)
    (hp : piece_type (s.board m.from_) = 1) (hto : m.to_ = s.en_passant) :
    8 ≤ en_passant_victim (is_white (s.board m.from_)) m ∧
      en_passant_victim (is_white (s.board m.from_)) m < 56 := by
  obtain ⟨sq, hsq, hmem⟩ := (mem_pseudo_legal_moves s white m).1 hm
  have hsq0 : (0 : Int) ≤ sq := by omega
  have hsq1 : (sq : Int) < 64 := by omega
  obtain ⟨_, hcase⟩ := moves_from_square_cases s white sq m hsq0 hsq1 hmem
  have hrange : 0 ≤ m.to_ ∧ m.to_ < 64 := by
    rcases hcase with ⟨hfrom, hpawn⟩ | ⟨_, hcast⟩
    · have hpt : piece_type (s.board sq) = 1 := by rw [← hfrom]; exact hp
      obtain ⟨_, ht0, ht1, _⟩ :=
        pawn_move_shape s.board sq white s.en_passant m ⟨hsq0, hsq1⟩ (hpawn hpt)
      exact ⟨ht0, ht1⟩
    · rcases mem_castling_moves _ _ _ _ hcast with h | h | h | h <;> subst h <;> decide
  unfold en_passant_on_rank at hep
  rw [← hto] at hep
  rcases hep with h | ⟨_, _, hr⟩
  · omega
  · have hF := square_to_file_range m.to_ hrange.1 hrange.2
    unfold en_passant_victim
    generalize is_white (s.board m.from_) = w
    have hr2 : 0 ≤ (if w then square_to_rank m.to_ - 1 else square_to_rank m.to_ + 1) ∧
        (if w then square_to_rank m.to_ - 1 else square_to_rank m.to_ + 1) ≤ 7 := by
      cases w <;> simp only [Bool.false_eq_true, if_false, if_true] <;> omega
    rw [make_square_eq _ _ hF.1 hF.2 hr2.1 hr2.2]
    cases w <;> simp only [Bool.false_eq_true, if_false, if_true] <;> omega

/-- C32, as amended (castling-rights invariant under move application, array engine):
for every state in which each set castling right has that side's king on its
home square and the matching rook on its corner, and whose en-passant field is
`-1` or a square on rank index 2 or 5, and for every move generated by
`generate_pseudo_legal_moves` for either side whose destination does not hold a
king, the state after `apply_move` satisfies the castling-rights invariant. -/
theorem castling_invariant_preserved (s : GameState) (white : Bool) (m : Move)
    (hinv : rights_at_home s) (hep : en_passant_on_rank s)
    (hm : m ∈ generate_pseudo_legal_moves s white)
    (hk : piece_type (s.board m.to_) ≠ 6) :
    rights_at_home (apply_move s m) := by
  intro c ks hget
  have hv := en_passant_victim_range s white m hep hm
  have hvb : victim_on_board s m := fun h1 h2 => by
    have := hv h1 h2
    exact ⟨by omega, by omega⟩
  rw [apply_move_castling_eq s m hvb, captured_rights_get, moved_rights_get] at hget
  obtain ⟨⟨hold, hnk, hnr⟩, hnc⟩ := hget
  obtain ⟨hK, hR⟩ := hinv c ks hold
  constructor
  · rw [apply_move_board_unchanged s m (king_home c) ?_ ?_ ?_ ?_]
    · exact hK
    · intro h
      rw [h] at hK
      exact hnk ((king_of_iff _ _).1 hK)
    · intro h
      rw [h] at hK
      exact hk ((king_of_iff _ _).1 hK).1
    · intro _
      unfold castling_rook_squares
      split_ifs <;> cases c <;> simp [king_home]
    · intro h1 h2
      have := hv h1 h2
      cases c <;> simp only [king_home, Bool.false_eq_true, if_false, if_true] <;> omega
  · rw [apply_move_board_unchanged s m (rook_home c ks) ?_ ?_ ?_ ?_]
    · exact hR
    · intro h
      have hR2 := hR
      rw [h] at hR2
      exact hnr ⟨((rook_of_iff _ _).1 hR2).1, ((rook_of_iff _ _).1 hR2).2, h.symm⟩
    · intro h
      have hR2 := hR
      rw [h] at hR2
      exact hnc ⟨((rook_of_iff _ _).1 hR2).1, h.symm⟩
    · intro h6
      have hw : ¬ is_white (s.board m.from_) = c := fun h => hnk ⟨h6, h⟩
      revert hw
      generalize is_white (s.board m.from_) = w
      intro hw
      unfold castling_rook_squares
      split_ifs <;> cases c <;> cases ks <;> cases w <;> simp_all [rook_home]
    · intro h1 h2
      have := hv h1 h2
      cases c <;> cases ks <;>
        simp only [rook_home, Bool.false_eq_true, if_false, if_true] <;> omega

theorem castling_invariant_preserved_witness :
    rights_at_home castleFree ∧ Move.mk 7 15 ∈ generate_pseudo_legal_moves castleFree true ∧
    rights_at_home (apply_move castleFree ⟨7, 15⟩) :=
  ⟨by unfold rights_at_home; decide, by decide,
    castling_invariant_preserved castleFree true ⟨7, 15⟩ (by unfold rights_at_home; decide)
      (Or.inl (by decide)) (by decide) (by decide)⟩

/-- C32, as stated, fails when the en-passant field names a square next to a king:
with the black king on e8, a black rook on h8, the black king-side right set, a
black pawn on d8, a white knight on e7 and the en-passant field naming e7, the
generated capture d8xe7 lands on the en-passant field, so `apply_move` empties
e8; the right is still set and the king is gone. -/
theorem en_passant_field_removes_king :
    rights_at_home pawnBesideKing ∧
    Move.mk 59 52 ∈ generate_pseudo_legal_moves pawnBesideKing false ∧
    pawnBesideKing.board 52 = W_KNIGHT ∧
    (apply_move pawnBesideKing ⟨59, 52⟩).castling.get false true = true ∧
    (apply_move pawnBesideKing ⟨59, 52⟩).board 60 = EMPTY ∧
    ¬ rights_at_home (apply_move pawnBesideKing ⟨59, 52⟩) := by
  refine ⟨by unfold rights_at_home; decide, by decide, by decide, by decide, by decide, ?_⟩
  unfold rights_at_home
  decide

end Replit

namespace Replit
open Piece

/-! ## Termination of the search -/

theorem search_loop_clock_isSome
    (recur : GameState → Score → Score → StopClock → TranspositionTable →
      Option (Score × TranspositionTable × StopClock))
    (hrec : ∀ st a b c t, (recur st a b c t).isSome = true)
    (state : GameState) (mx : Bool) :
    ∀ (moves : List Move) (v a b : Score) (clock : StopClock) (tt : TranspositionTable),
      (search_loop_clock recur state mx moves v a b clock tt).isSome = true := by
  intro moves
  induction moves with
  | nil => intro v a b clock tt; rfl
  | cons mv rest ih =>
    intro v a b clock tt
    unfold search_loop_clock
    by_cases hl : clock.load.1 = true
    · rw [if_pos hl]; rfl
    · rw [if_neg hl]
      obtain ⟨r, hr⟩ := Option.isSome_iff_exists.mp (hrec (apply_move state mv) a b clock.load.2 tt)
      rw [hr]
      obtain ⟨score, tt2, clock2⟩ := r
      simp only
      split_ifs
      · rfl
      · exact ih _ _ _ _ _
      · rfl
      · exact ih _ _ _ _ _

/-- With a depth `n >= 0` and more than `n` units of fuel, `minimax` returns: `n`
nested calls are enough. -/
theorem minimax_clock_terminates : ∀ (n fuel : Nat), n < fuel →
    ∀ (s : GameState) (M cur : Bool) (a b : Score) (clock : StopClock)
      (tt : TranspositionTable),
      (minimax_clock fuel s M cur (n : Int) a b clock tt).isSome = true := by
  intro n
  induction n with
  | zero =>
    intro fuel hf s M cur a b clock tt
    obtain ⟨f, rfl⟩ : ∃ f, fuel = f + 1 := ⟨fuel - 1, by omega⟩
    unfold minimax_clock
    by_cases hl : clock.load.1 = true
    · rw [if_pos hl]; rfl
    · rw [if_neg hl, if_pos Nat.cast_zero]; rfl
  | succ n ih =>
    intro fuel hf s M cur a b clock tt
    obtain ⟨f, rfl⟩ : ∃ f, fuel = f + 1 := ⟨fuel - 1, by omega⟩
    have hd : ((n + 1 : Nat) : Int) - 1 = (n : Int) := by push_cast; ring
    have hd0 : ¬ ((n + 1 : Nat) : Int) = 0 := by push_cast; omega
    have hloop := search_loop_clock_isSome
      (fun st a b c t => minimax_clock f st M (!cur) (n : Int) a b c t)
      (fun st a b c t => ih f (by omega) st M (!cur) a b c t)
      s (decide (cur = M))
    unfold minimax_clock
    rw [hd]
    by_cases hl : clock.load.1 = true
    · rw [if_pos hl]; rfl
    rw [if_neg hl, if_neg hd0]
    by_cases hp : (tt.probe (hash_board s.board) ((n + 1 : Nat) : Int) 0).2.1 = true
    · rw [if_pos hp]; rfl
    rw [if_neg hp]
    simp only
    by_cases he : (generate_legal_moves s cur).isEmpty = true
    · rw [if_pos he]
      split_ifs <;> rfl
    rw [if_neg he]
    obtain ⟨r, hr⟩ := Option.isSome_iff_exists.mp
      (hloop (order_moves s.board (generate_legal_moves s cur))
        (if cur = M then ⊥ else ⊤) a b clock.load.2 tt)
    rw [hr]
    obtain ⟨value, tt2, clock2, flag⟩ := r
    cases flag <;> rfl

theorem state_ext (s t : GameState) (hc : s.castling = t.castling)
    (he : s.en_passant = t.en_passant) (hb : ∀ i : Int, s.board i = t.board i) : s = t := by
  cases s
  cases t
  simp only [GameState.mk.injEq]
  exact ⟨funext hb, hc, he⟩

theorem cycle0_step : apply_move cycle0 ⟨51, 61⟩ = cycle1 := by
  apply state_ext _ _ (by decide) (by decide)
  intro i
  by_cases h1 : i = 51
  · subst h1; decide
  by_cases h2 : i = 61
  · subst h2; decide
  rw [apply_move_board_unchanged cycle0 ⟨51, 61⟩ i h1 h2
    (fun h => absurd h (by decide)) (fun h => absurd h (by decide))]
  simp [cycle0, cycle1, kingAndKnight, Board.set, h1, h2]

theorem cycle1_step : apply_move cycle1 ⟨56, 48⟩ = cycle2 := by
  apply state_ext _ _ (by decide) (by decide)
  intro i
  by_cases h1 : i = 56
  · subst h1; decide
  by_cases h2 : i = 48
  · subst h2; decide
  rw [apply_move_board_unchanged cycle1 ⟨56, 48⟩ i h1 h2
    (fun _ => by
      have h : castling_rook_squares (is_white (cycle1.board 56)) ⟨56, 48⟩ = [] := by decide
      rw [h]; simp)
    (fun h => absurd h (by decide))]
  simp [cycle1, cycle2, kingAndKnight, Board.set, h1, h2]

theorem cycle2_step : apply_move cycle2 ⟨61, 51⟩ = cycle3 := by
  apply state_ext _ _ (by decide) (by decide)
  intro i
  by_cases h1 : i = 61
  · subst h1; decide
  by_cases h2 : i = 51
  · subst h2; decide
  rw [apply_move_board_unchanged cycle2 ⟨61, 51⟩ i h1 h2
    (fun h => absurd h (by decide)) (fun h => absurd h (by decide))]
  simp [cycle2, cycle3, kingAndKnight, Board.set, h1, h2]

theorem cycle3_step : apply_move cycle3 ⟨48, 56⟩ = cycle0 := by
  apply state_ext _ _ (by decide) (by decide)
  intro i
  by_cases h1 : i = 48
  · subst h1; decide
  by_cases h2 : i = 56
  · subst h2; decide
  rw [apply_move_board_unchanged cycle3 ⟨48, 56⟩ i h1 h2
    (fun _ => by
      have h : castling_rook_squares (is_white (cycle3.board 48)) ⟨48, 56⟩ = [] := by decide
      rw [h]; simp)
    (fun h => absurd h (by decide))]
  simp [cycle3, cycle0, kingAndKnight, Board.set, h1, h2]

set_option maxRecDepth 100000 in
theorem cycle_first_moves :
    (order_moves cycle0.board (generate_legal_moves cycle0 false)).head? = some ⟨51, 61⟩ ∧
    (order_moves cycle1.board (generate_legal_moves cycle1 true)).head? = some ⟨56, 48⟩ ∧
    (order_moves cycle2.board (generate_legal_moves cycle2 false)).head? = some ⟨61, 51⟩ ∧
    (order_moves cycle3.board (generate_legal_moves cycle3 true)).head? = some ⟨48, 56⟩ ∧
    (generate_legal_moves cycle0 false).isEmpty = false ∧
    (generate_legal_moves cycle1 true).isEmpty = false ∧
    (generate_legal_moves cycle2 false).isEmpty = false ∧
    (generate_legal_moves cycle3 true).isEmpty = false ∧
    hash_board cycle0.board ≠ 0 ∧ hash_board cycle1.board ≠ 0 ∧
    hash_board cycle2.board ≠ 0 ∧ hash_board cycle3.board ≠ 0 := by
  decide!

/-- One level of the recursion: when the depth is not 0, the table holds nothing for
the position, the side to move has a move, and the call on the position after the
first move of the ordered list does not return, the call does not return. -/
theorem minimax_clock_none_step (fuel : Nat) (s s2 : GameState) (M cur : Bool) (d : Int)
    (a b : Score) (m : Move)
    (hd : d ≠ 0) (hh : hash_board s.board ≠ 0)
    (hne : (generate_legal_moves s cur).isEmpty = false)
    (hm : (order_moves s.board (generate_legal_moves s cur)).head? = some m)
    (hs : apply_move s m = s2)
    (hrec : ∀ a2 b2, minimax_clock fuel s2 M (!cur) (d - 1) a2 b2 none
      TranspositionTable.fresh = none) :
    minimax_clock (fuel + 1) s M cur d a b none TranspositionTable.fresh = none := by
  obtain ⟨rest, hl⟩ : ∃ rest, order_moves s.board (generate_legal_moves s cur) = m :: rest := by
    cases h : order_moves s.board (generate_legal_moves s cur) with
    | nil => rw [h] at hm; simp at hm
    | cons x rest =>
      rw [h] at hm
      simp only [List.head?_cons, Option.some.injEq] at hm
      exact ⟨rest, by rw [hm]⟩
  have hmiss : (TranspositionTable.fresh.probe (hash_board s.board) d 0).2.1 = false := by
    unfold TranspositionTable.probe
    have h0 : (TranspositionTable.fresh.table
        (TranspositionTable.index (hash_board s.board))).hash = 0 := rfl
    rw [h0, if_neg (fun h => hh h.1.symm)]
  unfold minimax_clock
  have hload : StopClock.load none = (false, none) := rfl
  simp only [hload, Bool.false_eq_true, if_false, hd, hmiss, hne, hl]
  unfold search_loop_clock
  simp only [hload, Bool.false_eq_true, if_false, hs, hrec]

theorem minimax_clock_cycle : ∀ (fuel : Nat) (d : Int), d < 0 → ∀ a b : Score,
    minimax_clock fuel cycle0 true false d a b none TranspositionTable.fresh = none ∧
    minimax_clock fuel cycle1 true true d a b none TranspositionTable.fresh = none ∧
    minimax_clock fuel cycle2 true false d a b none TranspositionTable.fresh = none ∧
    minimax_clock fuel cycle3 true true d a b none TranspositionTable.fresh = none := by
  intro fuel
  induction fuel with
  | zero => intro d _ a b; exact ⟨rfl, rfl, rfl, rfl⟩
  | succ fuel ih =>
    intro d hd a b
    have hF := cycle_first_moves
    have hd0 : d ≠ 0 := by omega
    have hd1 : d - 1 < 0 := by omega
    refine ⟨?_, ?_, ?_, ?_⟩
    · exact minimax_clock_none_step fuel cycle0 cycle1 true false d a b ⟨51, 61⟩ hd0
        hF.2.2.2.2.2.2.2.2.1 hF.2.2.2.2.1 hF.1 cycle0_step
        (fun a2 b2 => (ih (d - 1) hd1 a2 b2).2.1)
    · exact minimax_clock_none_step fuel cycle1 cycle2 true true d a b ⟨56, 48⟩ hd0
        hF.2.2.2.2.2.2.2.2.2.1 hF.2.2.2.2.2.1 hF.2.1 cycle1_step
        (fun a2 b2 => (ih (d - 1) hd1 a2 b2).2.2.1)
    · exact minimax_clock_none_step fuel cycle2 cycle3 true false d a b ⟨61, 51⟩ hd0
        hF.2.2.2.2.2.2.2.2.2.2.1 hF.2.2.2.2.2.2.1 hF.2.2.1 cycle2_step
        (fun a2 b2 => (ih (d - 1) hd1 a2 b2).2.2.2)
    · exact minimax_clock_none_step fuel cycle3 cycle0 true true d a b ⟨48, 56⟩ hd0
        hF.2.2.2.2.2.2.2.2.2.2.2 hF.2.2.2.2.2.2.2.1 hF.2.2.2.1 cycle3_step
        (fun a2 b2 => (ih (d - 1) hd1 a2 b2).1)

/-- C35 (termination for every depth argument, array engine), evaluated at the
position with the white king on a7, a black knight on d7 and the black king on
h1, white to move, with a depth argument `-n <= 0`: the worker that fetches root
move 0 calls `minimax` with depth `-n - 1 < 0`; the test `depth == 0` never
holds on the way down, the first moves Ka8, Nf8, Ka7, Nd7 repeat the position,
and the call does not return whatever the number of nested calls allowed, so
`engine_search` does not return. -/
theorem search_with_nonpositive_depth_never_returns (fuel n : Nat) (idxs : List Nat)
    (others : List (List Nat)) :
    engine_search fuel cycle3 true (-(n : Int)) ((0 :: idxs) :: others) = none := by
  have hF := cycle_first_moves
  obtain ⟨rest, hl⟩ : ∃ rest,
      order_moves cycle3.board (generate_legal_moves cycle3 true) = ⟨48, 56⟩ :: rest := by
    cases h : order_moves cycle3.board (generate_legal_moves cycle3 true) with
    | nil => rw [h] at hF; simp at hF
    | cons x rest =>
      have h4 := hF.2.2.2.1
      rw [h] at h4
      simp only [List.head?_cons, Option.some.injEq] at h4
      exact ⟨rest, by rw [h4]⟩
  have hmm := (minimax_clock_cycle fuel (-(n : Int) - 1) (by omega) ⊥ ⊤).1
  unfold engine_search
  simp only [hF.2.2.2.2.2.2.2.1, Bool.false_eq_true, if_false, hl]
  unfold run_workers worker_loop
  have hload : StopClock.load none = (false, none) := rfl
  simp only [hload, Bool.false_eq_true, if_false, List.get?_cons_zero, cycle3_step,
    Bool.not_true, hmm]

end Replit

namespace Replit
open Piece

/-! ## The two attack tests compared -/

theorem foldl_set_at {α : Type} (k : α → Int) (v : α → Piece) (l : List α) :
    ∀ (init : Board) (x : α), x ∈ l → (∀ y ∈ l, k y = k x → v y = v x) →
      (l.foldl (fun bd sq => bd.set (k sq) (v sq)) init) (k x) = v x := by
  induction l using List.reverseRecOn with
  | nil => intro init x hx; simp at hx
  | append_singleton t a ih =>
    intro init x hx hinj
    rw [List.foldl_append]
    simp only [List.foldl_cons, List.foldl_nil, Board.set]
    by_cases hk : k x = k a
    · rw [if_pos hk]
      exact hinj a (by simp) hk.symm
    · rw [if_neg hk]
      have hxt : x ∈ t := by
        rcases List.mem_append.mp hx with h | h
        · exact h
        · simp only [List.mem_singleton] at h
          exact absurd (by rw [h]) hk
      exact ih init x hxt (fun y hy => hinj y (List.mem_append_left _ hy))

/-- The converted board holds on square `(col, row)` the conversion of the piece the
string board holds under that name. -/
theorem convert_board_at (b : Engine.BoardMap) (col row : Int)
    (hb : in_bounds col row = true) :
    convert_from_string_board b (make_square col row) = convert_piece (b ⟨col, row⟩) := by
  rw [in_bounds_iff] at hb
  have hmem : (⟨col, row⟩ : Engine.Square) ∈ Engine.all_squares :=
    (Engine.mem_all_squares _).2 hb
  have h := foldl_set_at parse_square (fun sq => convert_piece (b sq)) Engine.all_squares
    Board.empty ⟨col, row⟩ hmem (by
      intro y hy hk
      have hy2 := (Engine.mem_all_squares y).1 hy
      unfold parse_square at hk
      rw [make_square_eq _ _ hy2.1 hy2.2.1 hy2.2.2.1 hy2.2.2.2,
        make_square_eq _ _ hb.1 hb.2.1 hb.2.2.1 hb.2.2.2] at hk
      have hyx : y = ⟨col, row⟩ := by
        obtain ⟨yc, yr⟩ := y
        simp only at hk hy2
        simp only [Engine.Square.mk.injEq]
        omega
      rw [hyx])
  exact h

theorem convert_piece_injective (p q : Engine.Piece) (h : convert_piece p = convert_piece q) :
    p = q := by
  cases p with
  | empty =>
    cases q with
    | empty => rfl
    | mk c k => cases c <;> cases k <;> exact absurd h (by decide)
  | mk c k =>
    cases q with
    | empty => cases c <;> cases k <;> exact absurd h (by decide)
    | mk c2 k2 =>
      cases c <;> cases k <;> cases c2 <;> cases k2 <;>
        first | rfl | exact absurd h (by decide)

theorem convert_piece_eq_iff (p q : Engine.Piece) : convert_piece p = convert_piece q ↔ p = q :=
  ⟨convert_piece_injective p q, fun h => by rw [h]⟩

theorem convert_piece_empty_iff (p : Engine.Piece) :
    is_empty (convert_piece p) = true ↔ p = Engine.Piece.empty := by
  have h : Piece.EMPTY = convert_piece Engine.Piece.empty := rfl
  unfold is_empty
  rw [decide_eq_true_iff, h, convert_piece_eq_iff]

theorem own_kind_iff (p : Engine.Piece) (c : Engine.Color) (k : Engine.Kind) :
    (!(decide (p = Engine.Piece.empty) || !Engine.starts_with p c) &&
      Engine.ends_with p k) = true ↔ p = Engine.Piece.mk c k := by
  cases p with
  | empty => simp [Engine.starts_with, Engine.ends_with]
  | mk c2 k2 => simp [Engine.starts_with, Engine.ends_with]

theorem ray_attacked_convert (b : Engine.BoardMap) (c : Engine.Color) (k1 k2 : Engine.Kind)
    (dc dr : Int) : ∀ (fuel : Nat) (x y : Int),
    Engine.ray_attacked b c k1 k2 dc dr fuel x y =
      ray_attacked (convert_from_string_board b) (convert_piece (Engine.Piece.mk c k1))
        (convert_piece (Engine.Piece.mk c k2)) dc dr fuel x y := by
  intro fuel
  induction fuel with
  | zero => intro x y; rfl
  | succ fuel ih =>
    intro x y
    unfold Engine.ray_attacked ray_attacked
    rw [Engine.in_bounds_colrow_eq]
    by_cases hb : in_bounds x y = true
    · rw [if_pos hb, if_pos hb, convert_board_at b x y hb]
      simp only [Engine.coords_to_square]
      by_cases he : b ⟨x, y⟩ = Engine.Piece.empty
      · have he2 : is_empty (convert_piece (b ⟨x, y⟩)) = true :=
          (convert_piece_empty_iff _).2 he
        rw [if_neg (by simpa using he), he2]
        simp only [Bool.not_true, Bool.false_eq_true, if_false]
        exact ih _ _
      · have he2 : is_empty (convert_piece (b ⟨x, y⟩)) = false := by
          rw [Bool.eq_false_iff]
          exact fun h => he ((convert_piece_empty_iff _).1 h)
        rw [if_pos he, he2]
        simp only [Bool.not_false, if_true]
        rw [Bool.eq_iff_iff]
        simp only [Bool.and_eq_true, Bool.or_eq_true, decide_eq_true_eq, convert_piece_eq_iff]
        cases hp : b ⟨x, y⟩ with
        | empty => exact absurd hp he
        | mk c2 k => simp [Engine.starts_with, Engine.ends_with]; tauto
    · rw [if_neg hb, if_neg hb]

theorem attacker_loop_iff (b : Engine.BoardMap) (s : Engine.Square) (c : Engine.Color)
    (k : Engine.Kind) (attacks : Engine.Square → List Engine.Square) :
    Engine.attacker_loop b s c k attacks = true ↔
      ∃ a : Engine.Square, Engine.in_bounds_colrow a.col a.row = true ∧
        b a = Engine.Piece.mk c k ∧ s ∈ attacks a := by
  unfold Engine.attacker_loop
  simp only [List.any_eq_true, Bool.and_eq_true, decide_eq_true_eq]
  constructor
  · rintro ⟨a, ha, hp, hs⟩
    refine ⟨a, ?_, (own_kind_iff _ _ _).1 (by simpa using hp), hs⟩
    rw [Engine.in_bounds_colrow_eq, in_bounds_iff]
    exact (Engine.mem_all_squares a).1 ha
  · rintro ⟨a, ha, hp, hs⟩
    rw [Engine.in_bounds_colrow_eq, in_bounds_iff] at ha
    refine ⟨a, (Engine.mem_all_squares a).2 ha, ?_, hs⟩
    have := (own_kind_iff (b a) c k).2 hp
    simpa using this

/-- The knight and king loops agree when the attacked square holds no piece of the
attacking colour. -/
theorem offset_loop_convert (b : Engine.BoardMap) (s : Engine.Square) (c : Engine.Color)
    (k : Engine.Kind) (offs : List (Int × Int))
    (hsym : ∀ o ∈ offs, (-o.1, -o.2) ∈ offs)
    (hs : in_bounds s.col s.row = true)
    (hfree : Engine.starts_with (b s) c = false) :
    Engine.attacker_loop b s c k (fun a => Engine.offset_moves offs a b c) =
      offset_attacked (convert_from_string_board b) (convert_piece (Engine.Piece.mk c k)) offs
        s.col s.row := by
  rw [Bool.eq_iff_iff, attacker_loop_iff]
  unfold offset_attacked
  simp only [List.any_eq_true, Bool.and_eq_true, decide_eq_true_eq, Engine.mem_offset_moves]
  constructor
  · rintro ⟨a, ha, hp, o, ho, _, hso, _⟩
    refine ⟨(-o.1, -o.2), hsym o ho, ?_⟩
    have hc : s.col + -o.1 = a.col := by rw [hso]; simp
    have hr : s.row + -o.2 = a.row := by rw [hso]; simp
    simp only [hc, hr]
    rw [Engine.in_bounds_colrow_eq] at ha
    refine ⟨ha, ?_⟩
    rw [convert_board_at b a.col a.row ha, convert_piece_eq_iff]
    exact hp
  · rintro ⟨o, ho, hb, hp⟩
    rw [convert_board_at b _ _ hb, convert_piece_eq_iff] at hp
    refine ⟨⟨s.col + o.1, s.row + o.2⟩, ?_, hp, (-o.1, -o.2), hsym o ho, ?_, ?_, Or.inr hfree⟩
    · rw [Engine.in_bounds_colrow_eq]; exact hb
    · rw [Engine.in_bounds_colrow_eq]
      simp only [add_neg_cancel_right]
      exact hs
    · obtain ⟨sc, sr⟩ := s
      simp

theorem pawn_loop_convert (b : Engine.BoardMap) (s : Engine.Square) (c : Engine.Color)
    (hs : in_bounds s.col s.row = true) :
    Engine.attacker_loop b s c Engine.Kind.pawn (fun a => Engine.pawn_attacks_from a c) =
      (([-1, 1] : List Int).any fun df =>
        in_bounds (s.col + df) (s.row - (if decide (c = Engine.Color.white) then 1 else -1)) &&
          decide (convert_from_string_board b
            (make_square (s.col + df)
              (s.row - (if decide (c = Engine.Color.white) then 1 else -1))) =
            convert_piece (Engine.Piece.mk c Engine.Kind.pawn))) := by
  rw [Bool.eq_iff_iff, attacker_loop_iff]
  simp only [List.any_eq_true, Bool.and_eq_true, decide_eq_true_eq, Engine.pawn_attacks_from,
    List.mem_flatMap, Engine.square_to_coords, Engine.coords_to_square]
  generalize (if c = Engine.Color.white then (1 : Int) else -1) = dir
  constructor
  · rintro ⟨a, ha, hp, dc, hdc, hmem⟩
    rw [Engine.in_bounds_colrow_eq] at ha hmem
    by_cases hb : in_bounds (a.col + dc) (a.row + dir) = true
    · rw [if_pos hb] at hmem
      simp only [List.mem_singleton] at hmem
      have hc : s.col + -dc = a.col := by rw [hmem]; simp
      have hr : s.row - dir = a.row := by rw [hmem]; simp
      refine ⟨-dc, ?_, ?_⟩
      · simp only [List.mem_cons, List.mem_singleton, List.not_mem_nil, or_false] at hdc ⊢
        rcases hdc with h | h <;> subst h <;> simp
      · simp only [hc, hr]
        refine ⟨ha, ?_⟩
        rw [convert_board_at b a.col a.row ha, convert_piece_eq_iff]
        exact hp
    · rw [if_neg hb] at hmem
      simp at hmem
  · rintro ⟨df, hdf, hb, hp⟩
    rw [convert_board_at b _ _ hb, convert_piece_eq_iff] at hp
    refine ⟨⟨s.col + df, s.row - dir⟩, ?_, hp, -df, ?_, ?_⟩
    · rw [Engine.in_bounds_colrow_eq]; exact hb
    · simp only [List.mem_cons, List.mem_singleton, List.not_mem_nil, or_false] at hdf ⊢
      rcases hdf with h | h <;> subst h <;> simp
    · rw [Engine.in_bounds_colrow_eq]
      have e1 : s.col + df + -df = s.col := by ring
      have e2 : s.row - dir + dir = s.row := by ring
      simp only [e1, e2]
      rw [if_pos hs]
      obtain ⟨sc, sr⟩ := s
      simp

end Replit

namespace Replit
open Piece

theorem knight_offsets_symm : ∀ o ∈ KNIGHT_OFFSETS, (-o.1, -o.2) ∈ KNIGHT_OFFSETS := by decide
theorem king_offsets_symm : ∀ o ∈ KING_OFFSETS, (-o.1, -o.2) ∈ KING_OFFSETS := by decide

/-- C36, as amended (the two engines agree on attack detection): for every full string
board `b`, every square `s` of the board and every colour `c` such that `s` does
not hold a piece of colour `c`, `is_square_attacked(b, s, c)` of the string
engine equals `is_square_attacked(convert_from_string_board(b), parse_square(s),
c == white)` of the array engine. -/
theorem engines_agree_on_attacks (b : Engine.BoardMap) (s : Engine.Square) (c : Engine.Color)
    (hs : Engine.in_bounds_colrow s.col s.row = true)
    (hfree : Engine.starts_with (b s) c = false) :
    Engine.is_square_attacked b s c =
      is_square_attacked (convert_from_string_board b) (parse_square s)
        (decide (c = Engine.Color.white)) := by
  rw [Engine.in_bounds_colrow_eq] at hs
  have hb := (in_bounds_iff _ _).1 hs
  have hfile : square_to_file (parse_square s) = s.col :=
    square_to_file_make _ _ hb.1 hb.2.1 hb.2.2.1 hb.2.2.2
  have hrank : square_to_rank (parse_square s) = s.row :=
    square_to_rank_make _ _ hb.1 hb.2.1 hb.2.2.1 hb.2.2.2
  have hking : (fun a => Engine.king_moves_from a b c none) =
      fun a => Engine.offset_moves Engine.KING_OFFSETS a b c := by
    funext a
    simp [Engine.king_moves_from, Engine.castling_targets]
  have hknight : (fun a => Engine.knight_moves_from a b c) =
      fun a => Engine.offset_moves Engine.KNIGHT_OFFSETS a b c := rfl
  have hp := pawn_loop_convert b s c hs
  have hn := offset_loop_convert b s c Engine.Kind.knight KNIGHT_OFFSETS knight_offsets_symm
    hs hfree
  have hk := offset_loop_convert b s c Engine.Kind.king KING_OFFSETS king_offsets_symm hs hfree
  unfold Engine.is_square_attacked is_square_attacked
  simp only [hfile, hrank]
  rw [hking, hknight]
  have e1 : Engine.KNIGHT_OFFSETS = KNIGHT_OFFSETS := rfl
  have e2 : Engine.KING_OFFSETS = KING_OFFSETS := rfl
  rw [e1, e2, hp, hn, hk]
  simp only [Engine.ORTH_DIRS, Engine.DIAG_DIRS, ROOK_DIRS, BISHOP_DIRS, List.any_cons,
    List.any_nil, ray_attacked_convert, Engine.square_to_coords, Bool.or_false]
  cases c
  · simp only [convert_piece, decide_True, if_true]
    ac_rfl
  · have hne : ¬ (Engine.Color.black = Engine.Color.white) := by decide
    simp only [convert_piece, hne, decide_False, Bool.false_eq_true, if_false]
    ac_rfl

theorem engines_agree_on_attacks_witness :
    Engine.is_square_attacked Engine.startBoard ⟨4, 2⟩ Engine.Color.white =
      is_square_attacked (convert_from_string_board Engine.startBoard) (parse_square ⟨4, 2⟩)
        (decide (Engine.Color.white = Engine.Color.white)) :=
  engines_agree_on_attacks Engine.startBoard ⟨4, 2⟩ Engine.Color.white (by decide) (by decide)

set_option maxRecDepth 100000 in
/-- C36, as stated, fails on a square holding a piece of the attacking colour that a
knight or king of that colour guards: with a white knight on B1 and a white pawn
on D2, the string engine does not count D2 as attacked by white (its knight
moves leave out squares holding white pieces), the array engine does. -/
theorem engines_differ_on_guarded_square :
    Engine.is_square_attacked Engine.knightGuardsPawn ⟨3, 1⟩ Engine.Color.white = false ∧
    is_square_attacked (convert_from_string_board Engine.knightGuardsPawn)
      (parse_square ⟨3, 1⟩) (decide (Engine.Color.white = Engine.Color.white)) = true := by
  decide!

end Replit

namespace Engine

/-! ## Slider generation in the string engine -/

theorem mem_ray_moves (board : BoardMap) (color : Color) (dc dr : Int) (fuel : Nat)
    (c r : Int) (t : Square) :
    t ∈ ray_moves board color dc dr fuel c r ↔
      ∃ k : Nat, k < fuel ∧ t = ⟨c + ((k + 1 : Nat) : Int) * dc, r + ((k + 1 : Nat) : Int) * dr⟩ ∧
        (∀ j : Nat, j ≤ k →
          in_bounds_colrow (c + ((j + 1 : Nat) : Int) * dc) (r + ((j + 1 : Nat) : Int) * dr)
            = true) ∧
        (∀ j : Nat, j < k →
          board ⟨c + ((j + 1 : Nat) : Int) * dc, r + ((j + 1 : Nat) : Int) * dr⟩
            = Piece.empty) ∧
        (board t = Piece.empty ∨ starts_with (board t) color = false) := by
  have shift : ∀ (m : Nat) (z dz : Int),
      z + dz + ((m + 1 : Nat) : Int) * dz = z + ((m + 1 + 1 : Nat) : Int) * dz := by
    intro m z dz; push_cast; ring
  have one : ∀ (z dz : Int), z + ((0 + 1 : Nat) : Int) * dz = z + dz := by
    intro z dz; push_cast; ring
  induction fuel generalizing c r with
  | zero => simp [ray_moves]
  | succ n ih =>
    unfold ray_moves
    by_cases hb : in_bounds_colrow (c + dc) (r + dr) = true
    · simp only [hb, Bool.not_true, Bool.false_eq_true, if_false, coords_to_square]
      by_cases he : board ⟨c + dc, r + dr⟩ = Piece.empty
      · have ih2 : _ ↔ _ := ih (c + dc) (r + dr)
        rw [if_pos he, List.mem_cons, ih2]
        constructor
        · rintro (h | ⟨k, hk, ht, hall, hemp, hlast⟩)
          · refine ⟨0, by omega, by rw [one, one]; exact h, ?_, ?_, ?_⟩
            · intro j hj
              obtain rfl : j = 0 := by omega
              rw [one, one]; exact hb
            · intro j hj; omega
            · left; rw [h]; exact he
          · refine ⟨k + 1, by omega, by rw [← shift, ← shift]; exact ht, ?_, ?_, hlast⟩
            · intro j hj
              cases j with
              | zero => rw [one, one]; exact hb
              | succ i =>
                rw [← shift, ← shift]
                exact hall i (by omega)
            · intro j hj
              cases j with
              | zero => rw [one, one]; exact he
              | succ i =>
                rw [← shift, ← shift]
                exact hemp i (by omega)
        · rintro ⟨k, hk, ht, hall, hemp, hlast⟩
          cases k with
          | zero => left; rw [one, one] at ht; exact ht
          | succ i =>
            right
            refine ⟨i, by omega, by rw [shift, shift]; exact ht, ?_, ?_, hlast⟩
            · intro j hj
              rw [shift, shift]
              exact hall (j + 1) (by omega)
            · intro j hj
              rw [shift, shift]
              exact hemp (j + 1) (by omega)
      · rw [if_neg he]
        by_cases hc : starts_with (board ⟨c + dc, r + dr⟩) color = true
        · rw [if_pos hc]
          simp only [List.not_mem_nil, false_iff]
          rintro ⟨k, hk, ht, hall, hemp, hlast⟩
          cases k with
          | zero =>
            rw [one, one] at ht
            rw [ht] at hlast
            rcases hlast with h | h
            · exact he h
            · rw [hc] at h; exact absurd h (by decide)
          | succ i =>
            have := hemp 0 (by omega)
            rw [one, one] at this
            exact he this
        · rw [if_neg hc, List.mem_singleton]
          constructor
          · intro h
            refine ⟨0, by omega, by rw [one, one]; exact h, ?_, ?_, ?_⟩
            · intro j hj
              obtain rfl : j = 0 := by omega
              rw [one, one]; exact hb
            · intro j hj; omega
            · right; rw [h]; simpa using hc
          · rintro ⟨k, hk, ht, hall, hemp, hlast⟩
            cases k with
            | zero => rw [one, one] at ht; exact ht
            | succ i =>
              have := hemp 0 (by omega)
              rw [one, one] at this
              exact absurd this he
    · simp only [hb, Bool.not_false, if_true, List.not_mem_nil, false_iff]
      rintro ⟨k, hk, ht, hall, hemp, hlast⟩
      have := hall 0 (by omega)
      rw [one, one] at this
      exact hb this

theorem slider_dir_cases (d : Int × Int) (hd : d ∈ ROOK_DIRECTIONS ∨ d ∈ BISHOP_DIRECTIONS) :
    d = (0, 1) ∨ d = (0, -1) ∨ d = (-1, 0) ∨ d = (1, 0) ∨
      d = (1, 1) ∨ d = (-1, 1) ∨ d = (-1, -1) ∨ d = (1, -1) := by
  simp only [ROOK_DIRECTIONS, BISHOP_DIRECTIONS, List.mem_cons, List.mem_singleton,
    List.not_mem_nil, or_false] at hd
  tauto

/-- A ray from a square of the board in one of the eight directions holds exactly
the slider targets of that direction. -/
theorem mem_ray_from_square (board : BoardMap) (color : Color) (d : Int × Int)
    (hd : d ∈ ROOK_DIRECTIONS ∨ d ∈ BISHOP_DIRECTIONS) (sq : Square)
    (hsq : in_bounds_colrow sq.col sq.row = true) (t : Square) :
    t ∈ ray_moves board color d.1 d.2 8 sq.col sq.row ↔
      slider_target board color [d] sq t := by
  rw [mem_ray_moves]
  unfold slider_target
  simp only [List.mem_singleton, exists_eq_left]
  rw [in_bounds_colrow_eq, Replit.in_bounds_iff] at hsq
  have hunit : (d.1 = -1 ∨ d.1 = 0 ∨ d.1 = 1) ∧ (d.2 = -1 ∨ d.2 = 0 ∨ d.2 = 1) ∧
      ¬ (d.1 = 0 ∧ d.2 = 0) := by
    rcases slider_dir_cases d hd with h | h | h | h | h | h | h | h <;> rw [h] <;> simp
  constructor
  · rintro ⟨k, _, ht, hall, hemp, hlast⟩
    refine ⟨k + 1, by omega, ht, ?_, ?_, hlast⟩
    · rw [ht]; exact hall k (le_refl k)
    · intro j hj1 hj2
      obtain ⟨i, rfl⟩ : ∃ i, j = i + 1 := ⟨j - 1, by omega⟩
      exact hemp i (by omega)
  · rintro ⟨n, hn, ht, hb, hemp, hlast⟩
    obtain ⟨k, rfl⟩ : ∃ k, n = k + 1 := ⟨n - 1, by omega⟩
    rw [ht, in_bounds_colrow_eq] at hb
    have hb2 := hb
    rw [Replit.in_bounds_iff] at hb2
    have hk8 : k < 8 := by
      obtain ⟨h1, h2, h3⟩ := hunit
      push_cast at hb2
      rcases h1 with h | h | h <;> rcases h2 with h' | h' | h' <;> rw [h, h'] at hb2 h3 <;>
        simp at h3 hb2 <;> omega
    refine ⟨k, hk8, ht, ?_, fun j hj => hemp (j + 1) (by omega) (by omega), hlast⟩
    intro j hj
    rw [in_bounds_colrow_eq]
    exact Replit.in_bounds_between d.1 d.2 hunit sq.col sq.row
      ((Replit.in_bounds_iff _ _).2 hsq) (k + 1) hb (j + 1) (by omega)

theorem ray_moves_nodup (board : BoardMap) (color : Color) (dc dr : Int)
    (hd : ¬ (dc = 0 ∧ dr = 0)) (fuel : Nat) (c r : Int) :
    (ray_moves board color dc dr fuel c r).Nodup := by
  induction fuel generalizing c r with
  | zero => simp [ray_moves]
  | succ n ih =>
    unfold ray_moves
    simp only [coords_to_square]
    split_ifs
    · exact List.nodup_nil
    · rw [List.nodup_cons]
      refine ⟨?_, ih _ _⟩
      rw [mem_ray_moves]
      rintro ⟨k, _, ht, _⟩
      simp only [Square.mk.injEq] at ht
      apply hd
      have h1 : ((k + 1 : Nat) : Int) * dc = 0 := by linarith [ht.1]
      have h2 : ((k + 1 : Nat) : Int) * dr = 0 := by linarith [ht.2]
      have hk : ((k + 1 : Nat) : Int) ≠ 0 := by push_cast; omega
      exact ⟨(mul_eq_zero.mp h1).resolve_left hk, (mul_eq_zero.mp h2).resolve_left hk⟩
    · exact List.nodup_nil
    · exact List.nodup_singleton _

theorem rays_disjoint (board : BoardMap) (color : Color) (d e : Int × Int)
    (hd : d ∈ ROOK_DIRECTIONS ∨ d ∈ BISHOP_DIRECTIONS)
    (he : e ∈ ROOK_DIRECTIONS ∨ e ∈ BISHOP_DIRECTIONS) (hne : d ≠ e) (c r : Int) (t : Square)
    (h1 : t ∈ ray_moves board color d.1 d.2 8 c r)
    (h2 : t ∈ ray_moves board color e.1 e.2 8 c r) : False := by
  rw [mem_ray_moves] at h1 h2
  obtain ⟨k, _, ht, _⟩ := h1
  obtain ⟨k2, _, ht2, _⟩ := h2
  rw [ht] at ht2
  simp only [Square.mk.injEq] at ht2
  obtain ⟨e1, e2⟩ := ht2
  push_cast at e1 e2
  rcases slider_dir_cases d hd with h | h | h | h | h | h | h | h <;>
    rcases slider_dir_cases e he with h' | h' | h' | h' | h' | h' | h' | h' <;>
    subst h <;> subst h' <;> first | exact hne rfl | (simp only at e1 e2; omega)

/-- Slider generation for a table of directions: membership and no repetition. -/
theorem slider_moves_of_dirs (board : BoardMap) (color : Color) (dirs : List (Int × Int))
    (hdirs : ∀ d ∈ dirs, d ∈ ROOK_DIRECTIONS ∨ d ∈ BISHOP_DIRECTIONS) (hnd : dirs.Nodup)
    (sq : Square) (hsq : in_bounds_colrow sq.col sq.row = true) :
    (∀ t : Square,
      t ∈ dirs.flatMap (fun d => ray_moves board color d.1 d.2 8 sq.col sq.row) ↔
        slider_target board color dirs sq t) ∧
    (dirs.flatMap (fun d => ray_moves board color d.1 d.2 8 sq.col sq.row)).Nodup := by
  constructor
  · intro t
    rw [List.mem_flatMap]
    constructor
    · rintro ⟨d, hd, hm⟩
      have := (mem_ray_from_square board color d (hdirs d hd) sq hsq t).1 hm
      unfold slider_target at this ⊢
      simp only [List.mem_singleton, exists_eq_left] at this
      exact ⟨d, hd, this⟩
    · rintro ⟨d, hd, h⟩
      refine ⟨d, hd, (mem_ray_from_square board color d (hdirs d hd) sq hsq t).2 ?_⟩
      unfold slider_target
      simp only [List.mem_singleton, exists_eq_left]
      exact h
  · rw [List.nodup_flatMap]
    constructor
    · intro d hd
      have hunit : ¬ (d.1 = 0 ∧ d.2 = 0) := by
        rcases slider_dir_cases d (hdirs d hd) with h | h | h | h | h | h | h | h <;>
          rw [h] <;> simp
      exact ray_moves_nodup board color d.1 d.2 hunit 8 _ _
    · refine List.Pairwise.imp_of_mem ?_ hnd
      intro d e hd he hne
      intro t h1 h2
      exact rays_disjoint board color d e (hdirs d hd) (hdirs e he) hne _ _ t h1 h2

/-- C31 (slider generation, string engine): for every full board, square `sq` of the
board and colour `c`, `rook_moves_from` (the four orthogonal directions),
`bishop_moves_from` (the four diagonal directions) and `queen_moves_from` (all
eight) return exactly the squares `t` that lie on one of the piece's rays from
`sq`, with every square strictly between `sq` and `t` empty and `t` empty or
holding a piece not of colour `c`; and no square is returned twice. -/
theorem slider_moves_spec (board : BoardMap) (sq : Square) (c : Color)
    (hsq : in_bounds_colrow sq.col sq.row = true) :
    ((∀ t : Square, t ∈ rook_moves_from sq board c ↔
        slider_target board c ROOK_DIRECTIONS sq t) ∧
      (rook_moves_from sq board c).Nodup) ∧
    ((∀ t : Square, t ∈ bishop_moves_from sq board c ↔
        slider_target board c BISHOP_DIRECTIONS sq t) ∧
      (bishop_moves_from sq board c).Nodup) ∧
    ((∀ t : Square, t ∈ queen_moves_from sq board c ↔
        slider_target board c (ROOK_DIRECTIONS ++ BISHOP_DIRECTIONS) sq t) ∧
      (queen_moves_from sq board c).Nodup) := by
  refine ⟨?_, ?_, ?_⟩
  · exact slider_moves_of_dirs board c ROOK_DIRECTIONS (fun d hd => Or.inl hd) (by decide) sq hsq
  · exact slider_moves_of_dirs board c BISHOP_DIRECTIONS (fun d hd => Or.inr hd) (by decide)
      sq hsq
  · have hq : queen_moves_from sq board c =
        (ROOK_DIRECTIONS ++ BISHOP_DIRECTIONS).flatMap
          (fun d => ray_moves board c d.1 d.2 8 sq.col sq.row) := by
      unfold queen_moves_from rook_moves_from bishop_moves_from
      rw [List.flatMap_append]
      rfl
    rw [hq]
    exact slider_moves_of_dirs board c (ROOK_DIRECTIONS ++ BISHOP_DIRECTIONS)
      (fun d hd => List.mem_append.mp hd) (by decide) sq hsq

theorem slider_moves_spec_witness :
    (rook_moves_from ⟨3, 3⟩ rookOnD4 Color.white).Nodup ∧
    (⟨5, 3⟩ ∈ rook_moves_from ⟨3, 3⟩ rookOnD4 Color.white ↔
      slider_target rookOnD4 Color.white ROOK_DIRECTIONS ⟨3, 3⟩ ⟨5, 3⟩) :=
  ⟨(slider_moves_spec rookOnD4 ⟨3, 3⟩ Color.white (by decide)).1.2,
    (slider_moves_spec rookOnD4 ⟨3, 3⟩ Color.white (by decide)).1.1 ⟨5, 3⟩⟩

end Engine

namespace Replit
open Piece

/-! ## Material scores and the mate score -/

theorem evaluate_position_eq_sum (board : Board) :
    evaluate_position board =
      ((List.range 64).map fun sq : Nat => signed_value (board (sq : Int))).sum := by
  unfold evaluate_position
  have hstep : (fun (score : Int) (sq : Int) =>
      if is_empty (board sq) = true then score
      else score + (if is_white (board sq) = true then piece_value (board sq)
        else -piece_value (board sq))) =
      fun (score : Int) (sq : Int) => score + signed_value (board sq) := by
    funext score sq
    unfold signed_value
    split_ifs <;> simp
  rw [hstep, Engine.foldl_add_eq_sum]
  simp only [List.bind_eq_flatMap, List.pure_def, zero_add]
  rw [← List.map_eq_flatMap, List.map_map]
  rfl

theorem signed_value_bounds (p : Piece) :
    (20000 * (if decide (p = W_KING) then 1 else 0) -
        20000 * (if decide (p = B_KING) then 1 else 0) -
        900 * (if non_king_of false p then 1 else 0) : Int) ≤ signed_value p ∧
    signed_value p ≤ (20000 * (if decide (p = W_KING) then 1 else 0) -
        20000 * (if decide (p = B_KING) then 1 else 0) +
        900 * (if non_king_of true p then 1 else 0) : Int) := by
  cases p <;> decide

theorem sum_indicator_eq_count {α : Type} (k : α → Bool) (l : List α) :
    (l.map fun x => ((if k x then 1 else 0 : Int))).sum = ((l.filter k).length : Int) := by
  induction l with
  | nil => simp
  | cons a t ih =>
    rw [List.map_cons, List.sum_cons, ih, List.filter_cons]
    cases k a <;> simp
    ring

theorem sum_map_le_sum_map {α : Type} (f g : α → Int) (l : List α) (h : ∀ x, f x ≤ g x) :
    (l.map f).sum ≤ (l.map g).sum := by
  induction l with
  | nil => simp
  | cons a t ih =>
    simp only [List.map_cons, List.sum_cons]
    exact add_le_add (h a) ih

theorem sum_three_indicators {α : Type} (k1 k2 k3 : α → Bool) (c : Int) (l : List α) :
    (l.map fun x => (20000 * (if k1 x then 1 else 0) - 20000 * (if k2 x then 1 else 0) +
        c * (if k3 x then 1 else 0) : Int)).sum =
      20000 * ((l.filter k1).length : Int) - 20000 * ((l.filter k2).length : Int) +
        c * ((l.filter k3).length : Int) := by
  rw [← sum_indicator_eq_count k1, ← sum_indicator_eq_count k2, ← sum_indicator_eq_count k3]
  induction l with
  | nil => simp
  | cons a t ih =>
    simp only [List.map_cons, List.sum_cons, ih]
    ring

theorem evaluate_position_bounds (board : Board) :
    20000 * (count_pieces board (fun p => decide (p = W_KING)) : Int) -
        20000 * (count_pieces board (fun p => decide (p = B_KING)) : Int) -
        900 * (count_pieces board (non_king_of false) : Int) ≤ evaluate_position board ∧
    evaluate_position board ≤
      20000 * (count_pieces board (fun p => decide (p = W_KING)) : Int) -
        20000 * (count_pieces board (fun p => decide (p = B_KING)) : Int) +
        900 * (count_pieces board (non_king_of true) : Int) := by
  rw [evaluate_position_eq_sum]
  unfold count_pieces
  constructor
  · have h := sum_three_indicators (fun sq : Nat => decide (board (sq : Int) = W_KING))
      (fun sq : Nat => decide (board (sq : Int) = B_KING))
      (fun sq : Nat => non_king_of false (board (sq : Int))) (-900) (List.range 64)
    have h2 := sum_map_le_sum_map
      (fun sq : Nat => (20000 * (if decide (board (sq : Int) = W_KING) then 1 else 0) -
        20000 * (if decide (board (sq : Int) = B_KING) then 1 else 0) +
        (-900) * (if non_king_of false (board (sq : Int)) then 1 else 0) : Int))
      (fun sq : Nat => signed_value (board (sq : Int))) (List.range 64)
      (fun sq => by have := (signed_value_bounds (board (sq : Int))).1; beta_reduce; linarith)
    rw [h] at h2
    linarith
  · have h := sum_three_indicators (fun sq : Nat => decide (board (sq : Int) = W_KING))
      (fun sq : Nat => decide (board (sq : Int) = B_KING))
      (fun sq : Nat => non_king_of true (board (sq : Int))) 900 (List.range 64)
    have h2 := sum_map_le_sum_map
      (fun sq : Nat => signed_value (board (sq : Int)))
      (fun sq : Nat => (20000 * (if decide (board (sq : Int) = W_KING) then 1 else 0) -
        20000 * (if decide (board (sq : Int) = B_KING) then 1 else 0) +
        900 * (if non_king_of true (board (sq : Int)) then 1 else 0) : Int))
      (List.range 64)
      (fun sq => (signed_value_bounds (board (sq : Int))).2)
    rw [h] at h2
    linarith

/-- C34 (mate score against material scores, array engine): for every board with
exactly one white king, exactly one black king and at most 15 other pieces of
each colour on the squares 0..63, `evaluate_position` lies strictly between
-20000 and 20000; so the value `minimax` returns at a depth-0 leaf of such a
board is `evaluate_position` of it and differs from both checkmate values
-20000 and 20000. -/
theorem material_score_below_mate (board : Board)
    (hwk : count_pieces board (fun p => decide (p = W_KING)) = 1)
    (hbk : count_pieces board (fun p => decide (p = B_KING)) = 1)
    (hw : count_pieces board (non_king_of true) ≤ 15)
    (hb : count_pieces board (non_king_of false) ≤ 15) :
    -20000 < evaluate_position board ∧ evaluate_position board < 20000 ∧
    ∀ (fuel : Nat) (s : GameState) (maximizing current : Bool) (alpha beta : Score)
      (tt : Option TranspositionTable), s.board = board →
      minimax (fuel + 1) s maximizing current 0 alpha beta false tt =
        some (((evaluate_position board : Int) : Score), tt) ∧
      ((evaluate_position board : Int) : Score) ≠ ((-20000 : Int) : Score) ∧
      ((evaluate_position board : Int) : Score) ≠ ((20000 : Int) : Score) := by
  obtain ⟨h1, h2⟩ := evaluate_position_bounds board
  rw [hwk, hbk] at h1 h2
  have hw2 : (count_pieces board (non_king_of true) : Int) ≤ 15 := by exact_mod_cast hw
  have hb2 : (count_pieces board (non_king_of false) : Int) ≤ 15 := by exact_mod_cast hb
  have hlo : -20000 < evaluate_position board := by push_cast at h1; linarith
  have hhi : evaluate_position board < 20000 := by push_cast at h2; linarith
  refine ⟨hlo, hhi, ?_⟩
  intro fuel s maximizing current alpha beta tt hs
  refine ⟨?_, ?_, ?_⟩
  · unfold minimax
    simp [hs]
  · intro h
    have h3 : evaluate_position board = -20000 := by exact_mod_cast h
    omega
  · intro h
    have h3 : evaluate_position board = 20000 := by exact_mod_cast h
    omega

theorem material_score_below_mate_witness :
    -20000 < evaluate_position startBoard ∧ evaluate_position startBoard < 20000 :=
  ⟨(material_score_below_mate startBoard (by decide) (by decide) (by decide) (by decide)).1,
    (material_score_below_mate startBoard (by decide) (by decide) (by decide) (by decide)).2.1⟩

end Replit

namespace Engine

/-! ## Antisymmetry of the string engine's evaluation -/

theorem evaluate_board_material_mobility (board : BoardMap) (c : Color) :
    evaluate_board board c =
      material board c - material board (opponent c) +
        2 * (mobility board c - mobility board (opponent c)) := by
  have hmat : all_squares.foldl (fun score sq =>
      match board sq with
      | Piece.empty => score
      | Piece.mk color_label ptype =>
        if color_label = c then score + PIECE_VALUES ptype
        else score - PIECE_VALUES ptype) 0 = material board c - material board (opponent c) := by
    have hstep : (fun (score : Int) (sq : Square) =>
        match board sq with
        | Piece.empty => score
        | Piece.mk color_label ptype =>
          if color_label = c then score + PIECE_VALUES ptype
          else score - PIECE_VALUES ptype) =
        fun score sq => score +
          ((match board sq with
            | Piece.empty => 0
            | Piece.mk c2 k => if c2 = c then spec_value k else 0) -
           (match board sq with
            | Piece.empty => 0
            | Piece.mk c2 k => if c2 = opponent c then spec_value k else 0)) := by
      funext score sq
      cases hb : board sq with
      | empty => simp
      | mk c2 k =>
        cases c2 <;> cases c <;> cases k <;>
          simp only [opponent, PIECE_VALUES, spec_value, reduceCtorEq, if_true, if_false] <;>
          ring
    rw [hstep, foldl_add_eq_sum, sum_map_sub, zero_add]
    rfl
  unfold evaluate_board
  simp only [count_moves_eq, mobility]
  exact congrArg (fun x : Int => x + 2 * (mobility board c - mobility board (opponent c))) hmat

/-- C39 (antisymmetry of the evaluation, string engine): for every board, whose
non-empty squares hold white or black pieces, `evaluate_board(board, "white")`
is the negation of `evaluate_board(board, "black")`. -/
theorem evaluate_board_antisymmetric (board : BoardMap) :
    evaluate_board board Color.white = -evaluate_board board Color.black := by
  rw [evaluate_board_material_mobility, evaluate_board_material_mobility]
  have h1 : opponent Color.white = Color.black := rfl
  have h2 : opponent Color.black = Color.white := rfl
  rw [h1, h2]
  ring

end Engine
